import Mathlib

/-!
# Dotward: a verification development

A shallow embedding of the Go sources of `dotward`:

* `internal/crypto/crypto.go`       (`EncryptFile`, `DecryptFile`, `decryptPayload`, `deriveKey`)
* `internal/crypto/crypto_test.go`  (`encryptLegacyNoHeader`)
* `internal/core/state.go`          (`State` and its operations, `LoadState`, `State.Save`)
* `internal/core/config.go`         (`loadDefaultTTL`, `EnsureDirs`, `ensureDefaultConfigFile`)
* `internal/core/files.go`          (`SecureDelete`)
* `cmd/app/rpc_server.go`           (`Manager.Register`, `Manager.Extend`, `Manager.StopWatching`)
* `cmd/app/main_darwin.go`          (`app.checkFiles`, `app.lockAllWatchedFilesOnExit`)

Files, the random source and the calls into external libraries are explicit:
a `World` holds the file contents, the entropy still to be drawn and a trace of
the effects performed so far.  Argon2id and AES-GCM are library code outside the
repository; they enter as a record of functions (`Primitives`) whose documented
contracts are collected in `Primitives.Lawful`.
-/

set_option autoImplicit false

namespace Dotward

/-- A byte. -/
abbrev Byte := Fin 256

/-- A byte slice (`[]byte`). -/
abbrev Bytes := List Byte

/-- Go slicing `b[lo:hi]`. -/
def slice (b : Bytes) (lo hi : Nat) : Bytes := (b.drop lo).take (hi - lo)

/-! ## The world: files, entropy, effect trace -/

/-- The profile handed to Argon2id (`argon2Params` in `crypto.go`). -/
structure argon2Params where
  time : Nat
  memory : Nat
  threads : Nat
deriving DecidableEq, Repr

/-- Calls that leave the program: file-system calls, draws from the random source, calls into
the cryptographic libraries and notifications. The trace of a run is a list of these. -/
inductive Event
  | readFile (path : String)
  | writeFile (path : String) (data : Bytes)
  | openFile (path : String)
  | write (path : String) (data : Bytes)
  | sync (path : String)
  | close (path : String)
  | rename (oldpath newpath : String)
  | chmod (path : String)
  | randRead (n : Nat)
  | deriveKey (params : argon2Params)
  | gcmSeal
  | gcmOpen
  | fileUnlocked (path : String) (ttl : Int)
  | stat (path : String)
  | openWrite (path : String)
  | fstat (path : String)
  | remove (path : String)
  | mkdirAll (path : String)
  | openExcl (path : String)
  | warn (path : String) (expiresAt : Int)
  | fileDeleted (path : String)
deriving DecidableEq, Repr

/-- Errors of the `os` package, as far as the code tells them apart. -/
inductive IOError
  | notExist
  | other
deriving DecidableEq, Repr

/-- The environment of the program. `content p = none` means that `p` does not exist;
`denied e` tells whether the call `e` fails when it is made (permissions, a full disk, ...);
`entropy` is what the random source still has to give; `now` is the reading of the clock. -/
structure World where
  content : String → Option Bytes
  denied : Event → Bool
  entropy : Bytes
  now : Int
  trace : List Event

/-- Append one event to the trace. -/
def World.emit (w : World) (e : Event) : World :=
  { w with trace := w.trace ++ [e] }

/-- Set the content of one path. -/
def World.put (w : World) (path : String) (data : Option Bytes) : World :=
  { w with content := Function.update w.content path data }

/-- The call `os.ReadFile(path)`. -/
def ReadFile (path : String) (w : World) : Except IOError Bytes × World :=
  match w.content path with
  | none => (.error .notExist, w.emit (.readFile path))
  | some b =>
    if w.denied (.readFile path) then (.error .other, w.emit (.readFile path))
    else (.ok b, w.emit (.readFile path))

/-- The call `os.WriteFile(path, data, 0o600)`. The attempt is traced whether or not it succeeds;
a failed attempt is taken to leave the contents as they were. -/
def WriteFile (path : String) (data : Bytes) (w : World) : Except IOError Unit × World :=
  if w.denied (.writeFile path data) then (.error .other, w.emit (.writeFile path data))
  else (.ok (), (w.emit (.writeFile path data)).put path (some data))

/-- The call `io.ReadFull(rand.Reader, buf)` with `len(buf) = n`: all `n` bytes or an error. -/
def randReadFull (n : Nat) (w : World) : Option Bytes × World :=
  if n ≤ w.entropy.length then
    (some (w.entropy.take n), { w.emit (.randRead n) with entropy := w.entropy.drop n })
  else (none, w.emit (.randRead n))

/-- The call `os.Stat(path)`, as far as its error goes. -/
def Stat (path : String) (w : World) : Option IOError × World :=
  match w.content path with
  | none => (some .notExist, w.emit (.stat path))
  | some _ =>
    if w.denied (.stat path) then (some .other, w.emit (.stat path))
    else (none, w.emit (.stat path))

/-- The call `os.Remove(path)`. -/
def Remove (path : String) (w : World) : Option IOError × World :=
  match w.content path with
  | none => (some .notExist, w.emit (.remove path))
  | some _ =>
    if w.denied (.remove path) then (some .other, w.emit (.remove path))
    else (none, (w.emit (.remove path)).put path none)

/-- Whether an event names the path `p`. -/
def Event.touches (p : String) : Event → Bool
  | .readFile q => q == p
  | .writeFile q _ => q == p
  | .openFile q => q == p
  | .write q _ => q == p
  | .sync q => q == p
  | .close q => q == p
  | .rename q r => q == p || r == p
  | .chmod q => q == p
  | .randRead _ => false
  | .deriveKey _ => false
  | .gcmSeal => false
  | .gcmOpen => false
  | .fileUnlocked q _ => q == p
  | .stat q => q == p
  | .openWrite q => q == p
  | .fstat q => q == p
  | .remove q => q == p
  | .mkdirAll q => q == p
  | .openExcl q => q == p
  | .warn q _ => q == p
  | .fileDeleted q => q == p

/-- Whether an event is a warning for the path `p`. -/
def Event.isWarn (p : String) : Event → Bool
  | .warn q _ => q == p
  | _ => false

/-- Whether an event is a call that only `SecureDelete` of `p` makes (open for writing, stat of
the open file, removal) or a notification about `p`. -/
def Event.deletesOrNotifies (p : String) : Event → Bool
  | .openWrite q => q == p
  | .fstat q => q == p
  | .remove q => q == p
  | .warn q _ => q == p
  | .fileDeleted q => q == p
  | .fileUnlocked q _ => q == p
  | _ => false

/-- Whether an event is a call that, in the daemon, only `State.Save` makes: the open of the
temporary state file, the rename onto the state file and the chmod. -/
def Event.savesState : Event → Bool
  | .openFile _ => true
  | .rename _ _ => true
  | .chmod _ => true
  | _ => false

/-- The world `w2` comes from `w` by steps that leave the path `p` alone: the file at `p` is
as it was, the trace has only gained events that do not name `p`, and the calls that fail are
the same. -/
def World.awayFrom (p : String) (w w2 : World) : Prop :=
  w2.denied = w.denied ∧ w2.content p = w.content p ∧
    ∃ evs, w2.trace = w.trace ++ evs ∧ ∀ e ∈ evs, Event.touches p e = false

/-! ## `internal/crypto` -/

namespace Crypto

/-- The bytes of `"DOT1"`. -/
def magicHeader : Bytes := [68, 79, 84, 49]

def versionByte : Byte := 1

def saltSize : Nat := 16

def keySize : Nat := 32

/-- The value of `gcm.NonceSize()` for the standard GCM of `crypto/cipher`. -/
def gcmNonceSize : Nat := 12

/-- The length of the authentication tag that `gcm.Seal` appends. -/
def gcmTagSize : Nat := 16

def currentArgon2 : argon2Params := { time := 3, memory := 64 * 1024, threads := 4 }

def legacyArgon2Profiles : List argon2Params :=
  [currentArgon2, { time := 1, memory := 64 * 1024, threads := 4 }]

/-- The library functions the package calls: `argon2.IDKey(pw, salt, time, memory, threads, keyLen)`,
and `Seal` and `Open` of AES-GCM as `key → nonce → data → result` (no additional data). -/
structure Primitives where
  idKey : Bytes → Bytes → Nat → Nat → Nat → Nat → Bytes
  gcmSeal : Bytes → Bytes → Bytes → Bytes
  gcmOpen : Bytes → Bytes → Bytes → Option Bytes

/-- Whether `aes.NewCipher` accepts a key of this length. -/
def aesKeySizeOk (n : Nat) : Bool := n == 16 || n == 24 || n == 32

/-- The documented contracts of the libraries: `IDKey` returns `keyLen` bytes and, for a key
that `aes.NewCipher` accepts and a nonce of the standard size, `Seal` appends a 16-byte tag
and `Open` inverts `Seal` under the same key and nonce. -/
structure Primitives.Lawful (P : Primitives) : Prop where
  idKey_length : ∀ pw salt t m th n, (P.idKey pw salt t m th n).length = n
  seal_length : ∀ key nonce pt, aesKeySizeOk key.length = true → nonce.length = gcmNonceSize →
    (P.gcmSeal key nonce pt).length = pt.length + gcmTagSize
  open_seal : ∀ key nonce pt, aesKeySizeOk key.length = true → nonce.length = gcmNonceSize →
    P.gcmOpen key nonce (P.gcmSeal key nonce pt) = some pt

/-- Errors of `decryptPayload`. -/
inductive OpenError
  | aesInit
  | invalidNonceSize
  | authFailed
deriving DecidableEq, Repr

/-- Errors of `EncryptFile` and `DecryptFile`, one per `return` that carries an error. -/
inductive Error
  | readPlaintext
  | generateSalt
  | aesInit
  | generateNonce
  | writeEncrypted
  | readEncrypted
  | tooShort
  | unsupportedVersion (v : Byte)
  | writePlaintext
  | decryptFailed (cause : OpenError)
  | decryptFailedNoCause
deriving DecidableEq, Repr

/-- The function `deriveKey`. -/
def deriveKey (P : Primitives) (password salt : Bytes) (params : argon2Params) (w : World) :
    Bytes × World :=
  (P.idKey password salt params.time params.memory params.threads keySize,
    w.emit (.deriveKey params))

/-- The function `decryptPayload`. Of its error returns, the one after `cipher.NewGCM` is
left out: `NewGCM` accepts every AES block. -/
def decryptPayload (P : Primitives) (password : Bytes) (params : argon2Params)
    (salt nonce ciphertext : Bytes) (w : World) : Except OpenError Bytes × World :=
  let (key, w1) := deriveKey P password salt params w
  if !aesKeySizeOk key.length then (.error .aesInit, w1)
  else if nonce.length ≠ gcmNonceSize then (.error .invalidNonceSize, w1)
  else
    match P.gcmOpen key nonce ciphertext with
    | none => (.error .authFailed, w1.emit .gcmOpen)
    | some plaintext => (.ok plaintext, w1.emit .gcmOpen)

/-- The function `EncryptFile`. The error return after `cipher.NewGCM` is left out, as in
`decryptPayload`; `zeroBytes` changes no result and is not modelled. -/
def EncryptFile (P : Primitives) (src dst : String) (password : Bytes) (w : World) :
    Option Error × World :=
  match ReadFile src w with
  | (.error _, w1) => (some .readPlaintext, w1)
  | (.ok plaintext, w1) =>
    match randReadFull saltSize w1 with
    | (none, w2) => (some .generateSalt, w2)
    | (some salt, w2) =>
      let (key, w3) := deriveKey P password salt currentArgon2 w2
      if !aesKeySizeOk key.length then (some .aesInit, w3)
      else
        match randReadFull gcmNonceSize w3 with
        | (none, w4) => (some .generateNonce, w4)
        | (some nonce, w4) =>
          let ciphertext := P.gcmSeal key nonce plaintext
          let w5 := w4.emit .gcmSeal
          let payload := magicHeader ++ [versionByte] ++ salt ++ nonce ++ ciphertext
          match WriteFile dst payload w5 with
          | (.error _, w6) => (some .writeEncrypted, w6)
          | (.ok _, w6) => (none, w6)

/-- The loop `for _, params := range legacyArgon2Profiles` of `DecryptFile` together with the
code after it; `lastErr` is the variable of that name. -/
def tryProfiles (P : Primitives) (dst : String) (password salt nonce ciphertext : Bytes) :
    List argon2Params → Option OpenError → World → Option Error × World
  | [], lastErr, w =>
    match lastErr with
    | some e => (some (.decryptFailed e), w)
    | none => (some .decryptFailedNoCause, w)
  | params :: rest, _, w =>
    match decryptPayload P password params salt nonce ciphertext w with
    | (.error e, w1) => tryProfiles P dst password salt nonce ciphertext rest (some e) w1
    | (.ok plaintext, w1) =>
      match WriteFile dst plaintext w1 with
      | (.error _, w2) => (some .writePlaintext, w2)
      | (.ok _, w2) => (none, w2)

/-- The function `DecryptFile`. -/
def DecryptFile (P : Primitives) (src dst : String) (password : Bytes) (w : World) :
    Option Error × World :=
  match ReadFile src w with
  | (.error _, w1) => (some .readEncrypted, w1)
  | (.ok payload, w1) =>
    if payload.length < saltSize + 12 + 16 then (some .tooShort, w1)
    else if magicHeader.length + 1 ≤ payload.length ∧
        slice payload 0 magicHeader.length = magicHeader then
      if payload.getD magicHeader.length 0 ≠ versionByte then
        (some (.unsupportedVersion (payload.getD magicHeader.length 0)), w1)
      else
        let offset := magicHeader.length + 1
        if payload.length < offset + saltSize + 12 + 16 then (some .tooShort, w1)
        else
          tryProfiles P dst password
            (slice payload offset (offset + saltSize))
            (slice payload (offset + saltSize) (offset + saltSize + 12))
            (payload.drop (offset + saltSize + 12))
            legacyArgon2Profiles none w1
    else
      tryProfiles P dst password
        (slice payload 0 saltSize)
        (slice payload saltSize (saltSize + 12))
        (payload.drop (saltSize + 12))
        legacyArgon2Profiles none w1

/-! ### A small instance of the primitives, for evaluation -/

/-- Sum of the bytes of a slice. -/
def byteSum (b : Bytes) : Byte := b.foldl (fun acc x => acc + x) 0

/-- A checksum of a slice that depends on the order of its bytes. -/
def byteMix (b : Bytes) : Byte := b.foldl (fun acc x => acc + acc + x) 0

/-- A stand-in key derivation: `n` copies of a checksum of password, salt and time cost. It
serves to evaluate the code; like every function into keys of a fixed size it has collisions,
and nothing is concluded from them. -/
def toyIdKey (pw salt : Bytes) (t _m _th n : Nat) : Bytes :=
  List.replicate n (byteMix pw + byteSum salt + Fin.ofNat t)

/-- The tag of the stand-in cipher. -/
def toyTag (key nonce : Bytes) : Bytes :=
  List.replicate gcmTagSize (byteSum key + byteSum nonce)

def toySeal (key nonce pt : Bytes) : Bytes := pt ++ toyTag key nonce

def toyOpen (key nonce ct : Bytes) : Option Bytes :=
  if gcmTagSize ≤ ct.length ∧ ct.drop (ct.length - gcmTagSize) = toyTag key nonce then
    some (ct.take (ct.length - gcmTagSize))
  else none

/-- A stand-in for Argon2id and AES-GCM that meets `Primitives.Lawful`. -/
def toy : Primitives := { idKey := toyIdKey, gcmSeal := toySeal, gcmOpen := toyOpen }

/-- The helper `encryptLegacyNoHeader` of `crypto_test.go`: the layout without header, sealed
under the profile with time cost 1. -/
def encryptLegacyNoHeader (P : Primitives) (src dst : String) (password : Bytes) (w : World) :
    Option Error × World :=
  match ReadFile src w with
  | (.error _, w1) => (some .readPlaintext, w1)
  | (.ok plaintext, w1) =>
    match randReadFull saltSize w1 with
    | (none, w2) => (some .generateSalt, w2)
    | (some salt, w2) =>
      let legacy := P.idKey password salt 1 (64 * 1024) 4 keySize
      let w3 := w2.emit (.deriveKey { time := 1, memory := 64 * 1024, threads := 4 })
      if !aesKeySizeOk legacy.length then (some .aesInit, w3)
      else
        match randReadFull gcmNonceSize w3 with
        | (none, w4) => (some .generateNonce, w4)
        | (some nonce, w4) =>
          let ciphertext := P.gcmSeal legacy nonce plaintext
          let w5 := w4.emit .gcmSeal
          let payload := salt ++ nonce ++ ciphertext
          match WriteFile dst payload w5 with
          | (.error _, w6) => (some .writeEncrypted, w6)
          | (.ok _, w6) => (none, w6)

/-- A world for evaluation: one plaintext file, 28 bytes of entropy, no failing call. -/
def demoWorld : World :=
  { content := fun p => if p = "secret.env" then some [1, 2, 3] else none
    denied := fun _ => false
    entropy := List.replicate 28 7
    now := 0
    trace := [] }

/-- The payload `EncryptFile` assembles from a salt, a nonce and the plaintext, with the key
derived under `params`. -/
def sealedPayload (P : Primitives) (password salt nonce plaintext : Bytes)
    (params : argon2Params) : Bytes :=
  magicHeader ++ [versionByte] ++ salt ++ nonce ++
    P.gcmSeal (P.idKey password salt params.time params.memory params.threads keySize)
      nonce plaintext

/-- A world whose random source yields a salt that starts with the bytes of `"DOT1"`. -/
def magicSaltWorld : World :=
  { demoWorld with entropy := magicHeader ++ List.replicate 24 0 }

end Crypto

/-! ## `internal/core/state.go` -/

namespace Core

/-- A `time.Time`, as a count of nanoseconds on the time line; `t.Add(d)` is `t + d` and
`t.After(u)` is `u < t`. -/
abbrev Time := Int

/-- A `time.Duration`, in nanoseconds. -/
abbrev Duration := Int

/-- The constant `time.Second`. -/
def Second : Duration := 1000000000

/-- The constant `time.Minute`. -/
def Minute : Duration := 60 * Second

/-- The constant `time.Hour`. -/
def Hour : Duration := 60 * Minute

/-- The struct `WatchedFile`. -/
structure WatchedFile where
  Path : String
  ExpiresAt : Time
  Warned : Bool
deriving DecidableEq, Repr

/-- A `map[string]WatchedFile`: a finite map with at most one entry per key. Storing under a key
is `AList.insert`, `delete` is `AList.erase`, reading is `AList.lookup`. -/
abbrev FileMap := AList (fun _ : String => WatchedFile)

/-- The struct `State`. The mutex is not part of the model: operations run one at a time. -/
structure State where
  files : FileMap
deriving DecidableEq

/-- The function `NewState`. -/
def NewState : State := { files := ∅ }

/-- The method `State.Register`. -/
def State.Register (s : State) (path : String) (expiresAt : Time) : State :=
  { files := s.files.insert path { Path := path, ExpiresAt := expiresAt, Warned := false } }

/-- The method `State.StopWatching`. -/
def State.StopWatching (s : State) (path : String) : State :=
  { files := s.files.erase path }

/-- The method `State.Extend`: the result and the state afterwards. -/
def State.Extend (s : State) (path : String) (delta : Duration) : Bool × State :=
  match s.files.lookup path with
  | none => (false, s)
  | some wf =>
    (true, { files := s.files.insert path { wf with ExpiresAt := wf.ExpiresAt + delta,
                                                    Warned := false } })

/-- The method `State.Snapshot`: a copy of the map. -/
def State.Snapshot (s : State) : FileMap := s.files

/-- The method `State.MarkWarned`: the result and the state afterwards. -/
def State.MarkWarned (s : State) (path : String) : Bool × State :=
  match s.files.lookup path with
  | none => (false, s)
  | some wf => (true, { files := s.files.insert path { wf with Warned := true } })

/-- The method `State.Count`. -/
def State.Count (s : State) : Nat := s.files.entries.length

/-- The calls `json.MarshalIndent(list, "", "  ")` and `json.Unmarshal(b, &list)` of
`encoding/json` at the type `[]WatchedFile`; `none` is an error. -/
structure Codec where
  marshal : List WatchedFile → Option Bytes
  unmarshal : Bytes → Option (List WatchedFile)

/-- The white space of a JSON document: space, tab, line feed, carriage return. -/
def jsonSpace (b : Byte) : Bool := b == 32 || b == 9 || b == 10 || b == 13

/-- The first byte of a document after its leading white space, if it has one. -/
def jsonStart (b : Bytes) : Option Byte := (b.dropWhile jsonSpace).head?

/-- The JSON document `null`. -/
def jsonNull : Bytes := [110, 117, 108, 108]

/-- What `encoding/json` documents for `json.Unmarshal(b, &list)` at a slice of structs, as
far as documents other than arrays go. The document `null` sets the slice to nil and is no
error. A document that starts, after white space, with a byte other than `[` (91) and `n`
(110), or has no byte at all, is either not JSON or a JSON object, string, number or boolean,
and each of these is an error. -/
structure Codec.Json (C : Codec) : Prop where
  null : C.unmarshal jsonNull = some []
  notArray : ∀ b, jsonStart b ≠ some 91 → jsonStart b ≠ some 110 → C.unmarshal b = none

/-- Errors of `LoadState`. -/
inductive LoadError
  | read
  | decode
deriving DecidableEq, Repr

/-- The function `LoadState`. -/
def LoadState (C : Codec) (path : String) (w : World) : Except LoadError State × World :=
  match ReadFile path w with
  | (.error .notExist, w1) => (.ok NewState, w1)
  | (.error .other, w1) => (.error .read, w1)
  | (.ok b, w1) =>
    match C.unmarshal b with
    | none => (.error .decode, w1)
    | some list =>
      (.ok (list.foldl (fun s wf => { files := s.files.insert wf.Path wf }) NewState), w1)

/-- Errors of `State.Save`, one per `return` that carries an error. -/
inductive SaveError
  | encode
  | openTemp
  | writeTemp
  | syncTemp
  | closeTemp
  | replace
  | chmod
deriving DecidableEq, Repr

/-- The text of a `SaveError`. -/
def SaveError.message : SaveError → String
  | .encode => "failed to encode state"
  | .openTemp => "failed to open temp state file"
  | .writeTemp => "failed to write temp state file"
  | .syncTemp => "failed to sync temp state file"
  | .closeTemp => "failed to close temp state file"
  | .replace => "failed to replace state file"
  | .chmod => "failed to set permissions on state file"

/-- The method `State.Save`. The entries are listed in the order of the map; the closing
best-effort sync of the directory changes neither a file nor the result and is left out. -/
def State.Save (C : Codec) (s : State) (path : String) (w : World) : Option SaveError × World :=
  let list := s.files.entries.map (fun e => e.2)
  match C.marshal list with
  | none => (some .encode, w)
  | some b =>
    let tmpPath := path ++ ".tmp"
    if w.denied (.openFile tmpPath) then (some .openTemp, w.emit (.openFile tmpPath))
    else
      let w1 := (w.emit (.openFile tmpPath)).put tmpPath (some [])
      if w1.denied (.write tmpPath b) then
        (some .writeTemp, (w1.emit (.write tmpPath b)).emit (.close tmpPath))
      else
        let w2 := (w1.emit (.write tmpPath b)).put tmpPath (some b)
        if w2.denied (.sync tmpPath) then
          (some .syncTemp, (w2.emit (.sync tmpPath)).emit (.close tmpPath))
        else
          let w3 := w2.emit (.sync tmpPath)
          if w3.denied (.close tmpPath) then (some .closeTemp, w3.emit (.close tmpPath))
          else
            let w4 := w3.emit (.close tmpPath)
            if w4.denied (.rename tmpPath path) then
              (some .replace, w4.emit (.rename tmpPath path))
            else
              let w5 := ((w4.emit (.rename tmpPath path)).put path (some b)).put tmpPath none
              if w5.denied (.chmod path) then (some .chmod, w5.emit (.chmod path))
              else (none, w5.emit (.chmod path))

/-- The registry `s` is on disk at `path` in the world `w`: the file holds the encoding of the
entries of `s`. -/
def State.savedAt (C : Codec) (s : State) (path : String) (w : World) : Prop :=
  ∃ b, C.marshal (s.files.entries.map (fun e => e.2)) = some b ∧ w.content path = some b

/-- A stand-in for `encoding/json` that knows one document only: the empty list, written `[]`. -/
def demoCodec : Codec :=
  { marshal := fun l => if l = [] then some [91, 93] else none
    unmarshal := fun b => if b = [91, 93] then some [] else none }

/-- One call of a mutating method of `State`. -/
inductive Op
  | register (path : String) (expiresAt : Time)
  | extend (path : String) (delta : Duration)
  | markWarned (path : String)
  | stopWatching (path : String)
deriving DecidableEq, Repr

/-- The state after one call. -/
def State.apply (s : State) : Op → State
  | .register path expiresAt => s.Register path expiresAt
  | .extend path delta => (s.Extend path delta).2
  | .markWarned path => (s.MarkWarned path).2
  | .stopWatching path => s.StopWatching path

/-- The state after a sequence of calls. -/
def State.run (s : State) (ops : List Op) : State := ops.foldl State.apply s

/-- The `ExpiresAt` of the entry of `path`, if there is one. -/
def State.expiresAt (s : State) (path : String) : Option Time :=
  (s.files.lookup path).map (fun wf => wf.ExpiresAt)

/-- Calls that cannot move the deadline of `path` back in state `s`: no `StopWatching` of the
path, no `Extend` of it by a negative amount, no `Register` of it with an earlier deadline
than the one it has. -/
def Op.keeps (path : String) (s : State) : Op → Bool
  | .register p e =>
    p != path || (match s.expiresAt path with
      | some e0 => decide (e0 ≤ e)
      | none => true)
  | .extend p d => p != path || decide (0 ≤ d)
  | .markWarned _ => true
  | .stopWatching p => p != path

/-- Every call of the sequence keeps the deadline of `path`, each in the state it is made in. -/
def State.keepsAll (path : String) : State → List Op → Bool
  | _, [] => true
  | s, op :: rest => op.keeps path s && State.keepsAll path (s.apply op) rest

/-- Every entry is filed under its own `Path`, as in every state the methods produce. -/
def State.keyed (s : State) : Prop := ∀ e ∈ s.files.entries, e.2.Path = e.1

/-- The struct `Config` of `config.go`. -/
structure Config where
  AppDir : String
  StatePath : String
  SockPath : String
  SettingsPath : String
  DefaultTTL : Duration
deriving DecidableEq, Repr

/-! ### `config.go` -/

/-- The constant `DefaultTTL`: `time.Hour`, in nanoseconds. -/
def DefaultTTL : Duration := 3600 * 1000000000

/-- The constant `WarningWindow`: `5 * time.Minute`, in nanoseconds. -/
def WarningWindow : Duration := 5 * 60 * 1000000000

/-- The struct `fileConfig`. -/
structure fileConfig where
  DefaultTTL : String
deriving DecidableEq, Repr

/-- The library functions `config.go` calls: `json.MarshalIndent` and `json.Unmarshal` at the
type `fileConfig`, `time.ParseDuration` and `Duration.String`; `none` is an error. An absent
`default_ttl` key is decoded as the empty string. -/
structure SettingsLib where
  marshal : fileConfig → Option Bytes
  unmarshal : Bytes → Option fileConfig
  parseDuration : String → Option Duration
  durationString : Duration → String

/-- The function `defaultFileConfig`. -/
def defaultFileConfig (L : SettingsLib) : fileConfig :=
  { DefaultTTL := L.durationString DefaultTTL }

/-- Errors of `config.go`, one per `return` that carries an error. -/
inductive ConfigError
  | createAppDir
  | settingsPathEmpty
  | openConfig
  | encodeDefault
  | writeDefault
  | syncDefault
  | readConfig
  | decodeConfig
  | invalidTTL (text : String)
  | ttlNotPositive (text : String)
deriving DecidableEq, Repr

/-- The function `ensureDefaultConfigFile`. The open is `O_CREATE|O_EXCL|O_WRONLY`: it answers
`ErrExist` for a path that exists; the deferred `Close` ends every path on which the file
was opened. -/
def ensureDefaultConfigFile (L : SettingsLib) (path : String) (w : World) :
    Option ConfigError × World :=
  if path = "" then (some .settingsPathEmpty, w)
  else
    match w.content path with
    | some _ => (none, w.emit (.openExcl path))
    | none =>
      if w.denied (.openExcl path) then (some .openConfig, w.emit (.openExcl path))
      else
        let w1 := (w.emit (.openExcl path)).put path (some [])
        match L.marshal (defaultFileConfig L) with
        | none => (some .encodeDefault, w1.emit (.close path))
        | some b =>
          if w1.denied (.write path (b ++ [10])) then
            (some .writeDefault, (w1.emit (.write path (b ++ [10]))).emit (.close path))
          else
            let w2 := (w1.emit (.write path (b ++ [10]))).put path (some (b ++ [10]))
            if w2.denied (.sync path) then
              (some .syncDefault, (w2.emit (.sync path)).emit (.close path))
            else (none, (w2.emit (.sync path)).emit (.close path))

/-- The function `EnsureDirs`. Directories are not part of the world: `os.MkdirAll` either
fails or succeeds without changing a file. -/
def EnsureDirs (L : SettingsLib) (cfg : Config) (w : World) : Option ConfigError × World :=
  if w.denied (.mkdirAll cfg.AppDir) then (some .createAppDir, w.emit (.mkdirAll cfg.AppDir))
  else ensureDefaultConfigFile L cfg.SettingsPath (w.emit (.mkdirAll cfg.AppDir))

/-- The function `loadDefaultTTL`. -/
def loadDefaultTTL (L : SettingsLib) (path : String) (w : World) :
    Except ConfigError Duration × World :=
  match ReadFile path w with
  | (.error .notExist, w1) => (.ok DefaultTTL, w1)
  | (.error .other, w1) => (.error .readConfig, w1)
  | (.ok b, w1) =>
    match L.unmarshal b with
    | none => (.error .decodeConfig, w1)
    | some cfg =>
      if cfg.DefaultTTL = "" then (.ok DefaultTTL, w1)
      else
        match L.parseDuration cfg.DefaultTTL with
        | none => (.error (.invalidTTL cfg.DefaultTTL), w1)
        | some ttl =>
          if ttl ≤ 0 then (.error (.ttlNotPositive cfg.DefaultTTL), w1)
          else (.ok ttl, w1)

/-- A stand-in for the libraries of `config.go` that knows the durations of the test suite
and a few settings files. -/
def demoSettings : SettingsLib :=
  { marshal := fun c => if c.DefaultTTL = "1h0m0s" then some [1] else none
    unmarshal := fun b =>
      if b = [1, 10] then some { DefaultTTL := "1h0m0s" }
      else if b = [2] then some { DefaultTTL := "10m" }
      else if b = [3] then some { DefaultTTL := "-5m" }
      else if b = [4] then some { DefaultTTL := "" }
      else none
    parseDuration := fun t =>
      if t = "1h0m0s" then some (3600 * 1000000000)
      else if t = "10m" then some (600 * 1000000000)
      else if t = "0s" then some 0
      else if t = "-5m" then some (-300 * 1000000000)
      else none
    durationString := fun d => if d = 3600 * 1000000000 then "1h0m0s" else "?" }

/-- A configuration for evaluation. -/
def demoConfig : Config :=
  { AppDir := "/app", StatePath := "/app/state.json", SockPath := "/sock",
    SettingsPath := "/app/config.json", DefaultTTL := DefaultTTL }

/-! ### `files.go` -/

/-- The slice `zeros[:n]`. -/
def zeros (n : Nat) : Bytes := List.replicate n 0

/-- The content of a file after `chunk` is written at offset `off`. -/
def writeAt (old : Bytes) (off : Nat) (chunk : Bytes) : Bytes :=
  old.take off ++ chunk ++ old.drop (off + chunk.length)

/-- The loop `for remaining > 0` of `SecureDelete`, with the offset of the open file. The first
argument bounds the number of rounds; every round takes at least one byte off `remaining`, so
`remaining` itself is bound enough, and that is what `SecureDelete` passes. -/
def overwriteLoop (path : String) : Nat → Nat → Nat → World → World
  | 0, _, _, w => w
  | fuel + 1, off, remaining, w =>
    if 0 < remaining then
      let chunk := if remaining < 4096 then remaining else 4096
      if w.denied (.write path (zeros chunk)) then w.emit (.write path (zeros chunk))
      else
        overwriteLoop path fuel (off + chunk) (remaining - chunk)
          ((w.emit (.write path (zeros chunk))).put path
            ((w.content path).map (fun old => writeAt old off (zeros chunk))))
    else w

/-- The first half of `SecureDelete`: open for writing and, if that worked, stat, overwrite,
sync and close. No error leaves this part. -/
def overwriteFile (path : String) (w : World) : World :=
  match w.content path with
  | none => w.emit (.openWrite path)
  | some data =>
    if w.denied (.openWrite path) then w.emit (.openWrite path)
    else
      let w1 := w.emit (.openWrite path)
      let w2 :=
        if w1.denied (.fstat path) then w1.emit (.fstat path)
        else
          (overwriteLoop path data.length 0 data.length (w1.emit (.fstat path))).emit
            (.sync path)
      w2.emit (.close path)

/-- The function `SecureDelete`; `true` stands for the error it can return. -/
def SecureDelete (path : String) (w : World) : Bool × World :=
  match Remove path (overwriteFile path w) with
  | (some .notExist, w1) => (false, w1)
  | (some .other, w1) => (true, w1)
  | (none, w1) => (false, w1)

/-- A stand-in for `encoding/json` that knows three documents: the empty list, the list with
the single entry of `/tmp/secret.env`, deadline 3600, not warned, and `null`, which it decodes
as `encoding/json` does, to the nil slice. -/
def tableCodec : Codec :=
  { marshal := fun l =>
      if l = [] then some [91, 93]
      else if l = [{ Path := "/tmp/secret.env", ExpiresAt := 3600, Warned := false }] then
        some [91, 1, 93]
      else none
    unmarshal := fun b =>
      if b = [91, 93] then some []
      else if b = [91, 1, 93] then
        some [{ Path := "/tmp/secret.env", ExpiresAt := 3600, Warned := false }]
      else if b = jsonNull then some []
      else none }

end Core

/-! ## `internal/ipc` and `cmd/app/rpc_server.go` -/

namespace Ipc

/-- The struct `ipc.Request`. -/
structure Request where
  Path : String
  TTL : Core.Duration
deriving DecidableEq, Repr

/-- The struct `ipc.Response`. -/
structure Response where
  Success : Bool
  Error : String
deriving DecidableEq, Repr

end Ipc

namespace App

open Core Ipc

/-- The struct `Manager`; `notifier` tells whether a notifier is set. -/
structure Manager where
  state : State
  cfg : Config
  notifier : Bool

/-- The method `Manager.Extend`: the response, the manager and the world afterwards. -/
def Manager.Extend (C : Codec) (m : Manager) (req : Request) (w : World) :
    Response × Manager × World :=
  if req.Path = "" then ({ Success := false, Error := "path is required" }, m, w)
  else
    let ttl := if req.TTL ≤ 0 then m.cfg.DefaultTTL else req.TTL
    match m.state.Extend req.Path ttl with
    | (false, _) => ({ Success := false, Error := "file is not currently watched" }, m, w)
    | (true, s1) =>
      let m1 := { m with state := s1 }
      match s1.Save C m.cfg.StatePath w with
      | (some err, w1) =>
        ({ Success := false, Error := "failed to save state: " ++ err.message }, m1, w1)
      | (none, w1) => ({ Success := true, Error := "" }, m1, w1)

/-- The method `Manager.Register`: the response, the manager and the world afterwards. An error
of the notifier is only logged. -/
def Manager.Register (C : Codec) (m : Manager) (req : Request) (w : World) :
    Response × Manager × World :=
  if req.Path = "" then ({ Success := false, Error := "path is required" }, m, w)
  else
    let ttl := if req.TTL ≤ 0 then m.cfg.DefaultTTL else req.TTL
    let s1 := m.state.Register req.Path (w.now + ttl)
    let m1 := { m with state := s1 }
    match s1.Save C m.cfg.StatePath w with
    | (some err, w1) =>
      ({ Success := false, Error := "failed to save state: " ++ err.message }, m1, w1)
    | (none, w1) =>
      ({ Success := true, Error := "" }, m1,
        if m.notifier then w1.emit (.fileUnlocked req.Path ttl) else w1)

/-- The method `Manager.StopWatching`: the response, the manager and the world afterwards. -/
def Manager.StopWatching (C : Codec) (m : Manager) (req : Request) (w : World) :
    Response × Manager × World :=
  if req.Path = "" then ({ Success := false, Error := "path is required" }, m, w)
  else
    let s1 := m.state.StopWatching req.Path
    let m1 := { m with state := s1 }
    match s1.Save C m.cfg.StatePath w with
    | (some err, w1) =>
      ({ Success := false, Error := "failed to save state: " ++ err.message }, m1, w1)
    | (none, w1) => ({ Success := true, Error := "" }, m1, w1)

/-! ## `cmd/app/main_darwin.go` -/

/-- The struct `app`, without the fields of the tray menu and the channels. The notifier is
always set; its calls are events of the world. -/
structure app where
  cfg : Config
  state : State

/-- The body of the loop of `checkFiles` for one entry of the snapshot: the live state, the
variable `changed` and the world, before and after. Errors of the notifier and of
`SecureDelete` are only logged. -/
def checkFile (now : Time) (path : String) (wf : WatchedFile) (acc : State × Bool × World) :
    State × Bool × World :=
  match Stat path acc.2.2 with
  | (some .notExist, w1) => (acc.1.StopWatching path, true, w1)
  | (some .other, w1) => (acc.1, acc.2.1, w1)
  | (none, w1) =>
    if wf.ExpiresAt < now then
      match SecureDelete path w1 with
      | (true, w2) => (acc.1, acc.2.1, w2)
      | (false, w2) => (acc.1.StopWatching path, true, w2.emit (.fileDeleted path))
    else if !wf.Warned && decide (wf.ExpiresAt + -WarningWindow < now) then
      if w1.denied (.warn path wf.ExpiresAt) then
        (acc.1, acc.2.1, w1.emit (.warn path wf.ExpiresAt))
      else
        match acc.1.MarkWarned path with
        | (true, s1) => (s1, true, w1.emit (.warn path wf.ExpiresAt))
        | (false, _) => (acc.1, acc.2.1, w1.emit (.warn path wf.ExpiresAt))
    else (acc.1, acc.2.1, w1)

/-- The loop of `checkFiles` over the entries of the snapshot. Go leaves the order of a map
iteration open; here it is the order of the entries, and a state can list them in any. -/
def checkLoop (now : Time) (entries : List (Sigma fun _ : String => WatchedFile))
    (acc : State × Bool × World) : State × Bool × World :=
  entries.foldl (fun acc e => checkFile now e.1 e.2 acc) acc

/-- The method `app.checkFiles`. An error of the final `Save` is only logged. -/
def app.checkFiles (C : Codec) (a : app) (now : Time) (w : World) : app × World :=
  let files := a.state.Snapshot
  let r := checkLoop now files.entries (a.state, false, w)
  if r.2.1 then ({ a with state := r.1 }, (r.1.Save C a.cfg.StatePath r.2.2).2)
  else ({ a with state := r.1 }, r.2.2)

/-- The case `path := <-a.extendCh` of the `select` in `app.loop`: an extend signal for `path`
has arrived. An error of `Save` is only logged; the closing `updateStatus` redraws the tray
menu and is left out. -/
def app.loop_extendCh (C : Codec) (a : app) (path : String) (w : World) : app × World :=
  match a.state.Extend path a.cfg.DefaultTTL with
  | (true, s1) => ({ a with state := s1 }, (s1.Save C a.cfg.StatePath w).2)
  | (false, _) => (a, w)

/-- The body of the loop of `lockAllWatchedFilesOnExit` for one path of the snapshot. -/
def lockFile (path : String) (acc : State × Bool × World) : State × Bool × World :=
  match SecureDelete path acc.2.2 with
  | (true, w1) => (acc.1, acc.2.1, w1)
  | (false, w1) => (acc.1.StopWatching path, true, w1)

/-- The loop of `lockAllWatchedFilesOnExit` over the paths of the snapshot. -/
def lockLoop (entries : List (Sigma fun _ : String => WatchedFile))
    (acc : State × Bool × World) : State × Bool × World :=
  entries.foldl (fun acc e => lockFile e.1 acc) acc

/-- The method `app.lockAllWatchedFilesOnExit`. An error of the final `Save` is only logged. -/
def app.lockAllWatchedFilesOnExit (C : Codec) (a : app) (w : World) : app × World :=
  let files := a.state.Snapshot
  if files.entries.length = 0 then (a, w)
  else
    let r := lockLoop files.entries (a.state, false, w)
    if r.2.1 then ({ a with state := r.1 }, (r.1.Save C a.cfg.StatePath r.2.2).2)
    else ({ a with state := r.1 }, r.2.2)

end App

end Dotward

/-! # Theorems -/

namespace Dotward

/-! ## `internal/crypto` -/

namespace Crypto

theorem slice_zero (b : Bytes) (n : Nat) : slice b 0 n = b.take n := by
  simp [slice]

theorem toy_lawful : toy.Lawful where
  idKey_length := by intros; simp [toy, toyIdKey]
  seal_length := by intros; simp [toy, toySeal, toyTag]
  open_seal := by
    intro key nonce pt _ _
    simp [toy, toySeal, toyOpen, toyTag, gcmTagSize]

/-- Parsing the current layout: the header is recognised and salt, nonce and ciphertext are
the three parts after the version byte. -/
theorem header_layout (salt nonce ct : Bytes) (hs : salt.length = 16) (hn : nonce.length = 12) :
    let payload := magicHeader ++ [versionByte] ++ salt ++ nonce ++ ct
    slice payload 0 4 = magicHeader ∧ payload.getD 4 0 = versionByte ∧
    slice payload 5 21 = salt ∧ slice payload 21 33 = nonce ∧ payload.drop 33 = ct := by
  intro payload
  have h5 : (magicHeader ++ [versionByte]).length = 5 := rfl
  have h21 : (magicHeader ++ [versionByte] ++ salt).length = 21 := by simp [magicHeader, hs]
  have h33 : (magicHeader ++ [versionByte] ++ salt ++ nonce).length = 33 := by
    simp [magicHeader, hs, hn]
  refine ⟨?_, ?_, ?_, ?_, ?_⟩
  · simp [payload, slice, magicHeader]
  · simp [payload, magicHeader]
  · show ((((magicHeader ++ [versionByte]) ++ salt) ++ nonce ++ ct).drop 5).take (21 - 5) = salt
    rw [List.append_assoc, List.append_assoc, List.drop_left' h5]
    exact List.take_left' (by simpa using hs)
  · show (((magicHeader ++ [versionByte] ++ salt) ++ nonce ++ ct).drop 21).take (33 - 21) = nonce
    rw [List.append_assoc, List.drop_left' h21]
    exact List.take_left' (by simpa using hn)
  · exact List.drop_left' h33


theorem aesKeySizeOk_idKey (P : Primitives) (hP : P.Lawful) (pw salt : Bytes) (t m th : Nat) :
    aesKeySizeOk (P.idKey pw salt t m th keySize).length = true := by
  rw [hP.idKey_length]; rfl

theorem open_seal_idKey (P : Primitives) (hP : P.Lawful) (pw salt nonce pt : Bytes)
    (t m th : Nat) (hn : nonce.length = gcmNonceSize) :
    P.gcmOpen (P.idKey pw salt t m th keySize) nonce
      (P.gcmSeal (P.idKey pw salt t m th keySize) nonce pt) = some pt :=
  hP.open_seal _ _ _ (aesKeySizeOk_idKey P hP pw salt t m th) hn

theorem seal_length_idKey (P : Primitives) (hP : P.Lawful) (pw salt nonce pt : Bytes)
    (t m th : Nat) (hn : nonce.length = gcmNonceSize) :
    (P.gcmSeal (P.idKey pw salt t m th keySize) nonce pt).length = pt.length + gcmTagSize :=
  hP.seal_length _ _ _ (aesKeySizeOk_idKey P hP pw salt t m th) hn

theorem EncryptFile_ok (P : Primitives) (hP : P.Lawful) (src dst : String) (pw p : Bytes)
    (w : World) (hsrc : w.content src = some p)
    (hent : saltSize + gcmNonceSize ≤ w.entropy.length)
    (hio : ∀ e, w.denied e = false) :
    (EncryptFile P src dst pw w).1 = none ∧
    (EncryptFile P src dst pw w).2.content = Function.update w.content dst
      (some (sealedPayload P pw (w.entropy.take saltSize)
        ((w.entropy.drop saltSize).take gcmNonceSize) p currentArgon2)) ∧
    (EncryptFile P src dst pw w).2.denied = w.denied := by
  have h16 : saltSize ≤ w.entropy.length := by omega
  have h12 : gcmNonceSize ≤ w.entropy.length - saltSize := by omega
  simp [EncryptFile, ReadFile, hsrc, hio, randReadFull, h16, h12, deriveKey, World.emit,
    aesKeySizeOk_idKey P hP, WriteFile, World.put, sealedPayload]


theorem decryptPayload_eq (P : Primitives) (hP : P.Lawful) (pw : Bytes) (params : argon2Params)
    (salt nonce ct : Bytes) (w : World) (hn : nonce.length = gcmNonceSize) :
    decryptPayload P pw params salt nonce ct w =
      match P.gcmOpen (P.idKey pw salt params.time params.memory params.threads keySize)
          nonce ct with
      | none => (.error .authFailed, (w.emit (.deriveKey params)).emit .gcmOpen)
      | some pt => (.ok pt, (w.emit (.deriveKey params)).emit .gcmOpen) := by
  simp [decryptPayload, deriveKey, aesKeySizeOk_idKey P hP, hn]

theorem DecryptFile_of_header (P : Primitives) (src dst : String) (pw : Bytes) (w : World)
    (payload : Bytes) (hsrc : w.content src = some payload)
    (hr : w.denied (.readFile src) = false) (hlen : 49 ≤ payload.length)
    (hm : slice payload 0 4 = magicHeader) (hv : payload.getD 4 0 = versionByte) :
    DecryptFile P src dst pw w =
      tryProfiles P dst pw (slice payload 5 21) (slice payload 21 33) (payload.drop 33)
        legacyArgon2Profiles none (w.emit (.readFile src)) := by
  have m4 : magicHeader.length = 4 := rfl
  have e1 : ¬ (payload.length < 44) := by omega
  have e3 : ¬ (payload.length < 49) := by omega
  have hv1 : payload[4]?.getD 0 = versionByte := by simpa using hv
  simp [DecryptFile, ReadFile, hsrc, hr, m4, saltSize]
  rw [if_neg e1, if_pos ⟨by omega, hm⟩, if_pos hv1, if_neg e3]

theorem DecryptFile_of_legacy (P : Primitives) (src dst : String) (pw : Bytes) (w : World)
    (payload : Bytes) (hsrc : w.content src = some payload)
    (hr : w.denied (.readFile src) = false) (hlen : 44 ≤ payload.length)
    (hm : slice payload 0 4 ≠ magicHeader) :
    DecryptFile P src dst pw w =
      tryProfiles P dst pw (slice payload 0 16) (slice payload 16 28) (payload.drop 28)
        legacyArgon2Profiles none (w.emit (.readFile src)) := by
  have m4 : magicHeader.length = 4 := rfl
  have e1 : ¬ (payload.length < 44) := by omega
  simp [DecryptFile, ReadFile, hsrc, hr, m4, saltSize]
  rw [if_neg e1, if_neg (fun h => hm h.2)]

theorem DecryptFile_header (P : Primitives) (src dst : String) (pw : Bytes) (w : World)
    (salt nonce ct : Bytes) (hs : salt.length = saltSize) (hn : nonce.length = gcmNonceSize)
    (hct : gcmTagSize ≤ ct.length)
    (hsrc : w.content src = some (magicHeader ++ [versionByte] ++ salt ++ nonce ++ ct))
    (hr : w.denied (.readFile src) = false) :
    DecryptFile P src dst pw w =
      tryProfiles P dst pw salt nonce ct legacyArgon2Profiles none (w.emit (.readFile src)) := by
  obtain ⟨h1, h2, h3, h4, h5⟩ := header_layout salt nonce ct hs hn
  have hlen : 49 ≤ (magicHeader ++ [versionByte] ++ salt ++ nonce ++ ct).length := by
    simp only [gcmTagSize] at hct
    simp [magicHeader, hs, hn, saltSize, gcmNonceSize]; omega
  rw [DecryptFile_of_header P src dst pw w _ hsrc hr hlen h1 h2, h3, h4, h5]

theorem emit_denied (w : World) (e : Event) : (w.emit e).denied = w.denied := rfl

theorem emit_content (w : World) (e : Event) : (w.emit e).content = w.content := rfl

theorem tryProfiles_opens (P : Primitives) (hP : P.Lawful) (dst : String)
    (pw salt nonce ct pt : Bytes) (params : argon2Params) (rest : List argon2Params)
    (lastErr : Option OpenError) (w : World) (hn : nonce.length = gcmNonceSize)
    (hopen : P.gcmOpen (P.idKey pw salt params.time params.memory params.threads keySize)
      nonce ct = some pt)
    (hw : w.denied (.writeFile dst pt) = false) :
    (tryProfiles P dst pw salt nonce ct (params :: rest) lastErr w).1 = none ∧
    (tryProfiles P dst pw salt nonce ct (params :: rest) lastErr w).2.content =
      Function.update w.content dst (some pt) := by
  simp [tryProfiles, decryptPayload_eq P hP _ _ _ _ _ _ hn, hopen, WriteFile, World.emit,
    World.put, hw]

/-- Decryption succeeds with any password whose key under the current profile is the key the
file was sealed with. -/
theorem decrypt_of_key_eq (P : Primitives) (hP : P.Lawful)
    (src enc out : String) (pw pw2 p : Bytes) (w : World)
    (hsrc : w.content src = some p)
    (hent : saltSize + gcmNonceSize ≤ w.entropy.length)
    (hio : ∀ e, w.denied e = false)
    (hkey : P.idKey pw2 (w.entropy.take saltSize) currentArgon2.time currentArgon2.memory
        currentArgon2.threads keySize =
      P.idKey pw (w.entropy.take saltSize) currentArgon2.time currentArgon2.memory
        currentArgon2.threads keySize) :
    (EncryptFile P src enc pw w).1 = none ∧
    (DecryptFile P enc out pw2 (EncryptFile P src enc pw w).2).1 = none ∧
    (DecryptFile P enc out pw2 (EncryptFile P src enc pw w).2).2.content out = some p := by
  obtain ⟨h1, h2, h3⟩ := EncryptFile_ok P hP src enc pw p w hsrc hent hio
  have hs : (w.entropy.take saltSize).length = saltSize := by
    rw [List.length_take]; omega
  have hn : ((w.entropy.drop saltSize).take gcmNonceSize).length = gcmNonceSize := by
    rw [List.length_take, List.length_drop]; omega
  have hct : gcmTagSize ≤ (P.gcmSeal (P.idKey pw (w.entropy.take saltSize) currentArgon2.time
      currentArgon2.memory currentArgon2.threads keySize)
      ((w.entropy.drop saltSize).take gcmNonceSize) p).length := by
    rw [seal_length_idKey P hP _ _ _ _ _ _ _ hn]; omega
  have hc : (EncryptFile P src enc pw w).2.content enc = some (magicHeader ++ [versionByte] ++
      w.entropy.take saltSize ++ (w.entropy.drop saltSize).take gcmNonceSize ++
      P.gcmSeal (P.idKey pw (w.entropy.take saltSize) currentArgon2.time
        currentArgon2.memory currentArgon2.threads keySize)
        ((w.entropy.drop saltSize).take gcmNonceSize) p) := by
    rw [h2]; simp [sealedPayload]
  have hr : (EncryptFile P src enc pw w).2.denied (.readFile enc) = false := by
    rw [h3]; exact hio _
  rw [DecryptFile_header P enc out pw2 _ _ _ _ hs hn hct hc hr]
  obtain ⟨t1, t2⟩ := tryProfiles_opens P hP out pw2 _ _ _ p currentArgon2 _ none
    ((EncryptFile P src enc pw w).2.emit (.readFile enc)) hn
    (by rw [hkey]; exact open_seal_idKey P hP _ _ _ _ _ _ _ hn)
    (by rw [emit_denied, h3]; exact hio _)
  refine ⟨h1, ?_, ?_⟩
  · exact t1
  · have := congrFun t2 out
    simpa using this

/-- C1. Round trip: for every plaintext, every password (empty or not) and every salt and nonce
that `EncryptFile` draws from the random source, `DecryptFile` applied with the same password
to the file `EncryptFile` wrote succeeds and writes exactly the plaintext. The libraries are
assumed to keep their contracts and no file-system call to fail. -/
theorem EncryptFile_DecryptFile_roundtrip (P : Primitives) (hP : P.Lawful)
    (src enc out : String) (pw p : Bytes) (w : World)
    (hsrc : w.content src = some p)
    (hent : saltSize + gcmNonceSize ≤ w.entropy.length)
    (hio : ∀ e, w.denied e = false) :
    (EncryptFile P src enc pw w).1 = none ∧
    (DecryptFile P enc out pw (EncryptFile P src enc pw w).2).1 = none ∧
    (DecryptFile P enc out pw (EncryptFile P src enc pw w).2).2.content out = some p :=
  decrypt_of_key_eq P hP src enc out pw pw p w hsrc hent hio rfl

/-- The instance of C1 at the stand-in primitives and `demoWorld`. -/
theorem EncryptFile_DecryptFile_roundtrip_witness :
    (EncryptFile toy "secret.env" "secret.env.enc" [9] demoWorld).1 = none ∧
    (DecryptFile toy "secret.env.enc" "out.env" [9]
      (EncryptFile toy "secret.env" "secret.env.enc" [9] demoWorld).2).1 = none ∧
    (DecryptFile toy "secret.env.enc" "out.env" [9]
      (EncryptFile toy "secret.env" "secret.env.enc" [9] demoWorld).2).2.content "out.env"
        = some [1, 2, 3] :=
  EncryptFile_DecryptFile_roundtrip toy toy_lawful "secret.env" "secret.env.enc" "out.env"
    [9] [1, 2, 3] demoWorld rfl (by decide) (fun _ => rfl)

/-- A key derivation with 32-byte keys cannot be injective: for every salt and profile two
different non-empty passwords have the same key. Hence that Argon2id tells two given
passwords apart is a condition on the library, taken at the passwords at hand, and not a
consequence of their being different. -/
theorem exists_colliding_passwords (P : Primitives) (hP : P.Lawful) (salt : Bytes)
    (params : argon2Params) :
    ∃ pw pw2 : Bytes, pw ≠ [] ∧ pw2 ≠ [] ∧ pw ≠ pw2 ∧
      P.idKey pw salt params.time params.memory params.threads keySize =
      P.idKey pw2 salt params.time params.memory params.threads keySize := by
  let f : Bytes → Mathlib.Vector Byte keySize := fun x =>
    ⟨P.idKey (0 :: x) salt params.time params.memory params.threads keySize,
      hP.idKey_length _ _ _ _ _ _⟩
  obtain ⟨x, y, hxy, hf⟩ := Finite.exists_ne_map_eq_of_infinite f
  refine ⟨0 :: x, 0 :: y, by simp, by simp, by simpa using hxy, ?_⟩
  exact congrArg Subtype.val hf

theorem tryProfiles_all_reject (P : Primitives) (hP : P.Lawful) (dst : String)
    (pw salt nonce ct : Bytes) (w : World) (hn : nonce.length = gcmNonceSize)
    (hrej : ∀ params ∈ legacyArgon2Profiles,
      P.gcmOpen (P.idKey pw salt params.time params.memory params.threads keySize) nonce ct
        = none) :
    tryProfiles P dst pw salt nonce ct legacyArgon2Profiles none w =
      (some (.decryptFailed .authFailed),
        { w with trace := w.trace ++ [.deriveKey currentArgon2, .gcmOpen,
            .deriveKey { time := 1, memory := 64 * 1024, threads := 4 }, .gcmOpen] }) := by
  have r1 := hrej currentArgon2 (by simp [legacyArgon2Profiles])
  have r2 := hrej { time := 1, memory := 64 * 1024, threads := 4 }
    (by simp [legacyArgon2Profiles])
  simp only [legacyArgon2Profiles, tryProfiles, decryptPayload_eq P hP _ _ _ _ _ _ hn, r1, r2]
  simp [World.emit]

/-- C2. Wrong password. For the file `EncryptFile` wrote under `pw` and every password `pw2`
different from `pw`, `DecryptFile` with `pw2` returns the authentication error, leaves every
file as it was and makes no write: after reading the source it only derives the two keys and
tries them. Telling the passwords apart is the work of the two libraries, and the theorem
takes their guarantees at the values of the run: Argon2id gives the different password, under
each known profile, a key other than the one that sealed the file (`hkdf`), and AES-GCM does
not open the sealed ciphertext under such a key (`hauth`). -/
theorem DecryptFile_wrong_password (P : Primitives) (hP : P.Lawful)
    (src enc out : String) (pw pw2 p : Bytes) (w : World)
    (hsrc : w.content src = some p)
    (hent : saltSize + gcmNonceSize ≤ w.entropy.length)
    (hio : ∀ e, w.denied e = false)
    (hne : pw2 ≠ pw)
    (hkdf : pw2 ≠ pw → ∀ params ∈ legacyArgon2Profiles,
      P.idKey pw2 (w.entropy.take saltSize) params.time params.memory params.threads keySize ≠
        P.idKey pw (w.entropy.take saltSize) currentArgon2.time currentArgon2.memory
          currentArgon2.threads keySize)
    (hauth : ∀ params ∈ legacyArgon2Profiles,
      P.idKey pw2 (w.entropy.take saltSize) params.time params.memory params.threads keySize ≠
        P.idKey pw (w.entropy.take saltSize) currentArgon2.time currentArgon2.memory
          currentArgon2.threads keySize →
      P.gcmOpen
        (P.idKey pw2 (w.entropy.take saltSize) params.time params.memory params.threads keySize)
        ((w.entropy.drop saltSize).take gcmNonceSize)
        (P.gcmSeal (P.idKey pw (w.entropy.take saltSize) currentArgon2.time
          currentArgon2.memory currentArgon2.threads keySize)
          ((w.entropy.drop saltSize).take gcmNonceSize) p) = none) :
    (DecryptFile P enc out pw2 (EncryptFile P src enc pw w).2).1
      = some (.decryptFailed .authFailed) ∧
    (DecryptFile P enc out pw2 (EncryptFile P src enc pw w).2).2.content
      = (EncryptFile P src enc pw w).2.content ∧
    (DecryptFile P enc out pw2 (EncryptFile P src enc pw w).2).2.trace
      = (EncryptFile P src enc pw w).2.trace ++
        [.readFile enc, .deriveKey currentArgon2, .gcmOpen,
          .deriveKey { time := 1, memory := 64 * 1024, threads := 4 }, .gcmOpen] := by
  have hrej : ∀ params ∈ legacyArgon2Profiles,
      P.gcmOpen
        (P.idKey pw2 (w.entropy.take saltSize) params.time params.memory params.threads keySize)
        ((w.entropy.drop saltSize).take gcmNonceSize)
        (P.gcmSeal (P.idKey pw (w.entropy.take saltSize) currentArgon2.time
          currentArgon2.memory currentArgon2.threads keySize)
          ((w.entropy.drop saltSize).take gcmNonceSize) p) = none :=
    fun params hparams => hauth params hparams (hkdf hne params hparams)
  obtain ⟨-, h2, h3⟩ := EncryptFile_ok P hP src enc pw p w hsrc hent hio
  have hs : (w.entropy.take saltSize).length = saltSize := by
    rw [List.length_take]; omega
  have hn : ((w.entropy.drop saltSize).take gcmNonceSize).length = gcmNonceSize := by
    rw [List.length_take, List.length_drop]; omega
  have hct : gcmTagSize ≤ (P.gcmSeal (P.idKey pw (w.entropy.take saltSize) currentArgon2.time
      currentArgon2.memory currentArgon2.threads keySize)
      ((w.entropy.drop saltSize).take gcmNonceSize) p).length := by
    rw [seal_length_idKey P hP _ _ _ _ _ _ _ hn]; omega
  have hc : (EncryptFile P src enc pw w).2.content enc = some (magicHeader ++ [versionByte] ++
      w.entropy.take saltSize ++ (w.entropy.drop saltSize).take gcmNonceSize ++
      P.gcmSeal (P.idKey pw (w.entropy.take saltSize) currentArgon2.time
        currentArgon2.memory currentArgon2.threads keySize)
        ((w.entropy.drop saltSize).take gcmNonceSize) p) := by
    rw [h2]; simp [sealedPayload]
  have hr : (EncryptFile P src enc pw w).2.denied (.readFile enc) = false := by
    rw [h3]; exact hio _
  rw [DecryptFile_header P enc out pw2 _ _ _ _ hs hn hct hc hr,
    tryProfiles_all_reject P hP out pw2 _ _ _ _ hn hrej]
  simp [World.emit]

/-- An instance of C2 at the stand-in primitives: the password `[8]` on a file written under
`[9]`. -/
theorem DecryptFile_wrong_password_witness :
    (DecryptFile toy "secret.env.enc" "out.env" [8]
      (EncryptFile toy "secret.env" "secret.env.enc" [9] demoWorld).2).1
      = some (.decryptFailed .authFailed) ∧
    (DecryptFile toy "secret.env.enc" "out.env" [8]
      (EncryptFile toy "secret.env" "secret.env.enc" [9] demoWorld).2).2.content "out.env"
      = none :=
  have h := DecryptFile_wrong_password toy toy_lawful "secret.env" "secret.env.enc" "out.env"
    [9] [8] [1, 2, 3] demoWorld rfl (by decide) (fun _ => rfl) (by decide)
    (fun _ => by decide) (by decide)
  ⟨h.1, by rw [h.2.1]; decide⟩

/-- Parsing the layout without header: salt, nonce and ciphertext are the three parts, and the
first four bytes are those of the salt. -/
theorem legacy_layout (salt nonce ct : Bytes) (hs : salt.length = 16) (hn : nonce.length = 12) :
    slice (salt ++ nonce ++ ct) 0 4 = salt.take 4 ∧
    slice (salt ++ nonce ++ ct) 0 16 = salt ∧ slice (salt ++ nonce ++ ct) 16 28 = nonce ∧
    (salt ++ nonce ++ ct).drop 28 = ct := by
  have h28 : (salt ++ nonce).length = 28 := by simp [hs, hn]
  refine ⟨?_, ?_, ?_, ?_⟩
  · rw [slice_zero, List.append_assoc, List.take_append_of_le_length (by omega)]
  · rw [slice_zero, List.append_assoc]
    exact List.take_left' hs
  · show (((salt ++ nonce) ++ ct).drop 16).take (28 - 16) = nonce
    rw [List.append_assoc, List.drop_left' hs]
    exact List.take_left' (by simpa using hn)
  · exact List.drop_left' h28

/-- Once the payload is parsed, the loop over the profiles ends in a successful write of `p`
when the ciphertext was sealed under one of the two profiles and the key of the current
profile does not open it to anything else. -/
theorem tryProfiles_sealed (P : Primitives) (hP : P.Lawful) (dst : String)
    (pw p salt nonce : Bytes) (params : argon2Params) (w : World)
    (hparams : params ∈ legacyArgon2Profiles) (hn : nonce.length = gcmNonceSize)
    (hio : ∀ e, w.denied e = false)
    (hauth : ∀ q, P.gcmOpen (P.idKey pw salt currentArgon2.time currentArgon2.memory
        currentArgon2.threads keySize) nonce
        (P.gcmSeal (P.idKey pw salt params.time params.memory params.threads keySize) nonce p)
        = some q → q = p) :
    (tryProfiles P dst pw salt nonce
      (P.gcmSeal (P.idKey pw salt params.time params.memory params.threads keySize) nonce p)
      legacyArgon2Profiles none w).1 = none ∧
    (tryProfiles P dst pw salt nonce
      (P.gcmSeal (P.idKey pw salt params.time params.memory params.threads keySize) nonce p)
      legacyArgon2Profiles none w).2.content dst = some p := by
  cases hfirst : P.gcmOpen (P.idKey pw salt currentArgon2.time currentArgon2.memory
      currentArgon2.threads keySize) nonce
      (P.gcmSeal (P.idKey pw salt params.time params.memory params.threads keySize) nonce p) with
  | some q =>
    obtain rfl := hauth q hfirst
    obtain ⟨t1, t2⟩ := tryProfiles_opens P hP dst pw salt nonce _ q currentArgon2 _ none w hn
      hfirst (hio _)
    exact ⟨t1, by simpa using congrFun t2 dst⟩
  | none =>
    have hp : params = { time := 1, memory := 64 * 1024, threads := 4 } := by
      simp only [legacyArgon2Profiles, List.mem_cons, List.mem_singleton,
        List.not_mem_nil, or_false] at hparams
      rcases hparams with h | h
      · subst h
        rw [open_seal_idKey P hP _ _ _ _ _ _ _ hn] at hfirst
        cases hfirst
      · exact h
    subst hp
    have hsecond := open_seal_idKey P hP pw salt nonce p 1 (64 * 1024) 4 hn
    simp only [legacyArgon2Profiles, tryProfiles, decryptPayload_eq P hP _ _ _ _ _ _ hn, hfirst,
      hsecond]
    simp [WriteFile, World.emit, World.put, hio]

/-- The legacy payloads that `DecryptFile` does decrypt. A payload sealed for `pw` under
either known KDF profile (the current one or the one with time cost 1), laid out with the
header or, when the salt does not begin with the bytes of `"DOT1"`, in the legacy form
`salt || nonce || Seal(p)`, is decrypted by `DecryptFile` with `pw`, which writes exactly `p`;
the key of the current profile is assumed not to open the ciphertext to another plaintext. -/
theorem DecryptFile_legacy_compat (P : Primitives) (hP : P.Lawful) (src dst : String)
    (pw p salt nonce payload : Bytes) (params : argon2Params) (w : World)
    (hparams : params ∈ legacyArgon2Profiles)
    (hs : salt.length = saltSize) (hn : nonce.length = gcmNonceSize)
    (hlayout :
      (payload = salt ++ nonce ++
          P.gcmSeal (P.idKey pw salt params.time params.memory params.threads keySize) nonce p ∧
        salt.take 4 ≠ magicHeader) ∨
      payload = sealedPayload P pw salt nonce p params)
    (hsrc : w.content src = some payload)
    (hio : ∀ e, w.denied e = false)
    (hauth : ∀ q, P.gcmOpen (P.idKey pw salt currentArgon2.time currentArgon2.memory
        currentArgon2.threads keySize) nonce
        (P.gcmSeal (P.idKey pw salt params.time params.memory params.threads keySize) nonce p)
        = some q → q = p) :
    (DecryptFile P src dst pw w).1 = none ∧ (DecryptFile P src dst pw w).2.content dst = some p := by
  have hct : gcmTagSize ≤ (P.gcmSeal
      (P.idKey pw salt params.time params.memory params.threads keySize) nonce p).length := by
    rw [seal_length_idKey P hP _ _ _ _ _ _ _ hn]; omega
  rcases hlayout with ⟨rfl, hmagic⟩ | rfl
  · obtain ⟨l1, l2, l3, l4⟩ := legacy_layout salt nonce
      (P.gcmSeal (P.idKey pw salt params.time params.memory params.threads keySize) nonce p)
      hs hn
    have hlen : 44 ≤ (salt ++ nonce ++ P.gcmSeal
        (P.idKey pw salt params.time params.memory params.threads keySize) nonce p).length := by
      simp only [gcmTagSize] at hct
      simp only [List.length_append, hs, hn, saltSize, gcmNonceSize]; omega
    rw [DecryptFile_of_legacy P src dst pw w _ hsrc (hio _) hlen (by rw [l1]; exact hmagic),
      l2, l3, l4]
    exact tryProfiles_sealed P hP dst pw p salt nonce params _ hparams hn
      (fun e => by rw [emit_denied]; exact hio e) hauth
  · rw [DecryptFile_header P src dst pw w salt nonce _ hs hn hct hsrc (hio _)]
    exact tryProfiles_sealed P hP dst pw p salt nonce params _ hparams hn
      (fun e => by rw [emit_denied]; exact hio e) hauth

/-- C3. Legacy compatibility, the failing input. The helper `encryptLegacyNoHeader` of the
test suite, drawing a salt that begins with the bytes of `"DOT1"`, writes a legacy payload
that `DecryptFile` takes for the current layout and rejects for its version byte, before any
key is derived: the payload that the test `TestDecryptLegacyPayloadNoHeader` expects to be
decrypted is not. -/
theorem DecryptFile_legacy_magic_salt_rejected :
    (encryptLegacyNoHeader toy "secret.env" "secret.env.enc" [9] magicSaltWorld).1 = none ∧
    (DecryptFile toy "secret.env.enc" "out.env" [9]
      (encryptLegacyNoHeader toy "secret.env" "secret.env.enc" [9] magicSaltWorld).2).1
      = some (.unsupportedVersion 0) := by
  decide

/-- An instance at the stand-in primitives: the payload without header that the helper of the
test suite writes under the profile with time cost 1, with a salt of sevens. -/
theorem DecryptFile_legacy_compat_witness :
    (DecryptFile toy "secret.env.enc" "out.env" [9]
      (encryptLegacyNoHeader toy "secret.env" "secret.env.enc" [9] demoWorld).2).1 = none ∧
    (DecryptFile toy "secret.env.enc" "out.env" [9]
      (encryptLegacyNoHeader toy "secret.env" "secret.env.enc" [9] demoWorld).2).2.content
        "out.env" = some [1, 2, 3] :=
  DecryptFile_legacy_compat toy toy_lawful "secret.env.enc" "out.env" [9] [1, 2, 3]
    (List.replicate 16 7) (List.replicate 12 7)
    (List.replicate 16 7 ++ List.replicate 12 7 ++
      toy.gcmSeal (toy.idKey [9] (List.replicate 16 7) 1 (64 * 1024) 4 keySize)
        (List.replicate 12 7) [1, 2, 3])
    { time := 1, memory := 64 * 1024, threads := 4 }
    (encryptLegacyNoHeader toy "secret.env" "secret.env.enc" [9] demoWorld).2
    (by decide) (by decide) (by decide) (Or.inl ⟨rfl, by decide⟩) (by decide) (fun _ => rfl)
    (fun q h => by
      have hnone : toy.gcmOpen (toy.idKey [9] (List.replicate 16 7) currentArgon2.time
          currentArgon2.memory currentArgon2.threads keySize) (List.replicate 12 7)
          (toy.gcmSeal (toy.idKey [9] (List.replicate 16 7) 1 (64 * 1024) 4 keySize)
            (List.replicate 12 7) [1, 2, 3]) = none := by decide
      rw [hnone] at h
      cases h)

/-- After a successful read `DecryptFile` is the parse of the payload followed by the loop
over the profiles. -/
theorem DecryptFile_read (P : Primitives) (src dst : String) (pw payload : Bytes)
    (w : World) (hsrc : w.content src = some payload)
    (hr : w.denied (.readFile src) = false) :
    DecryptFile P src dst pw w =
      if payload.length < 44 then (some .tooShort, w.emit (.readFile src))
      else if 5 ≤ payload.length ∧ slice payload 0 4 = magicHeader then
        if payload.getD 4 0 ≠ versionByte then
          (some (.unsupportedVersion (payload.getD 4 0)), w.emit (.readFile src))
        else if payload.length < 49 then (some .tooShort, w.emit (.readFile src))
        else
          tryProfiles P dst pw (slice payload 5 21) (slice payload 21 33) (payload.drop 33)
            legacyArgon2Profiles none (w.emit (.readFile src))
      else
        tryProfiles P dst pw (slice payload 0 16) (slice payload 16 28) (payload.drop 28)
          legacyArgon2Profiles none (w.emit (.readFile src)) := by
  simp only [DecryptFile, ReadFile, hsrc, hr]
  rfl

/-- C4. Malformed payloads are rejected: a payload shorter than its layout requires (49 bytes
when it starts with the bytes of `"DOT1"`, 44 bytes otherwise), or one that starts with
`"DOT1"` and a version byte other than 1, makes `DecryptFile` return an error (too short, or
unsupported version) after the read alone: no key is derived, nothing is opened and nothing
is written. -/
theorem DecryptFile_rejects_malformed (P : Primitives) (src dst : String) (pw payload : Bytes)
    (w : World) (hsrc : w.content src = some payload)
    (hr : w.denied (.readFile src) = false)
    (hbad : (slice payload 0 4 = magicHeader ∧ payload.length < 49) ∨
      (slice payload 0 4 ≠ magicHeader ∧ payload.length < 44) ∨
      (slice payload 0 4 = magicHeader ∧ 5 ≤ payload.length ∧
        payload.getD 4 0 ≠ versionByte)) :
    ((DecryptFile P src dst pw w).1 = some .tooShort ∨
      (DecryptFile P src dst pw w).1 = some (.unsupportedVersion (payload.getD 4 0))) ∧
    (DecryptFile P src dst pw w).2 = w.emit (.readFile src) := by
  have hlen4 : slice payload 0 4 = magicHeader → 4 ≤ payload.length := by
    intro h
    have := congrArg List.length h
    simp [slice, magicHeader] at this
    omega
  rw [DecryptFile_read P src dst pw payload w hsrc hr]
  by_cases h1 : payload.length < 44
  · rw [if_pos h1]; simp
  · rw [if_neg h1]
    by_cases h2 : 5 ≤ payload.length ∧ slice payload 0 4 = magicHeader
    · rw [if_pos h2]
      by_cases h3 : payload.getD 4 0 ≠ versionByte
      · rw [if_pos h3]; simp
      · rw [if_neg h3]
        by_cases h4 : payload.length < 49
        · rw [if_pos h4]; simp
        · exfalso
          rcases hbad with ⟨_, h⟩ | ⟨h, _⟩ | ⟨_, _, h⟩
          · omega
          · exact h h2.2
          · exact h3 h
    · exfalso
      rcases hbad with ⟨h, _⟩ | ⟨_, h⟩ | ⟨h, h5, _⟩
      · exact h2 ⟨by have := hlen4 h; omega, h⟩
      · omega
      · exact h2 ⟨by omega, h⟩


/-- The instance of C4 at a payload with the header and the version byte 2. -/
theorem DecryptFile_rejects_malformed_witness :
    ((DecryptFile toy "bad.enc" "out.env" [9]
        (demoWorld.put "bad.enc" (some (magicHeader ++ 2 :: List.replicate 50 0)))).1
        = some .tooShort ∨
      (DecryptFile toy "bad.enc" "out.env" [9]
        (demoWorld.put "bad.enc" (some (magicHeader ++ 2 :: List.replicate 50 0)))).1
        = some (.unsupportedVersion ((magicHeader ++ 2 :: List.replicate 50 0).getD 4 0))) ∧
    (DecryptFile toy "bad.enc" "out.env" [9]
      (demoWorld.put "bad.enc" (some (magicHeader ++ 2 :: List.replicate 50 0)))).2
      = (demoWorld.put "bad.enc" (some (magicHeader ++ 2 :: List.replicate 50 0))).emit
          (.readFile "bad.enc") :=
  DecryptFile_rejects_malformed toy "bad.enc" "out.env" [9]
    (magicHeader ++ 2 :: List.replicate 50 0)
    (demoWorld.put "bad.enc" (some (magicHeader ++ 2 :: List.replicate 50 0)))
    (by decide) rfl (Or.inr (Or.inr ⟨by decide, by decide, by decide⟩))

/-- The three ways `decryptPayload` can end. -/
theorem decryptPayload_cases (P : Primitives) (pw : Bytes) (params : argon2Params)
    (salt nonce ct : Bytes) (w : World) :
    (∃ e, decryptPayload P pw params salt nonce ct w = (.error e, w.emit (.deriveKey params))) ∨
    (∃ e, decryptPayload P pw params salt nonce ct w =
      (.error e, (w.emit (.deriveKey params)).emit .gcmOpen)) ∨
    (∃ pt, P.gcmOpen (P.idKey pw salt params.time params.memory params.threads keySize)
        nonce ct = some pt ∧
      decryptPayload P pw params salt nonce ct w =
        (.ok pt, (w.emit (.deriveKey params)).emit .gcmOpen)) := by
  unfold decryptPayload deriveKey
  by_cases h1 : (!aesKeySizeOk (P.idKey pw salt params.time params.memory params.threads
      keySize).length) = true
  · left; exact ⟨.aesInit, by simp only [h1, if_true]⟩
  · by_cases h2 : nonce.length ≠ gcmNonceSize
    · left; exact ⟨.invalidNonceSize, by simp [h1, h2]⟩
    · right
      cases h3 : P.gcmOpen (P.idKey pw salt params.time params.memory params.threads keySize)
          nonce ct with
      | none => left; exact ⟨.authFailed, by simp [h1, h2, h3]⟩
      | some pt => right; exact ⟨pt, rfl, by simp [h1, h2, h3]⟩

theorem emit_trace (w : World) (e : Event) : (w.emit e).trace = w.trace ++ [e] := rfl

/-- What the loop over the profiles does to the world: it derives keys and opens, and writes
at most once, right after an `Open` that succeeded, the plaintext that `Open` returned. -/
theorem tryProfiles_effects (P : Primitives) (dst : String) (pw salt nonce ct : Bytes) :
    ∀ (profiles : List argon2Params) (lastErr : Option OpenError) (w : World),
    ∃ pre : List Event, (∀ path data, Event.writeFile path data ∉ pre) ∧
      (((∃ e, (tryProfiles P dst pw salt nonce ct profiles lastErr w).1 = some e ∧
            e ≠ .writePlaintext) ∧
          (tryProfiles P dst pw salt nonce ct profiles lastErr w).2.trace = w.trace ++ pre ∧
          (tryProfiles P dst pw salt nonce ct profiles lastErr w).2.content = w.content) ∨
        (∃ params ∈ profiles, ∃ pt,
          P.gcmOpen (P.idKey pw salt params.time params.memory params.threads keySize)
            nonce ct = some pt ∧
          (tryProfiles P dst pw salt nonce ct profiles lastErr w).2.trace =
            w.trace ++ pre ++ [.gcmOpen, .writeFile dst pt] ∧
          (((tryProfiles P dst pw salt nonce ct profiles lastErr w).1 = none ∧
              (tryProfiles P dst pw salt nonce ct profiles lastErr w).2.content =
                Function.update w.content dst (some pt)) ∨
            ((tryProfiles P dst pw salt nonce ct profiles lastErr w).1 = some .writePlaintext ∧
              (tryProfiles P dst pw salt nonce ct profiles lastErr w).2.content =
                w.content)))) := by
  intro profiles
  induction profiles with
  | nil =>
    intro lastErr w
    refine ⟨[], by simp, Or.inl ?_⟩
    cases lastErr <;> simp [tryProfiles]
  | cons params rest ih =>
    intro lastErr w
    rcases decryptPayload_cases P pw params salt nonce ct w with ⟨e, h⟩ | ⟨e, h⟩ | ⟨pt, hpt, h⟩
    · obtain ⟨pre, hpre, hrec⟩ := ih (some e) (w.emit (.deriveKey params))
      have heq : tryProfiles P dst pw salt nonce ct (params :: rest) lastErr w =
          tryProfiles P dst pw salt nonce ct rest (some e) (w.emit (.deriveKey params)) := by
        simp only [tryProfiles, h]
      rw [heq]
      refine ⟨.deriveKey params :: pre, ?_, ?_⟩
      · intro path data hm
        rcases List.mem_cons.1 hm with h0 | h0
        · cases h0
        · exact hpre path data h0
      · rcases hrec with ⟨h1, h2, h3⟩ | ⟨q, hq, pt, h1, h2, h3⟩
        · exact Or.inl ⟨h1, by rw [h2, emit_trace]; simp, by rw [h3, emit_content]⟩
        · refine Or.inr ⟨q, List.mem_cons_of_mem _ hq, pt, h1, by rw [h2, emit_trace]; simp, ?_⟩
          simpa only [emit_content] using h3
    · obtain ⟨pre, hpre, hrec⟩ := ih (some e) ((w.emit (.deriveKey params)).emit .gcmOpen)
      have heq : tryProfiles P dst pw salt nonce ct (params :: rest) lastErr w =
          tryProfiles P dst pw salt nonce ct rest (some e)
            ((w.emit (.deriveKey params)).emit .gcmOpen) := by
        simp only [tryProfiles, h]
      rw [heq]
      refine ⟨.deriveKey params :: .gcmOpen :: pre, ?_, ?_⟩
      · intro path data hm
        rcases List.mem_cons.1 hm with h0 | h0
        · cases h0
        · rcases List.mem_cons.1 h0 with h0 | h0
          · cases h0
          · exact hpre path data h0
      · rcases hrec with ⟨h1, h2, h3⟩ | ⟨q, hq, pt, h1, h2, h3⟩
        · exact Or.inl ⟨h1, by rw [h2, emit_trace, emit_trace]; simp,
            by rw [h3, emit_content, emit_content]⟩
        · refine Or.inr ⟨q, List.mem_cons_of_mem _ hq, pt, h1,
            by rw [h2, emit_trace, emit_trace]; simp, ?_⟩
          simpa only [emit_content] using h3
    · refine ⟨[.deriveKey params], ?_, Or.inr ⟨params, List.mem_cons_self _ _, pt, hpt, ?_, ?_⟩⟩
      · intro path data hm
        rcases List.mem_cons.1 hm with h0 | h0
        · cases h0
        · cases h0
      · by_cases hd : w.denied (.writeFile dst pt) = true
        · simp [tryProfiles, h, WriteFile, hd, World.emit]
        · simp [tryProfiles, h, WriteFile, hd, World.emit, World.put]
      · by_cases hd : w.denied (.writeFile dst pt) = true
        · right; simp [tryProfiles, h, WriteFile, hd, World.emit]
        · left; simp [tryProfiles, h, WriteFile, hd, World.emit, World.put]

/-- What `DecryptFile` does to the world: either it fails before any write, leaving every file
as it was, or it makes exactly one write, of the plaintext an `Open` under a known profile
returned, right after that `Open`. -/
theorem DecryptFile_effects (P : Primitives) (src dst : String) (pw : Bytes) (w : World) :
    ∃ pre : List Event, (∀ path data, Event.writeFile path data ∉ pre) ∧
      (((∃ e, (DecryptFile P src dst pw w).1 = some e ∧ e ≠ .writePlaintext) ∧
          (DecryptFile P src dst pw w).2.trace = w.trace ++ pre ∧
          (DecryptFile P src dst pw w).2.content = w.content) ∨
        (∃ params ∈ legacyArgon2Profiles, ∃ salt nonce ct pt,
          P.gcmOpen (P.idKey pw salt params.time params.memory params.threads keySize)
            nonce ct = some pt ∧
          (DecryptFile P src dst pw w).2.trace =
            w.trace ++ pre ++ [.gcmOpen, .writeFile dst pt] ∧
          (((DecryptFile P src dst pw w).1 = none ∧
              (DecryptFile P src dst pw w).2.content =
                Function.update w.content dst (some pt)) ∨
            ((DecryptFile P src dst pw w).1 = some .writePlaintext ∧
              (DecryptFile P src dst pw w).2.content = w.content)))) := by
  have early : ∀ e : Error, e ≠ .writePlaintext →
      DecryptFile P src dst pw w = (some e, w.emit (.readFile src)) →
      ∃ pre : List Event, (∀ path data, Event.writeFile path data ∉ pre) ∧
      (((∃ e, (DecryptFile P src dst pw w).1 = some e ∧ e ≠ .writePlaintext) ∧
          (DecryptFile P src dst pw w).2.trace = w.trace ++ pre ∧
          (DecryptFile P src dst pw w).2.content = w.content) ∨
        (∃ params ∈ legacyArgon2Profiles, ∃ salt nonce ct pt,
          P.gcmOpen (P.idKey pw salt params.time params.memory params.threads keySize)
            nonce ct = some pt ∧
          (DecryptFile P src dst pw w).2.trace =
            w.trace ++ pre ++ [.gcmOpen, .writeFile dst pt] ∧
          (((DecryptFile P src dst pw w).1 = none ∧
              (DecryptFile P src dst pw w).2.content =
                Function.update w.content dst (some pt)) ∨
            ((DecryptFile P src dst pw w).1 = some .writePlaintext ∧
              (DecryptFile P src dst pw w).2.content = w.content)))) := by
    intro e he h
    refine ⟨[.readFile src], by simp, Or.inl ?_⟩
    rw [h]
    exact ⟨⟨e, rfl, he⟩, rfl, rfl⟩
  have late : ∀ salt nonce ct,
      DecryptFile P src dst pw w =
        tryProfiles P dst pw salt nonce ct legacyArgon2Profiles none (w.emit (.readFile src)) →
      ∃ pre : List Event, (∀ path data, Event.writeFile path data ∉ pre) ∧
      (((∃ e, (DecryptFile P src dst pw w).1 = some e ∧ e ≠ .writePlaintext) ∧
          (DecryptFile P src dst pw w).2.trace = w.trace ++ pre ∧
          (DecryptFile P src dst pw w).2.content = w.content) ∨
        (∃ params ∈ legacyArgon2Profiles, ∃ salt nonce ct pt,
          P.gcmOpen (P.idKey pw salt params.time params.memory params.threads keySize)
            nonce ct = some pt ∧
          (DecryptFile P src dst pw w).2.trace =
            w.trace ++ pre ++ [.gcmOpen, .writeFile dst pt] ∧
          (((DecryptFile P src dst pw w).1 = none ∧
              (DecryptFile P src dst pw w).2.content =
                Function.update w.content dst (some pt)) ∨
            ((DecryptFile P src dst pw w).1 = some .writePlaintext ∧
              (DecryptFile P src dst pw w).2.content = w.content)))) := by
    intro salt nonce ct h
    obtain ⟨pre, hpre, hrec⟩ := tryProfiles_effects P dst pw salt nonce ct legacyArgon2Profiles
      none (w.emit (.readFile src))
    rw [h]
    refine ⟨.readFile src :: pre, ?_, ?_⟩
    · intro path data hm
      rcases List.mem_cons.1 hm with h0 | h0
      · cases h0
      · exact hpre path data h0
    · rcases hrec with ⟨h1, h2, h3⟩ | ⟨q, hq, pt, h1, h2, h3⟩
      · exact Or.inl ⟨h1, by rw [h2, emit_trace]; simp, by rw [h3, emit_content]⟩
      · refine Or.inr ⟨q, hq, salt, nonce, ct, pt, h1, by rw [h2, emit_trace]; simp, ?_⟩
        simpa only [emit_content] using h3
  cases hc : w.content src with
  | none => exact early .readEncrypted (by simp) (by simp [DecryptFile, ReadFile, hc])
  | some payload =>
    by_cases hr : w.denied (.readFile src) = true
    · exact early .readEncrypted (by simp) (by simp [DecryptFile, ReadFile, hc, hr])
    · have hr1 : w.denied (.readFile src) = false := by simpa using hr
      have hread := DecryptFile_read P src dst pw payload w hc hr1
      by_cases h1 : payload.length < 44
      · exact early .tooShort (by simp) (by rw [hread, if_pos h1])
      · rw [if_neg h1] at hread
        by_cases h2 : 5 ≤ payload.length ∧ slice payload 0 4 = magicHeader
        · rw [if_pos h2] at hread
          by_cases h3 : payload.getD 4 0 ≠ versionByte
          · exact early (.unsupportedVersion (payload.getD 4 0)) (by simp)
              (by rw [hread, if_pos h3])
          · rw [if_neg h3] at hread
            by_cases h4 : payload.length < 49
            · exact early .tooShort (by simp) (by rw [hread, if_pos h4])
            · rw [if_neg h4] at hread
              exact late _ _ _ hread
        · rw [if_neg h2] at hread
          exact late _ _ _ hread

/-- What `EncryptFile` does to the world: either it fails before any write, leaving every file
as it was, or its last step is the one write of the sealed payload, right after `Seal`. -/
theorem EncryptFile_effects (P : Primitives) (src dst : String) (pw : Bytes) (w : World) :
    (∃ pre : List Event, (∀ path data, Event.writeFile path data ∉ pre) ∧
      (∃ e, (EncryptFile P src dst pw w).1 = some e ∧ e ≠ .writeEncrypted) ∧
      (EncryptFile P src dst pw w).2.trace = w.trace ++ pre ∧
      (EncryptFile P src dst pw w).2.content = w.content) ∨
    (∃ plaintext salt nonce, w.content src = some plaintext ∧
      (EncryptFile P src dst pw w).2.trace = w.trace ++
        [.readFile src, .randRead saltSize, .deriveKey currentArgon2, .randRead gcmNonceSize,
          .gcmSeal, .writeFile dst (sealedPayload P pw salt nonce plaintext currentArgon2)] ∧
      (((EncryptFile P src dst pw w).1 = none ∧
          (EncryptFile P src dst pw w).2.content =
            Function.update w.content dst
              (some (sealedPayload P pw salt nonce plaintext currentArgon2))) ∨
        ((EncryptFile P src dst pw w).1 = some .writeEncrypted ∧
          (EncryptFile P src dst pw w).2.content = w.content))) := by
  cases hc : w.content src with
  | none =>
    left
    exact ⟨[.readFile src], by simp, by simp [EncryptFile, ReadFile, hc, World.emit]⟩
  | some plaintext =>
    by_cases hr : w.denied (.readFile src) = true
    · left
      exact ⟨[.readFile src], by simp, by simp [EncryptFile, ReadFile, hc, hr, World.emit]⟩
    · by_cases h16 : saltSize ≤ w.entropy.length
      · by_cases hk : aesKeySizeOk (P.idKey pw (w.entropy.take saltSize) currentArgon2.time
            currentArgon2.memory currentArgon2.threads keySize).length = true
        · by_cases h12 : gcmNonceSize ≤ w.entropy.length - saltSize
          · right
            refine ⟨plaintext, w.entropy.take saltSize,
              (w.entropy.drop saltSize).take gcmNonceSize, rfl, ?_⟩
            by_cases hw : w.denied (.writeFile dst (sealedPayload P pw (w.entropy.take saltSize)
                ((w.entropy.drop saltSize).take gcmNonceSize) plaintext currentArgon2)) = true
            · simp [sealedPayload] at hw
              simp [EncryptFile, ReadFile, hc, hr, randReadFull, h16, deriveKey, hk, h12,
                WriteFile, World.emit, World.put, sealedPayload, hw]
            · simp [sealedPayload] at hw
              simp [EncryptFile, ReadFile, hc, hr, randReadFull, h16, deriveKey, hk, h12,
                WriteFile, World.emit, World.put, sealedPayload, hw]
          · left
            exact ⟨[.readFile src, .randRead saltSize, .deriveKey currentArgon2,
              .randRead gcmNonceSize], by simp,
              by simp [EncryptFile, ReadFile, hc, hr, randReadFull, h16, deriveKey, hk, h12,
                World.emit]⟩
        · left
          exact ⟨[.readFile src, .randRead saltSize, .deriveKey currentArgon2], by simp,
            by simp [EncryptFile, ReadFile, hc, hr, randReadFull, h16, deriveKey, hk,
              World.emit]⟩
      · left
        exact ⟨[.readFile src, .randRead saltSize], by simp,
          by simp [EncryptFile, ReadFile, hc, hr, randReadFull, h16, World.emit]⟩

theorem drop_trace_of_eq (t t2 pre : List Event) (h : t2 = t ++ pre) :
    t2.drop t.length = pre := by
  rw [h, List.drop_left]

/-- C5. No partial output on crypto errors. The events of a run are those the trace gained.
(1) Whenever `DecryptFile` fails for any reason other than the final write itself (unreadable
source, payload too short, unsupported version, authentication failure under every known
profile), no file has changed and no write was attempted. (2) Any write `DecryptFile` makes is
to the destination, is its last step, comes right after an `Open` under a known profile
succeeded, and carries the whole plaintext that `Open` returned. (3) and (4) The same for
`EncryptFile`: a failure other than of the final write changes no file and attempts no write,
and the only write is the last step, right after `Seal`, of the complete payload. -/
theorem no_partial_output (P : Primitives) (src dst : String) (pw : Bytes) (w : World) :
    (∀ e, (DecryptFile P src dst pw w).1 = some e → e ≠ .writePlaintext →
      (DecryptFile P src dst pw w).2.content = w.content ∧
      ∀ path data, Event.writeFile path data ∉
        (DecryptFile P src dst pw w).2.trace.drop w.trace.length) ∧
    (∀ path data, Event.writeFile path data ∈
        (DecryptFile P src dst pw w).2.trace.drop w.trace.length →
      path = dst ∧ ∃ params ∈ legacyArgon2Profiles, ∃ salt nonce ct,
        P.gcmOpen (P.idKey pw salt params.time params.memory params.threads keySize)
          nonce ct = some data ∧
        ∃ pre : List Event, (∀ p d, Event.writeFile p d ∉ pre) ∧
          (DecryptFile P src dst pw w).2.trace.drop w.trace.length =
            pre ++ [.gcmOpen, .writeFile dst data]) ∧
    (∀ e, (EncryptFile P src dst pw w).1 = some e → e ≠ .writeEncrypted →
      (EncryptFile P src dst pw w).2.content = w.content ∧
      ∀ path data, Event.writeFile path data ∉
        (EncryptFile P src dst pw w).2.trace.drop w.trace.length) ∧
    (∀ path data, Event.writeFile path data ∈
        (EncryptFile P src dst pw w).2.trace.drop w.trace.length →
      path = dst ∧ ∃ plaintext salt nonce, w.content src = some plaintext ∧
        data = sealedPayload P pw salt nonce plaintext currentArgon2 ∧
        (EncryptFile P src dst pw w).2.trace.drop w.trace.length =
          [.readFile src, .randRead saltSize, .deriveKey currentArgon2,
            .randRead gcmNonceSize, .gcmSeal, .writeFile dst data]) := by
  obtain ⟨pre, hpre, hdec⟩ := DecryptFile_effects P src dst pw w
  have henc := EncryptFile_effects P src dst pw w
  refine ⟨?_, ?_, ?_, ?_⟩
  · intro e he hne
    rcases hdec with ⟨_, h2, h3⟩ | ⟨_, _, _, _, _, _, _, _, h3⟩
    · rw [drop_trace_of_eq _ _ _ h2]
      exact ⟨h3, hpre⟩
    · rcases h3 with ⟨h3, _⟩ | ⟨h3, _⟩
      · rw [h3] at he; cases he
      · rw [h3] at he; cases he; exact absurd rfl hne
  · intro path data hm
    rcases hdec with ⟨_, h2, _⟩ | ⟨q, hq, salt, nonce, ct, pt, h1, h2, _⟩
    · rw [drop_trace_of_eq _ _ _ h2] at hm
      exact absurd hm (hpre path data)
    · rw [List.append_assoc] at h2
      rw [drop_trace_of_eq _ _ _ h2] at hm ⊢
      rcases List.mem_append.1 hm with h0 | h0
      · exact absurd h0 (hpre path data)
      · simp only [List.mem_cons, List.mem_singleton, List.not_mem_nil, or_false] at h0
        rcases h0 with h0 | h0
        · cases h0
        · cases h0
          exact ⟨rfl, q, hq, salt, nonce, ct, h1, pre, hpre, rfl⟩
  · intro e he hne
    rcases henc with ⟨pre2, hpre2, _, h2, h3⟩ | ⟨_, _, _, _, _, h3⟩
    · rw [drop_trace_of_eq _ _ _ h2]
      exact ⟨h3, hpre2⟩
    · rcases h3 with ⟨h3, _⟩ | ⟨h3, _⟩
      · rw [h3] at he; cases he
      · rw [h3] at he; cases he; exact absurd rfl hne
  · intro path data hm
    rcases henc with ⟨pre2, hpre2, _, h2, _⟩ | ⟨plaintext, salt, nonce, hc, h2, _⟩
    · rw [drop_trace_of_eq _ _ _ h2] at hm
      exact absurd hm (hpre2 path data)
    · rw [drop_trace_of_eq _ _ _ h2] at hm ⊢
      simp only [List.mem_cons, List.mem_singleton, List.not_mem_nil, or_false] at hm
      rcases hm with h0 | h0 | h0 | h0 | h0 | h0
      · cases h0
      · cases h0
      · cases h0
      · cases h0
      · cases h0
      · cases h0
        exact ⟨rfl, plaintext, salt, nonce, hc, rfl, rfl⟩

/-- An instance of C5: a wrong password on the file written under `[9]` leaves the destination
absent. -/
theorem no_partial_output_witness :
    (DecryptFile toy "secret.env.enc" "out.env" [8]
      (EncryptFile toy "secret.env" "secret.env.enc" [9] demoWorld).2).2.content "out.env"
      = none :=
  have h := (no_partial_output toy "secret.env.enc" "out.env" [8]
    (EncryptFile toy "secret.env" "secret.env.enc" [9] demoWorld).2).1
    (.decryptFailed .authFailed) (by decide) (by decide)
  by rw [h.1]; decide

end Crypto

/-! ## `internal/core/state.go` and `cmd/app/rpc_server.go` -/

namespace Core

open App Ipc

/-- C6. Extend on a registered path: `State.Extend` returns true, the entry afterwards is the
old one with `ExpiresAt` moved by `delta` and `Warned` false (whatever it was), and the entry
of every other path is as before. -/
theorem Extend_registered (s : State) (path : String) (delta : Duration) (wf : WatchedFile)
    (h : s.files.lookup path = some wf) :
    (s.Extend path delta).1 = true ∧
    (s.Extend path delta).2.files.lookup path =
      some { Path := wf.Path, ExpiresAt := wf.ExpiresAt + delta, Warned := false } ∧
    ∀ other, other ≠ path →
      (s.Extend path delta).2.files.lookup other = s.files.lookup other := by
  refine ⟨?_, ?_, ?_⟩
  · simp [State.Extend, h]
  · simp [State.Extend, h, AList.lookup_insert]
  · intro other hne
    simp [State.Extend, h, AList.lookup_insert_ne hne]

/-- The instance of C6 at an entry that was warned before. -/
theorem Extend_registered_witness :
    (((NewState.Register "/tmp/secret.env" 100).MarkWarned "/tmp/secret.env").2.Extend
      "/tmp/secret.env" 30).1 = true ∧
    (((NewState.Register "/tmp/secret.env" 100).MarkWarned "/tmp/secret.env").2.Extend
      "/tmp/secret.env" 30).2.files.lookup "/tmp/secret.env" =
      some { Path := "/tmp/secret.env", ExpiresAt := 100 + 30, Warned := false } :=
  have h := Extend_registered
    ((NewState.Register "/tmp/secret.env" 100).MarkWarned "/tmp/secret.env").2
    "/tmp/secret.env" 30 { Path := "/tmp/secret.env", ExpiresAt := 100, Warned := true }
    (by decide)
  ⟨h.1, h.2.1⟩

/-- C7. Extend on an unregistered path: `State.Extend` returns false and the state it leaves
is the state it got (no entry is created); `Manager.Extend` on such a state answers
`Success = false` and leaves manager and world as they were, so nothing is saved. -/
theorem Extend_unregistered (s : State) (path : String) (delta : Duration)
    (h : s.files.lookup path = none) :
    s.Extend path delta = (false, s) ∧
    ∀ (C : Codec) (m : Manager) (req : Request) (w : World),
      m.state = s → req.Path = path →
      (Manager.Extend C m req w).1.Success = false ∧
      (Manager.Extend C m req w).2 = (m, w) := by
  have hext : ∀ d, s.Extend path d = (false, s) := by
    intro d
    simp [State.Extend, h]
  refine ⟨hext delta, ?_⟩
  intro C m req w hm hp
  subst hm hp
  unfold Manager.Extend
  by_cases he : req.Path = ""
  · simp [he]
  · simp only [he, if_false, hext]
    trivial

/-- The instance of C7 at the empty registry. -/
theorem Extend_unregistered_witness :
    NewState.Extend "/tmp/secret.env" 30 = (false, NewState) ∧
    (Manager.Extend demoCodec
      { state := NewState
        cfg := { AppDir := "/app", StatePath := "/app/state.json", SockPath := "/sock",
                 SettingsPath := "/app/config.json", DefaultTTL := 3600 }
        notifier := false }
      { Path := "/tmp/secret.env", TTL := 0 } Crypto.demoWorld).1.Success = false :=
  have h := Extend_unregistered NewState "/tmp/secret.env" 30 (by decide)
  ⟨h.1, (h.2 demoCodec _ { Path := "/tmp/secret.env", TTL := 0 } Crypto.demoWorld rfl rfl).1⟩

/-- C8 as stated fails: registering a path again with an earlier deadline, with no
`StopWatching` in between, moves its `ExpiresAt` back from 100 to 50. -/
theorem Register_moves_expiresAt_back :
    (NewState.Register "/tmp/secret.env" 100).expiresAt "/tmp/secret.env" = some 100 ∧
    ((NewState.Register "/tmp/secret.env" 100).run
      [.register "/tmp/secret.env" 50]).expiresAt "/tmp/secret.env" = some 50 := by
  decide

/-- One call that keeps the deadline of `path` leaves the path registered, with a deadline
that is not earlier. -/
theorem apply_keeps_expiresAt (path : String) (s : State) (op : Op) (e0 : Time)
    (h0 : s.expiresAt path = some e0) (hk : op.keeps path s = true) :
    ∃ e1, (s.apply op).expiresAt path = some e1 ∧ e0 ≤ e1 := by
  cases op with
  | register p e =>
    by_cases hp : p = path
    · subst hp
      refine ⟨e, by simp [State.apply, State.Register, State.expiresAt, AList.lookup_insert], ?_⟩
      simpa [Op.keeps, h0] using hk
    · refine ⟨e0, ?_, le_refl _⟩
      have hne : path ≠ p := fun h => hp h.symm
      simpa [State.apply, State.Register, State.expiresAt, AList.lookup_insert_ne hne] using h0
  | extend p d =>
    cases hl : s.files.lookup p with
    | none => exact ⟨e0, by simpa [State.apply, State.Extend, hl] using h0, le_refl _⟩
    | some wf =>
      by_cases hp : p = path
      · subst hp
        have hwf : wf.ExpiresAt = e0 := by simpa [State.expiresAt, hl] using h0
        have hd : 0 ≤ d := by simpa [Op.keeps] using hk
        refine ⟨e0 + d, ?_, Int.le_add_of_nonneg_right hd⟩
        simp [State.apply, State.Extend, hl, State.expiresAt, AList.lookup_insert, hwf]
      · refine ⟨e0, ?_, le_refl _⟩
        have hne : path ≠ p := fun h => hp h.symm
        simpa [State.apply, State.Extend, hl, State.expiresAt, AList.lookup_insert_ne hne]
          using h0
  | markWarned p =>
    cases hl : s.files.lookup p with
    | none => exact ⟨e0, by simpa [State.apply, State.MarkWarned, hl] using h0, le_refl _⟩
    | some wf =>
      by_cases hp : p = path
      · subst hp
        have hwf : wf.ExpiresAt = e0 := by simpa [State.expiresAt, hl] using h0
        refine ⟨e0, ?_, le_refl _⟩
        simp [State.apply, State.MarkWarned, hl, State.expiresAt, AList.lookup_insert, hwf]
      · refine ⟨e0, ?_, le_refl _⟩
        have hne : path ≠ p := fun h => hp h.symm
        simpa [State.apply, State.MarkWarned, hl, State.expiresAt, AList.lookup_insert_ne hne]
          using h0
  | stopWatching p =>
    have hp : p ≠ path := by simpa [Op.keeps] using hk
    refine ⟨e0, ?_, le_refl _⟩
    have hne : path ≠ p := fun h => hp h.symm
    simpa [State.apply, State.StopWatching, State.expiresAt, AList.lookup_erase_ne hne] using h0

/-- A sequence of calls that keep the deadline of `path` leaves the path registered, with a
deadline that is not earlier. -/
theorem run_keeps_expiresAt (path : String) (ops : List Op) :
    ∀ (s : State) (e0 : Time), s.expiresAt path = some e0 → s.keepsAll path ops = true →
      ∃ e1, (s.run ops).expiresAt path = some e1 ∧ e0 ≤ e1 := by
  induction ops with
  | nil => intro s e0 h0 _; exact ⟨e0, h0, le_refl _⟩
  | cons op rest ih =>
    intro s e0 h0 hk
    simp only [State.keepsAll, Bool.and_eq_true] at hk
    obtain ⟨e1, h1, h01⟩ := apply_keeps_expiresAt path s op e0 h0 hk.1
    obtain ⟨e2, h2, h12⟩ := ih (s.apply op) e1 h1 hk.2
    exact ⟨e2, by simpa [State.run] using h2, le_trans h01 h12⟩

theorem keepsAll_append (path : String) (pre rest : List Op) :
    ∀ s : State, s.keepsAll path (pre ++ rest) =
      (s.keepsAll path pre && (s.run pre).keepsAll path rest) := by
  induction pre with
  | nil => intro s; simp [State.keepsAll, State.run]
  | cons op pre ih =>
    intro s
    simp [State.keepsAll, State.run, ih, Bool.and_assoc]

theorem run_append (s : State) (pre rest : List Op) :
    s.run (pre ++ rest) = (s.run pre).run rest := by
  simp [State.run]

/-- C8, as amended. Take a registered path and a sequence of `Register`, `Extend`,
`MarkWarned` and `StopWatching` calls in which no `StopWatching` names the path, no `Extend`
of the path has a negative `delta` and no `Register` of the path carries a deadline earlier
than the one the path has at that moment. Then at every call of the sequence the path is
registered before and after it, and its `ExpiresAt` after the call is not earlier than
before it. -/
theorem expiresAt_nondecreasing (path : String) (s : State) (ops pre post : List Op) (op : Op)
    (e0 : Time) (h0 : s.expiresAt path = some e0) (hk : s.keepsAll path ops = true)
    (hops : ops = pre ++ op :: post) :
    ∃ a b, (s.run pre).expiresAt path = some a ∧
      (s.run (pre ++ [op])).expiresAt path = some b ∧ e0 ≤ a ∧ a ≤ b := by
  subst hops
  rw [keepsAll_append, Bool.and_eq_true] at hk
  obtain ⟨a, ha, h0a⟩ := run_keeps_expiresAt path pre s e0 h0 hk.1
  have hop : op.keeps path (s.run pre) = true := by
    have := hk.2
    simp only [State.keepsAll, Bool.and_eq_true] at this
    exact this.1
  obtain ⟨b, hb, hab⟩ := apply_keeps_expiresAt path (s.run pre) op a ha hop
  exact ⟨a, b, ha, by rw [run_append]; simpa [State.run] using hb, h0a, hab⟩

/-- The instance of the amended C8 at the scenario of the specification: registered with
deadline 3600, warned, then extended by 1800. -/
theorem expiresAt_nondecreasing_witness :
    ∃ a b, ((NewState.Register "/tmp/secret.env" 3600).run
        [.markWarned "/tmp/secret.env"]).expiresAt "/tmp/secret.env" = some a ∧
      ((NewState.Register "/tmp/secret.env" 3600).run
        ([.markWarned "/tmp/secret.env"] ++ [.extend "/tmp/secret.env" 1800])).expiresAt
        "/tmp/secret.env" = some b ∧ 3600 ≤ a ∧ a ≤ b :=
  expiresAt_nondecreasing "/tmp/secret.env" (NewState.Register "/tmp/secret.env" 3600)
    [.markWarned "/tmp/secret.env", .extend "/tmp/secret.env" 1800, .register "/other" 5]
    [.markWarned "/tmp/secret.env"] [.register "/other" 5] (.extend "/tmp/secret.env" 1800)
    3600 (by decide) (by decide) rfl

theorem length_kerase_of_mem (path : String) (l : List (Sigma fun _ : String => WatchedFile))
    (h : path ∈ l.keys) : (List.kerase path l).length + 1 = l.length := by
  obtain ⟨b, l₁, l₂, -, h1, h2⟩ := List.exists_of_kerase h
  rw [h2, h1]
  simp
  omega

/-- C9. Register adds or updates: after `State.Register` the snapshot has the entry
`{path, expiresAt, warned = false}` for the path and no second one, the entry of every other
path is as before, and `Count` has grown by one if the path was absent and is unchanged if it
was present. -/
theorem Register_adds_or_updates (s : State) (path : String) (expiresAt : Time) :
    (s.Register path expiresAt).Snapshot.lookup path =
      some { Path := path, ExpiresAt := expiresAt, Warned := false } ∧
    (s.Register path expiresAt).Snapshot.keys.count path = 1 ∧
    (∀ other, other ≠ path →
      (s.Register path expiresAt).Snapshot.lookup other = s.Snapshot.lookup other) ∧
    (path ∉ s.files → (s.Register path expiresAt).Count = s.Count + 1) ∧
    (path ∈ s.files → (s.Register path expiresAt).Count = s.Count) := by
  refine ⟨?_, ?_, ?_, ?_, ?_⟩
  · simp [State.Register, State.Snapshot, AList.lookup_insert]
  · apply List.count_eq_one_of_mem (AList.keys_nodup _)
    simp [State.Register, State.Snapshot]
  · intro other hne
    simp [State.Register, State.Snapshot, AList.lookup_insert_ne hne]
  · intro h
    simp only [State.Register, State.Count, AList.insert_entries_of_neg h, List.length_cons]
  · intro h
    have := length_kerase_of_mem path s.files.entries (AList.mem_keys.1 h)
    simp only [State.Register, State.Count, AList.insert_entries, List.length_cons]
    exact this

/-- An instance of C9: the scenario of the specification, and a second registration of the
same path. -/
theorem Register_adds_or_updates_witness :
    (NewState.Register "/tmp/secret.env" 3600).Count = 1 ∧
    ((NewState.Register "/tmp/secret.env" 3600).Register "/tmp/secret.env" 7200).Count = 1 :=
  ⟨(Register_adds_or_updates NewState "/tmp/secret.env" 3600).2.2.2.1 (by decide),
    (Register_adds_or_updates (NewState.Register "/tmp/secret.env" 3600)
      "/tmp/secret.env" 7200).2.2.2.2 (by decide)⟩

/-- The stand-in decoder keeps what `encoding/json` documents for documents other than
arrays. -/
theorem tableCodec_json : tableCodec.Json where
  null := by decide
  notArray := by
    intro b h1 h2
    simp only [tableCodec]
    split_ifs with k1 k2 k3
    · subst k1; exact absurd rfl h1
    · subst k2; exact absurd rfl h1
    · subst k3; exact absurd rfl h2
    · rfl

/-- The counterexample to C10: a state file that holds the JSON document `null`. It is not a
list of watch entries (it does not start with `[`), and `LoadState` returns the empty registry
and no error. -/
theorem LoadState_null_accepted :
    jsonStart jsonNull ≠ some 91 ∧
    (LoadState tableCodec "/app/state.json"
      (Crypto.demoWorld.put "/app/state.json" (some jsonNull))).1 = .ok NewState :=
  ⟨by decide, rfl⟩

/-- C10, amended. Loading. When the state file does not exist `LoadState` returns the empty
registry and no error. When the file can be read, `LoadState` returns the decode error, and
no state, exactly when `json.Unmarshal` rejects the content; with what `encoding/json`
documents, that is the case for every content that starts, after white space, with anything
but `[` or `n` (no JSON at all, or a JSON value that is neither an array nor `null`, the empty
file included), whereas the document `null`, which is no list either, gives the empty registry
and no error. -/
theorem LoadState_missing_or_malformed (C : Codec) (hC : C.Json) (path : String) (w : World) :
    (w.content path = none →
      (LoadState C path w).1 = .ok NewState ∧ NewState.Count = 0) ∧
    (∀ b, w.content path = some b → w.denied (.readFile path) = false →
      ((LoadState C path w).1 = .error .decode ↔ C.unmarshal b = none) ∧
      (jsonStart b ≠ some 91 → jsonStart b ≠ some 110 →
        (LoadState C path w).1 = .error .decode) ∧
      (b = jsonNull → (LoadState C path w).1 = .ok NewState)) := by
  refine ⟨?_, ?_⟩
  · intro h
    refine ⟨?_, rfl⟩
    simp [LoadState, ReadFile, h]
  · intro b h hr
    have hnone : C.unmarshal b = none → (LoadState C path w).1 = .error .decode := by
      intro hb
      simp [LoadState, ReadFile, h, hr, hb]
    refine ⟨⟨?_, hnone⟩, fun h1 h2 => hnone (hC.notArray b h1 h2), ?_⟩
    · intro herr
      cases hb : C.unmarshal b with
      | none => rfl
      | some l => simp [LoadState, ReadFile, h, hr, hb] at herr
    · intro hb
      subst hb
      simp [LoadState, ReadFile, h, hr, hC.null]

/-- An instance of the amended C10: no state file, and a state file that holds a JSON object. -/
theorem LoadState_missing_or_malformed_witness :
    (LoadState tableCodec "/app/state.json" Crypto.demoWorld).1 = .ok NewState ∧
    (LoadState tableCodec "/app/state.json"
      (Crypto.demoWorld.put "/app/state.json" (some [123, 125]))).1 = .error .decode :=
  ⟨((LoadState_missing_or_malformed tableCodec tableCodec_json "/app/state.json"
      Crypto.demoWorld).1 (by decide)).1,
    ((LoadState_missing_or_malformed tableCodec tableCodec_json "/app/state.json"
      (Crypto.demoWorld.put "/app/state.json" (some [123, 125]))).2 [123, 125]
      (by decide) rfl).2.1 (by decide) (by decide)⟩

/-! ### Saving and loading -/

theorem keyed_insert (s : State) (path : String) (wf : WatchedFile) (hs : s.keyed)
    (hwf : wf.Path = path) : State.keyed { files := s.files.insert path wf } := by
  intro e he
  simp only [AList.insert_entries, List.mem_cons] at he
  rcases he with h | h
  · subst h; exact hwf
  · exact hs e ((List.kerase_sublist path s.files.entries).subset h)

theorem keyed_apply (s : State) (op : Op) (hs : s.keyed) : (s.apply op).keyed := by
  cases op with
  | register p e => exact keyed_insert s p _ hs rfl
  | extend p d =>
    cases hl : s.files.lookup p with
    | none => simpa [State.apply, State.Extend, hl] using hs
    | some wf =>
      have hwf : wf.Path = p := hs ⟨p, wf⟩ (AList.mem_lookup_iff.1 (by simp [hl]))
      simpa [State.apply, State.Extend, hl] using
        keyed_insert s p { wf with ExpiresAt := wf.ExpiresAt + d, Warned := false } hs hwf
  | markWarned p =>
    cases hl : s.files.lookup p with
    | none => simpa [State.apply, State.MarkWarned, hl] using hs
    | some wf =>
      have hwf : wf.Path = p := hs ⟨p, wf⟩ (AList.mem_lookup_iff.1 (by simp [hl]))
      simpa [State.apply, State.MarkWarned, hl] using
        keyed_insert s p { wf with Warned := true } hs hwf
  | stopWatching p =>
    intro e he
    exact hs e ((List.kerase_sublist p s.files.entries).subset he)

theorem keyed_run (ops : List Op) : ∀ s : State, s.keyed → (s.run ops).keyed := by
  induction ops with
  | nil => intro s hs; exact hs
  | cons op rest ih => intro s hs; exact ih _ (keyed_apply s op hs)

theorem keyed_NewState : NewState.keyed := by
  intro e he
  simp [NewState] at he

/-- Loading a list of entries that are filed under their own paths, without a repeated path,
gives back every entry under its path. -/
theorem lookup_foldl_insert (l : List (Sigma fun _ : String => WatchedFile)) :
    ∀ (acc : State), l.NodupKeys → (∀ e ∈ l, e.2.Path = e.1) → ∀ q,
      ((l.map (fun e => e.2)).foldl
        (fun s wf => ({ files := s.files.insert wf.Path wf } : State)) acc).files.lookup q =
      match l.dlookup q with
      | some v => some v
      | none => acc.files.lookup q := by
  induction l with
  | nil => intro acc _ _ q; simp
  | cons e t ih =>
    intro acc hnd hk q
    obtain ⟨hnot, hndt⟩ := List.nodupKeys_cons.1 hnd
    have hke : e.2.Path = e.1 := hk e (List.mem_cons_self _ _)
    have hkt : ∀ x ∈ t, x.2.Path = x.1 := fun x hx => hk x (List.mem_cons_of_mem _ hx)
    simp only [List.map_cons, List.foldl_cons]
    rw [ih _ hndt hkt q, hke]
    by_cases hq : q = e.1
    · subst hq
      have h1 : t.dlookup e.1 = none := List.dlookup_eq_none.2 hnot
      rw [h1, List.dlookup_cons_eq]
      simp [AList.lookup_insert]
    · have hq2 : e.1 ≠ q := fun h => hq h.symm
      rw [List.dlookup_cons_ne _ _ hq]
      cases t.dlookup q with
      | some v => rfl
      | none => simp [AList.lookup_insert_ne hq]

theorem tmp_ne (path : String) : path ++ ".tmp" ≠ path := by
  intro h
  have := congrArg String.length h
  simp [String.length_append] at this
  exact absurd this (by decide)

/-- A `Save` without error has encoded the entries and left the encoding at `path`. -/
theorem Save_ok (C : Codec) (s : State) (path : String) (w : World)
    (h : (s.Save C path w).1 = none) :
    ∃ b, C.marshal (s.files.entries.map (fun e => e.2)) = some b ∧
      (s.Save C path w).2.content path = some b ∧ (s.Save C path w).2.denied = w.denied := by
  unfold State.Save at h ⊢
  cases hm : C.marshal (s.files.entries.map (fun e => e.2)) with
  | none => simp [hm] at h
  | some b =>
    simp only [hm] at h ⊢
    cases h1 : w.denied (.openFile (path ++ ".tmp")) <;>
    cases h2 : w.denied (.write (path ++ ".tmp") b) <;>
    cases h3 : w.denied (.sync (path ++ ".tmp")) <;>
    cases h4 : w.denied (.close (path ++ ".tmp")) <;>
    cases h5 : w.denied (.rename (path ++ ".tmp") path) <;>
    cases h6 : w.denied (.chmod path) <;>
    simp [World.emit, World.put, h1, h2, h3, h4, h5, h6] at h ⊢
    exact Function.update_noteq (fun h => tmp_ne path h.symm) _ _ ▸ (by simp)

/-- C11. Persistence round trip. Take a registry reached from `NewState` through `Register`,
`Extend`, `MarkWarned` and `StopWatching`, a `Save` of it that returns no error, and a JSON
library whose decoder inverts its encoder. Then `LoadState` on the file that `Save` wrote
returns a registry with the same snapshot: under every path the same entry, or none in
both, and the same `Count`. -/
theorem Save_LoadState_roundtrip (C : Codec)
    (hC : ∀ l b, C.marshal l = some b → C.unmarshal b = some l)
    (ops : List Op) (path : String) (w : World)
    (hsave : ((NewState.run ops).Save C path w).1 = none)
    (hread : w.denied (.readFile path) = false) :
    ∃ s2, (LoadState C path ((NewState.run ops).Save C path w).2).1 = .ok s2 ∧
      (∀ q, s2.Snapshot.lookup q = (NewState.run ops).Snapshot.lookup q) ∧
      s2.Count = (NewState.run ops).Count := by
  obtain ⟨b, hb, hcontent, hden⟩ := Save_ok C (NewState.run ops) path w hsave
  have hk : (NewState.run ops).keyed := keyed_run ops NewState keyed_NewState
  have hload : (LoadState C path ((NewState.run ops).Save C path w).2).1 =
      .ok (((NewState.run ops).files.entries.map (fun e => e.2)).foldl
        (fun s wf => ({ files := s.files.insert wf.Path wf } : State)) NewState) := by
    simp [LoadState, ReadFile, hcontent, hden, hread, hC _ _ hb]
  have hlook : ∀ q, ((((NewState.run ops).files.entries.map (fun e => e.2)).foldl
        (fun s wf => ({ files := s.files.insert wf.Path wf } : State)) NewState)).files.lookup q
      = (NewState.run ops).files.lookup q := by
    intro q
    rw [lookup_foldl_insert _ NewState (NewState.run ops).files.nodupKeys hk q]
    show (match List.dlookup q (NewState.run ops).files.entries with
      | some v => some v
      | none => AList.lookup q NewState.files) = List.dlookup q (NewState.run ops).files.entries
    cases List.dlookup q (NewState.run ops).files.entries with
    | some v => rfl
    | none => simp [NewState]
  refine ⟨_, hload, hlook, ?_⟩
  have hperm : (((NewState.run ops).files.entries.map (fun e => e.2)).foldl
      (fun s wf => ({ files := s.files.insert wf.Path wf } : State)) NewState).files.entries.Perm
      (NewState.run ops).files.entries := by
    apply List.lookup_ext (AList.nodupKeys _) (AList.nodupKeys _)
    intro q v
    have := hlook q
    simp only [AList.lookup] at this
    rw [this]
  exact hperm.length_eq

theorem tableCodec_inverts :
    ∀ l b, tableCodec.marshal l = some b → tableCodec.unmarshal b = some l := by
  intro l b h
  simp only [tableCodec] at h ⊢
  split_ifs at h with h1 h2
  · cases h; subst h1; decide
  · cases h; subst h2; decide

/-- The instance of C11 at the registry with the one entry of the scenario of the
specification. -/
theorem Save_LoadState_roundtrip_witness :
    ∃ s2, (LoadState tableCodec "/app/state.json"
        ((NewState.run [.register "/tmp/secret.env" 3600]).Save tableCodec "/app/state.json"
          Crypto.demoWorld).2).1 = .ok s2 ∧
      (∀ q, s2.Snapshot.lookup q =
        (NewState.run [.register "/tmp/secret.env" 3600]).Snapshot.lookup q) ∧
      s2.Count = (NewState.run [.register "/tmp/secret.env" 3600]).Count :=
  Save_LoadState_roundtrip tableCodec tableCodec_inverts [.register "/tmp/secret.env" 3600]
    "/app/state.json" Crypto.demoWorld (by decide) rfl

/-! ### `config.go` -/

/-- C12. Settings load: `loadDefaultTTL` returns one hour and no error when the settings file is
absent or its `default_ttl` is absent or empty; it returns exactly the parsed duration when
`default_ttl` parses to a strictly positive duration; it returns an error when `default_ttl`
does not parse or parses to zero or less. Every successful result is strictly positive. -/
theorem loadDefaultTTL_spec (L : SettingsLib) (path : String) (w : World) :
    DefaultTTL = 60 * 60 * 1000000000 ∧
    (w.content path = none → (loadDefaultTTL L path w).1 = .ok DefaultTTL) ∧
    (∀ b cfg, w.content path = some b → w.denied (.readFile path) = false →
      L.unmarshal b = some cfg →
      (cfg.DefaultTTL = "" → (loadDefaultTTL L path w).1 = .ok DefaultTTL) ∧
      (cfg.DefaultTTL ≠ "" → ∀ ttl, L.parseDuration cfg.DefaultTTL = some ttl →
        (0 < ttl → (loadDefaultTTL L path w).1 = .ok ttl) ∧
        (ttl ≤ 0 → (loadDefaultTTL L path w).1 = .error (.ttlNotPositive cfg.DefaultTTL))) ∧
      (cfg.DefaultTTL ≠ "" → L.parseDuration cfg.DefaultTTL = none →
        (loadDefaultTTL L path w).1 = .error (.invalidTTL cfg.DefaultTTL))) ∧
    (∀ ttl, (loadDefaultTTL L path w).1 = .ok ttl → 0 < ttl) := by
  have hpos : (0 : Int) < DefaultTTL := by decide
  refine ⟨by decide, ?_, ?_, ?_⟩
  · intro h
    simp [loadDefaultTTL, ReadFile, h]
  · intro b cfg h hr hu
    refine ⟨?_, ?_, ?_⟩
    · intro he
      simp [loadDefaultTTL, ReadFile, h, hr, hu, he]
    · intro hne ttl hp
      refine ⟨?_, ?_⟩
      · intro hpos
        have : ¬ ttl ≤ 0 := not_le.2 hpos
        simp [loadDefaultTTL, ReadFile, h, hr, hu, hne, hp, this]
      · intro hle
        simp [loadDefaultTTL, ReadFile, h, hr, hu, hne, hp, hle]
    · intro hne hp
      simp [loadDefaultTTL, ReadFile, h, hr, hu, hne, hp]
  · intro ttl
    cases hc : w.content path with
    | none =>
      intro h
      simp [loadDefaultTTL, ReadFile, hc] at h
      rw [← h]; exact hpos
    | some b =>
      by_cases hr : w.denied (.readFile path) = true
      · intro h
        simp [loadDefaultTTL, ReadFile, hc, hr] at h
      · cases hu : L.unmarshal b with
        | none =>
          intro h
          simp [loadDefaultTTL, ReadFile, hc, hr, hu] at h
        | some cfg =>
          by_cases he : cfg.DefaultTTL = ""
          · intro h
            simp [loadDefaultTTL, ReadFile, hc, hr, hu, he] at h
            rw [← h]; exact hpos
          · cases hp : L.parseDuration cfg.DefaultTTL with
            | none =>
              intro h
              simp [loadDefaultTTL, ReadFile, hc, hr, hu, he, hp] at h
            | some t =>
              by_cases hle : t ≤ 0
              · intro h
                simp [loadDefaultTTL, ReadFile, hc, hr, hu, he, hp, hle] at h
              · intro h
                simp [loadDefaultTTL, ReadFile, hc, hr, hu, he, hp, hle] at h
                rw [← h]; exact not_le.1 hle

/-- An instance of C12: no settings file, a settings file with `10m`, one with `-5m`. -/
theorem loadDefaultTTL_spec_witness :
    (loadDefaultTTL demoSettings "/app/config.json" Crypto.demoWorld).1 = .ok DefaultTTL ∧
    (loadDefaultTTL demoSettings "/app/config.json"
      (Crypto.demoWorld.put "/app/config.json" (some [2]))).1 = .ok (600 * 1000000000) ∧
    (loadDefaultTTL demoSettings "/app/config.json"
      (Crypto.demoWorld.put "/app/config.json" (some [3]))).1
      = .error (.ttlNotPositive "-5m") :=
  ⟨(loadDefaultTTL_spec demoSettings "/app/config.json" Crypto.demoWorld).2.1 (by decide),
    (((loadDefaultTTL_spec demoSettings "/app/config.json"
      (Crypto.demoWorld.put "/app/config.json" (some [2]))).2.2.1 [2] { DefaultTTL := "10m" }
      (by decide) rfl (by decide)).2.1 (by decide) (600 * 1000000000) (by decide)).1
      (by decide),
    (((loadDefaultTTL_spec demoSettings "/app/config.json"
      (Crypto.demoWorld.put "/app/config.json" (some [3]))).2.2.1 [3] { DefaultTTL := "-5m" }
      (by decide) rfl (by decide)).2.1 (by decide) (-300 * 1000000000) (by decide)).2
      (by decide)⟩

/-- C13. `EnsureDirs` and the settings file, when the directory can be made and the settings
path is not empty. If no settings file exists and creating, writing and syncing it do not
fail, `EnsureDirs` succeeds and the file then holds the encoding of
`{default_ttl: DefaultTTL.String()}` followed by a newline, which a decoder that inverts the
encoder reads back as that string. If a settings file exists, `EnsureDirs` succeeds and
every file, the settings file included, has the content it had. -/
theorem EnsureDirs_settings_file (L : SettingsLib) (cfg : Config) (w : World)
    (hmk : w.denied (.mkdirAll cfg.AppDir) = false) (hp : cfg.SettingsPath ≠ "") :
    (w.content cfg.SettingsPath = none →
      w.denied (.openExcl cfg.SettingsPath) = false →
      ∀ b, L.marshal (defaultFileConfig L) = some b →
      w.denied (.write cfg.SettingsPath (b ++ [10])) = false →
      w.denied (.sync cfg.SettingsPath) = false →
      (EnsureDirs L cfg w).1 = none ∧
      (EnsureDirs L cfg w).2.content cfg.SettingsPath = some (b ++ [10]) ∧
      ((∀ c e, L.marshal c = some e → L.unmarshal (e ++ [10]) = some c) →
        L.unmarshal (b ++ [10]) = some { DefaultTTL := L.durationString DefaultTTL })) ∧
    (∀ data, w.content cfg.SettingsPath = some data →
      (EnsureDirs L cfg w).1 = none ∧ (EnsureDirs L cfg w).2.content = w.content ∧
      (EnsureDirs L cfg w).2.content cfg.SettingsPath = some data) := by
  refine ⟨?_, ?_⟩
  · intro hc ho b hb hw hs
    refine ⟨?_, ?_, ?_⟩
    · simp [EnsureDirs, hmk, ensureDefaultConfigFile, hp, hc, ho, hb, hw, hs, World.emit,
        World.put]
    · simp [EnsureDirs, hmk, ensureDefaultConfigFile, hp, hc, ho, hb, hw, hs, World.emit,
        World.put]
    · intro hlaw
      exact hlaw _ _ hb
  · intro data hc
    refine ⟨?_, ?_, ?_⟩
    · simp [EnsureDirs, hmk, ensureDefaultConfigFile, hp, hc, World.emit]
    · simp [EnsureDirs, hmk, ensureDefaultConfigFile, hp, hc, World.emit]
    · simp [EnsureDirs, hmk, ensureDefaultConfigFile, hp, hc, World.emit]

/-- An instance of C13: a first start, and a start with the settings file of the test suite. -/
theorem EnsureDirs_settings_file_witness :
    (EnsureDirs demoSettings
      { AppDir := "/app", StatePath := "/app/state.json", SockPath := "/sock",
        SettingsPath := "/app/config.json", DefaultTTL := DefaultTTL }
      Crypto.demoWorld).2.content "/app/config.json" = some ([1] ++ [10]) ∧
    (EnsureDirs demoSettings
      { AppDir := "/app", StatePath := "/app/state.json", SockPath := "/sock",
        SettingsPath := "/app/config.json", DefaultTTL := DefaultTTL }
      (Crypto.demoWorld.put "/app/config.json" (some [2]))).2.content "/app/config.json"
      = some [2] :=
  ⟨((EnsureDirs_settings_file demoSettings
      { AppDir := "/app", StatePath := "/app/state.json", SockPath := "/sock",
        SettingsPath := "/app/config.json", DefaultTTL := DefaultTTL }
      Crypto.demoWorld rfl (by decide)).1 (by decide) rfl [1] (by decide) rfl rfl).2.1,
    ((EnsureDirs_settings_file demoSettings
      { AppDir := "/app", StatePath := "/app/state.json", SockPath := "/sock",
        SettingsPath := "/app/config.json", DefaultTTL := DefaultTTL }
      (Crypto.demoWorld.put "/app/config.json" (some [2])) rfl (by decide)).2 [2]
      (by decide)).2.2⟩

/-! ### `files.go` -/

theorem awayFrom_refl (p : String) (w : World) : World.awayFrom p w w :=
  ⟨rfl, rfl, [], by simp, by simp⟩

theorem awayFrom_trans (p : String) {w1 w2 w3 : World} (h12 : World.awayFrom p w1 w2)
    (h23 : World.awayFrom p w2 w3) : World.awayFrom p w1 w3 := by
  obtain ⟨d1, c1, e1, t1, n1⟩ := h12
  obtain ⟨d2, c2, e2, t2, n2⟩ := h23
  refine ⟨d2.trans d1, c2.trans c1, e1 ++ e2, by rw [t2, t1, List.append_assoc], ?_⟩
  intro e he
  rcases List.mem_append.1 he with h | h
  · exact n1 e h
  · exact n2 e h

theorem awayFrom_emit (p : String) (w : World) (e : Event) (h : Event.touches p e = false) :
    World.awayFrom p w (w.emit e) :=
  ⟨rfl, rfl, [e], rfl, by simpa using h⟩

theorem awayFrom_put (p q : String) (w : World) (data : Option Bytes) (h : p ≠ q) :
    World.awayFrom p w (w.put q data) :=
  ⟨rfl, by simp [World.put, Function.update_noteq h], [], by simp [World.put], by simp⟩

theorem overwriteLoop_succ (path : String) (fuel off remaining : Nat) (w : World) :
    overwriteLoop path (fuel + 1) off remaining w =
      if 0 < remaining then
        if w.denied (.write path (zeros (if remaining < 4096 then remaining else 4096))) then
          w.emit (.write path (zeros (if remaining < 4096 then remaining else 4096)))
        else
          overwriteLoop path fuel (off + (if remaining < 4096 then remaining else 4096))
            (remaining - (if remaining < 4096 then remaining else 4096))
            ((w.emit (.write path (zeros (if remaining < 4096 then remaining else 4096)))).put
              path ((w.content path).map (fun old => writeAt old off
                (zeros (if remaining < 4096 then remaining else 4096)))))
      else w := rfl

/-- What the overwriting loop does: it only writes to its file, which stays in existence. -/
theorem overwriteLoop_facts (path : String) :
    ∀ (fuel off remaining : Nat) (w : World),
      (overwriteLoop path fuel off remaining w).denied = w.denied ∧
      ((overwriteLoop path fuel off remaining w).content path = none ↔
        w.content path = none) ∧
      (∀ q, q ≠ path → (overwriteLoop path fuel off remaining w).content q = w.content q) ∧
      ∃ evs, (overwriteLoop path fuel off remaining w).trace = w.trace ++ evs ∧
        ∀ e ∈ evs, ∃ d, e = Event.write path d := by
  intro fuel
  induction fuel with
  | zero =>
    intro off remaining w
    exact ⟨rfl, Iff.rfl, fun _ _ => rfl, [], by simp [overwriteLoop], by simp⟩
  | succ fuel ih =>
    intro off remaining w
    rw [overwriteLoop_succ]
    by_cases hr : 0 < remaining
    · rw [if_pos hr]
      by_cases hd : w.denied (.write path (zeros (if remaining < 4096 then remaining else 4096)))
          = true
      · rw [if_pos hd]
        exact ⟨rfl, Iff.rfl, fun _ _ => rfl,
          [Event.write path (zeros (if remaining < 4096 then remaining else 4096))], rfl,
          by simp⟩
      · rw [if_neg hd]
        obtain ⟨i1, i2, i3, evs, i4, i5⟩ := ih
          (off + (if remaining < 4096 then remaining else 4096))
          (remaining - (if remaining < 4096 then remaining else 4096))
          ((w.emit (.write path (zeros (if remaining < 4096 then remaining else 4096)))).put
            path ((w.content path).map (fun old => writeAt old off
              (zeros (if remaining < 4096 then remaining else 4096)))))
        refine ⟨i1, ?_, ?_, ?_⟩
        · rw [i2]
          simp [World.put, World.emit]
        · intro q hq
          rw [i3 q hq]
          simp [World.put, World.emit, Function.update_noteq hq]
        · refine ⟨Event.write path (zeros (if remaining < 4096 then remaining else 4096)) :: evs,
            ?_, ?_⟩
          · rw [i4]
            simp [World.put, World.emit]
          · intro e he
            rcases List.mem_cons.1 he with h | h
            · exact ⟨_, h⟩
            · exact i5 e h
    · rw [if_neg hr]
      exact ⟨rfl, Iff.rfl, fun _ _ => rfl, [], by simp, by simp⟩

theorem overwriteFile_full (path : String) (w : World) (data : Bytes)
    (hc : w.content path = some data) (ho : w.denied (.openWrite path) = false)
    (hs : w.denied (.fstat path) = false) :
    overwriteFile path w =
      ((overwriteLoop path data.length 0 data.length
        ((w.emit (.openWrite path)).emit (.fstat path))).emit (.sync path)).emit
        (.close path) := by
  simp [overwriteFile, hc, ho, hs, Crypto.emit_denied]

/-- What the first half of `SecureDelete` does: it opens, stats, writes, syncs and closes its
file and nothing else; the file stays in existence and no other file changes. -/
theorem overwriteFile_facts (path : String) (w : World) :
    (overwriteFile path w).denied = w.denied ∧
    ((overwriteFile path w).content path = none ↔ w.content path = none) ∧
    (∀ q, q ≠ path → (overwriteFile path w).content q = w.content q) ∧
    ∃ evs, (overwriteFile path w).trace = w.trace ++ evs ∧
      ∀ e ∈ evs, e = Event.openWrite path ∨ e = Event.fstat path ∨
        (∃ d, e = Event.write path d) ∨ e = Event.sync path ∨ e = Event.close path := by
  cases hc : w.content path with
  | none =>
    have h : overwriteFile path w = w.emit (.openWrite path) := by simp [overwriteFile, hc]
    rw [h]
    exact ⟨rfl, by simp [World.emit, hc], fun _ _ => rfl, [.openWrite path], rfl, by simp⟩
  | some data =>
    cases ho : w.denied (.openWrite path) with
    | true =>
      have h : overwriteFile path w = w.emit (.openWrite path) := by
        simp [overwriteFile, hc, ho]
      rw [h]
      exact ⟨rfl, by simp [World.emit, hc], fun _ _ => rfl, [.openWrite path], rfl, by simp⟩
    | false =>
      cases hs : w.denied (.fstat path) with
      | true =>
        have h : overwriteFile path w =
            ((w.emit (.openWrite path)).emit (.fstat path)).emit (.close path) := by
          simp [overwriteFile, hc, ho, hs, Crypto.emit_denied]
        rw [h]
        exact ⟨rfl, by simp [World.emit, hc], fun _ _ => rfl,
          [.openWrite path, .fstat path, .close path], by simp [World.emit], by simp⟩
      | false =>
        rw [overwriteFile_full path w data hc ho hs]
        obtain ⟨i1, i2, i3, evs, i4, i5⟩ := overwriteLoop_facts path data.length 0 data.length
          ((w.emit (.openWrite path)).emit (.fstat path))
        refine ⟨i1, ?_, ?_, ?_⟩
        · simp only [Crypto.emit_content]
          rw [i2]
          simp [World.emit, hc]
        · intro q hq
          simp only [Crypto.emit_content]
          exact i3 q hq
        · refine ⟨.openWrite path :: .fstat path :: (evs ++ [.sync path, .close path]), ?_, ?_⟩
          · simp only [Crypto.emit_trace, i4]
            simp
          · intro e he
            simp only [List.mem_cons, List.mem_append, List.mem_singleton, List.not_mem_nil,
              or_false] at he
            have hwrite := i5 e
            tauto

/-- `SecureDelete` in terms of the world its first half leaves. -/
theorem SecureDelete_eq (path : String) (w : World) :
    SecureDelete path w =
      match (overwriteFile path w).content path with
      | none => (false, (overwriteFile path w).emit (.remove path))
      | some _ =>
        if (overwriteFile path w).denied (.remove path) then
          (true, (overwriteFile path w).emit (.remove path))
        else (false, ((overwriteFile path w).emit (.remove path)).put path none) := by
  unfold SecureDelete Remove
  cases (overwriteFile path w).content path with
  | none => rfl
  | some d =>
    cases (overwriteFile path w).denied (.remove path) <;> rfl

/-- C18. Secure delete always unlinks. Whatever fails on the way (open, stat, any write, sync,
close), the last call of `SecureDelete` is the removal of the file, and it is the only
removal. The result depends on the removal alone: there is no error exactly when the file
did not exist or its removal was not refused; without an error the file is gone afterwards,
with an error it is still there. -/
theorem SecureDelete_always_unlinks (path : String) (w : World) :
    (∃ pre, (SecureDelete path w).2.trace = w.trace ++ pre ++ [Event.remove path] ∧
      Event.remove path ∉ pre) ∧
    ((SecureDelete path w).1 = false ↔
      (w.content path = none ∨ w.denied (.remove path) = false)) ∧
    ((SecureDelete path w).1 = false → (SecureDelete path w).2.content path = none) ∧
    ((SecureDelete path w).1 = true → (SecureDelete path w).2.content path ≠ none) := by
  obtain ⟨f1, f2, -, evs, f4, f5⟩ := overwriteFile_facts path w
  have hno : Event.remove path ∉ evs := by
    intro h
    rcases f5 _ h with h | h | ⟨d, h⟩ | h | h <;> cases h
  rw [SecureDelete_eq]
  cases hc : (overwriteFile path w).content path with
  | none =>
    have hw : w.content path = none := f2.1 hc
    refine ⟨⟨evs, by simp [World.emit, f4], hno⟩, by simp [hw], ?_, by simp⟩
    intro _
    simpa [World.emit] using hc
  | some d =>
    have hw : w.content path ≠ none := fun h => by rw [f2.2 h] at hc; cases hc
    rw [f1]
    cases hd : w.denied (.remove path) with
    | true =>
      refine ⟨⟨evs, by simp [World.emit, f4], hno⟩, by simp [hw], by simp, ?_⟩
      intro _
      simp [World.emit, hc]
    | false =>
      refine ⟨⟨evs, by simp [World.emit, World.put, f4], hno⟩, by simp, ?_, by simp⟩
      intro _
      simp [World.put]

/-- An instance of C18 where the overwrite is refused and the removal is not. -/
theorem SecureDelete_always_unlinks_witness :
    (SecureDelete "secret.env"
      { Crypto.demoWorld with denied := fun e => e == .openWrite "secret.env" }).1 = false ∧
    (SecureDelete "secret.env"
      { Crypto.demoWorld with
        denied := fun e => e == .openWrite "secret.env" }).2.content "secret.env" = none :=
  have h := SecureDelete_always_unlinks "secret.env"
    { Crypto.demoWorld with denied := fun e => e == .openWrite "secret.env" }
  ⟨h.2.1.2 (Or.inr (by decide)), h.2.2.1 (h.2.1.2 (Or.inr (by decide)))⟩

/-- `SecureDelete` of another path leaves the path `p` alone. -/
theorem SecureDelete_awayFrom (p path : String) (w : World) (h : p ≠ path) :
    World.awayFrom p w (SecureDelete path w).2 := by
  obtain ⟨f1, -, f3, evs, f4, f5⟩ := overwriteFile_facts path w
  have hne : (path == p) = false := by simpa using fun h2 => h h2.symm
  have hev : ∀ e ∈ evs, Event.touches p e = false := by
    intro e he
    rcases f5 e he with h | h | ⟨d, h⟩ | h | h <;> subst h <;> simpa [Event.touches] using hne
  have h1 : World.awayFrom p w (overwriteFile path w) := ⟨f1, f3 p h, evs, f4, hev⟩
  have h2 : World.awayFrom p (overwriteFile path w)
      ((overwriteFile path w).emit (.remove path)) :=
    awayFrom_emit p _ _ (by simpa [Event.touches] using hne)
  rw [SecureDelete_eq]
  cases (overwriteFile path w).content path with
  | none => exact awayFrom_trans p h1 h2
  | some d =>
    cases (overwriteFile path w).denied (.remove path) with
    | true => exact awayFrom_trans p h1 h2
    | false =>
      exact awayFrom_trans p h1 (awayFrom_trans p h2 (awayFrom_put p path _ none h))

/-- What `State.Save` does to the world: it touches the state file and its temporary file
only, with calls of six kinds, and changes no call's fate. -/
theorem Save_facts (C : Codec) (s : State) (path : String) (w : World) :
    (s.Save C path w).2.denied = w.denied ∧
    (∀ q, q ≠ path → q ≠ path ++ ".tmp" → (s.Save C path w).2.content q = w.content q) ∧
    ∃ evs, (s.Save C path w).2.trace = w.trace ++ evs ∧
      ∀ e ∈ evs, e = Event.openFile (path ++ ".tmp") ∨ (∃ b, e = Event.write (path ++ ".tmp") b) ∨
        e = Event.sync (path ++ ".tmp") ∨ e = Event.close (path ++ ".tmp") ∨
        e = Event.rename (path ++ ".tmp") path ∨ e = Event.chmod path := by
  unfold State.Save
  cases hm : C.marshal (s.files.entries.map (fun e => e.2)) with
  | none =>
    simp [hm]
  | some b =>
    simp only [hm]
    refine ⟨?_, ?_, ?_⟩
    · cases h1 : w.denied (.openFile (path ++ ".tmp")) <;>
      cases h2 : w.denied (.write (path ++ ".tmp") b) <;>
      cases h3 : w.denied (.sync (path ++ ".tmp")) <;>
      cases h4 : w.denied (.close (path ++ ".tmp")) <;>
      cases h5 : w.denied (.rename (path ++ ".tmp") path) <;>
      cases h6 : w.denied (.chmod path) <;>
      simp [World.emit, World.put, h1, h2, h3, h4, h5, h6]
    · intro q hq1 hq2
      cases h1 : w.denied (.openFile (path ++ ".tmp")) <;>
      cases h2 : w.denied (.write (path ++ ".tmp") b) <;>
      cases h3 : w.denied (.sync (path ++ ".tmp")) <;>
      cases h4 : w.denied (.close (path ++ ".tmp")) <;>
      cases h5 : w.denied (.rename (path ++ ".tmp") path) <;>
      cases h6 : w.denied (.chmod path) <;>
      simp [World.emit, World.put, h1, h2, h3, h4, h5, h6, Function.update_noteq hq1,
        Function.update_noteq hq2]
    · cases h1 : w.denied (.openFile (path ++ ".tmp")) <;>
      cases h2 : w.denied (.write (path ++ ".tmp") b) <;>
      cases h3 : w.denied (.sync (path ++ ".tmp")) <;>
      cases h4 : w.denied (.close (path ++ ".tmp")) <;>
      cases h5 : w.denied (.rename (path ++ ".tmp") path) <;>
      cases h6 : w.denied (.chmod path) <;>
      simp [World.emit, World.put, h1, h2, h3, h4, h5, h6]

/-- `SecureDelete` of a file whose removal is not refused: no error, the file is gone, the
fate of calls is unchanged. -/
theorem SecureDelete_removes (path : String) (w : World)
    (hrm : w.denied (.remove path) = false) :
    (SecureDelete path w).1 = false ∧ (SecureDelete path w).2.content path = none ∧
    (SecureDelete path w).2.denied = w.denied := by
  obtain ⟨f1, -, -, -⟩ := overwriteFile_facts path w
  rw [SecureDelete_eq]
  cases hc : (overwriteFile path w).content path with
  | none => exact ⟨rfl, by simpa [World.emit] using hc, f1⟩
  | some d =>
    rw [f1, hrm]
    exact ⟨rfl, by simp [World.put], f1⟩

theorem SecureDelete_denied (path : String) (w : World) :
    (SecureDelete path w).2.denied = w.denied := by
  obtain ⟨f1, -, -, -⟩ := overwriteFile_facts path w
  rw [SecureDelete_eq]
  cases (overwriteFile path w).content path with
  | none => exact f1
  | some d =>
    cases (overwriteFile path w).denied (.remove path) <;> exact f1

/-- The events of `SecureDelete` are calls on its own path, none of them a notification. -/
theorem SecureDelete_trace (path : String) (w : World) :
    ∃ evs, (SecureDelete path w).2.trace = w.trace ++ evs ∧
      ∀ e ∈ evs, e = Event.openWrite path ∨ e = Event.fstat path ∨
        (∃ d, e = Event.write path d) ∨ e = Event.sync path ∨ e = Event.close path ∨
        e = Event.remove path := by
  obtain ⟨-, -, -, evs, f4, f5⟩ := overwriteFile_facts path w
  have key : ∀ e ∈ evs ++ [Event.remove path], e = Event.openWrite path ∨ e = Event.fstat path ∨
        (∃ d, e = Event.write path d) ∨ e = Event.sync path ∨ e = Event.close path ∨
        e = Event.remove path := by
    intro e he
    rcases List.mem_append.1 he with h | h
    · have hkind := f5 e h
      tauto
    · simp only [List.mem_singleton] at h
      tauto
  refine ⟨evs ++ [Event.remove path], ?_, key⟩
  rw [SecureDelete_eq]
  cases (overwriteFile path w).content path with
  | none => simp [World.emit, f4]
  | some d =>
    cases (overwriteFile path w).denied (.remove path) <;> simp [World.emit, World.put, f4]

theorem Stat_world (path : String) (w : World) : (Stat path w).2 = w.emit (.stat path) := by
  unfold Stat
  cases w.content path with
  | none => rfl
  | some d => cases w.denied (.stat path) <;> rfl

theorem Stat_result (path : String) (w : World) :
    (Stat path w).1 =
      match w.content path with
      | none => some .notExist
      | some _ => if w.denied (.stat path) then some .other else none := by
  unfold Stat
  cases w.content path with
  | none => rfl
  | some d => cases w.denied (.stat path) <;> rfl

/-! ### The overwrite loop of `SecureDelete` -/

theorem zeros_length (n : Nat) : (zeros n).length = n := by simp [zeros]

theorem zeros_append (m n : Nat) : zeros m ++ zeros n = zeros (m + n) := by
  unfold zeros
  exact (List.replicate_add m n 0).symm

/-- One write of the loop at the end of the zeroed part of a file: the length is kept and the
zeroed part grows by the chunk. -/
theorem writeAt_zeros (old : Bytes) (off chunk remaining : Nat)
    (hlen : old.length = off + remaining) (hz : old.take off = zeros off)
    (hchunk : chunk ≤ remaining) :
    (writeAt old off (zeros chunk)).length = off + chunk + (remaining - chunk) ∧
    (writeAt old off (zeros chunk)).take (off + chunk) = zeros (off + chunk) := by
  have hl1 : (old.take off ++ zeros chunk).length = off + chunk := by
    simp [zeros_length, hlen]
  unfold writeAt
  refine ⟨?_, ?_⟩
  · simp only [List.length_append, List.length_take, List.length_drop, zeros_length, hlen]
    omega
  · rw [List.take_left' hl1, hz, zeros_append]

/-- The loop of `SecureDelete` when no write is refused, started with `remaining` bytes to
go at offset `off` of a file of `off + remaining` bytes whose first `off` bytes are zero: the
writes are those of a list of chunk sizes, `⌈remaining / 4096⌉` in number, each between 1 and
4096, adding up to `remaining`; afterwards the file is all zeros and as long as before. The
bound on the rounds is not reached. -/
theorem overwriteLoop_chunks (path : String) :
    ∀ (fuel off remaining : Nat) (w : World) (old : Bytes),
      remaining ≤ fuel → (∀ k, w.denied (.write path (zeros k)) = false) →
      w.content path = some old → old.length = off + remaining → old.take off = zeros off →
      ∃ ks : List Nat,
        (overwriteLoop path fuel off remaining w).trace =
          w.trace ++ ks.map (fun k => Event.write path (zeros k)) ∧
        ks.length = (remaining + 4095) / 4096 ∧
        (∀ k ∈ ks, 1 ≤ k ∧ k ≤ 4096) ∧
        ks.sum = remaining ∧
        (overwriteLoop path fuel off remaining w).content path = some (zeros (off + remaining)) ∧
        (overwriteLoop path fuel off remaining w).denied = w.denied := by
  intro fuel
  induction fuel with
  | zero =>
    intro off remaining w old hf _ hc hlen hz
    have hr : remaining = 0 := by omega
    subst hr
    have hold : old = zeros off := by
      rw [← hz, List.take_of_length_le (by omega)]
    refine ⟨[], by simp [overwriteLoop], by simp, by simp, by simp, ?_, rfl⟩
    simp [overwriteLoop, hc, hold]
  | succ fuel ih =>
    intro off remaining w old hf hw hc hlen hz
    rw [overwriteLoop_succ]
    by_cases hr : 0 < remaining
    · rw [if_pos hr, hw, if_neg (by simp)]
      have hchunk : (if remaining < 4096 then remaining else 4096) ≤ remaining := by
        split <;> omega
      have hpos : 1 ≤ (if remaining < 4096 then remaining else 4096) := by
        split <;> omega
      have hmax : (if remaining < 4096 then remaining else 4096) ≤ 4096 := by
        split <;> omega
      obtain ⟨g1, g2⟩ := writeAt_zeros old off (if remaining < 4096 then remaining else 4096)
        remaining hlen hz hchunk
      obtain ⟨ks, i1, i2, i3, i4, i5, i6⟩ := ih
        (off + (if remaining < 4096 then remaining else 4096))
        (remaining - (if remaining < 4096 then remaining else 4096))
        ((w.emit (.write path (zeros (if remaining < 4096 then remaining else 4096)))).put
          path ((w.content path).map (fun old => writeAt old off
            (zeros (if remaining < 4096 then remaining else 4096)))))
        (writeAt old off (zeros (if remaining < 4096 then remaining else 4096)))
        (by omega) hw (by simp [World.put, hc]) g1 g2
      refine ⟨(if remaining < 4096 then remaining else 4096) :: ks, ?_, ?_, ?_, ?_, ?_, ?_⟩
      · rw [i1]
        simp [World.put, World.emit]
      · rw [List.length_cons, i2]
        split <;> omega
      · intro k hk
        rcases List.mem_cons.1 hk with h | h
        · rw [h]
          exact ⟨hpos, hmax⟩
        · exact i3 k h
      · rw [List.sum_cons, i4]
        omega
      · rw [i5]
        congr 2
        omega
      · rw [i6]
        rfl
    · rw [if_neg hr]
      have hr0 : remaining = 0 := by omega
      subst hr0
      have hold : old = zeros off := by
        rw [← hz, List.take_of_length_le (by omega)]
      exact ⟨[], by simp, by simp, by simp, by simp, by simp [hc, hold], rfl⟩

/-- C23. Overwrite length. For a file of `n` bytes (`n = 0` included) that `SecureDelete`
can open and stat, when no write is refused: the calls of `SecureDelete` are the open, the
stat, the writes of a list of chunks, the sync, the close and the removal; the chunks are
`⌈n / 4096⌉` in number, each carries between 1 and 4096 zero bytes, and together they carry
exactly `n` bytes; before the removal the file consists of `n` zero bytes. -/
theorem SecureDelete_overwrite_length (path : String) (w : World) (data : Bytes)
    (hc : w.content path = some data) (ho : w.denied (.openWrite path) = false)
    (hs : w.denied (.fstat path) = false)
    (hw : ∀ k, w.denied (.write path (zeros k)) = false) :
    ∃ ks : List Nat,
      (SecureDelete path w).2.trace =
        w.trace ++ [Event.openWrite path, Event.fstat path] ++
          ks.map (fun k => Event.write path (zeros k)) ++
          [Event.sync path, Event.close path, Event.remove path] ∧
      ks.length = (data.length + 4095) / 4096 ∧
      (∀ k ∈ ks, 1 ≤ k ∧ k ≤ 4096) ∧
      ks.sum = data.length ∧
      (overwriteFile path w).content path = some (zeros data.length) := by
  obtain ⟨ks, i1, i2, i3, i4, i5, -⟩ := overwriteLoop_chunks path data.length 0 data.length
    ((w.emit (.openWrite path)).emit (.fstat path)) data (Nat.le_refl _) hw hc (by simp)
    (by simp [zeros])
  have hfull := overwriteFile_full path w data hc ho hs
  have hcont : (overwriteFile path w).content path = some (zeros data.length) := by
    rw [hfull]
    simpa [Crypto.emit_content] using i5
  have htr : (overwriteFile path w).trace =
      w.trace ++ [Event.openWrite path, Event.fstat path] ++
        ks.map (fun k => Event.write path (zeros k)) ++ [Event.sync path, Event.close path] := by
    rw [hfull]
    simp only [Crypto.emit_trace, i1]
    simp
  refine ⟨ks, ?_, i2, i3, i4, hcont⟩
  rw [SecureDelete_eq, hcont]
  simp only
  cases (overwriteFile path w).denied (.remove path) <;>
    simp [World.emit, World.put, htr]

/-- An instance of C23: a file of three bytes is overwritten by one write of three zero
bytes. -/
theorem SecureDelete_overwrite_length_witness :
    ∃ ks : List Nat,
      (SecureDelete "secret.env" Crypto.demoWorld).2.trace =
        Crypto.demoWorld.trace ++ [Event.openWrite "secret.env", Event.fstat "secret.env"] ++
          ks.map (fun k => Event.write "secret.env" (zeros k)) ++
          [Event.sync "secret.env", Event.close "secret.env", Event.remove "secret.env"] ∧
      ks.length = (3 + 4095) / 4096 ∧
      (∀ k ∈ ks, 1 ≤ k ∧ k ≤ 4096) ∧
      ks.sum = 3 ∧
      (overwriteFile "secret.env" Crypto.demoWorld).content "secret.env" = some (zeros 3) :=
  SecureDelete_overwrite_length "secret.env" Crypto.demoWorld [1, 2, 3] (by decide) (by decide)
    (by decide) (fun _ => rfl)

end Core

/-! ## `cmd/app` -/

namespace App

open Core Ipc

/-! ### `rpc_server.go` -/

theorem save_error_text_ne_empty (err : SaveError) :
    "failed to save state: " ++ err.message ≠ "" := by
  cases err <;> decide

/-- A `Save` without error leaves the registry on disk. -/
theorem Save_savedAt (C : Codec) (s : State) (path : String) (w : World)
    (h : (s.Save C path w).1 = none) : s.savedAt C path (s.Save C path w).2 := by
  obtain ⟨b, h1, h2, -⟩ := Save_ok C s path w h
  exact ⟨b, h1, h2⟩

/-- C19. IPC durability. For `Manager.Register`, `Manager.Extend` and `Manager.StopWatching`:
when the response has `Success = true`, the `State.Save` of the registry after the mutation
returned no error, the manager holds that registry, and in the world the handler leaves the
state file holds its encoding: the registry was persisted before the reply. When that `Save`
returns an error (for a request with a path, and for `Extend` a registered one) the response
has `Success = false` and a non-empty `Error`, while the manager keeps the registry after the
mutation; the world is the one the failed `Save` left. -/
theorem Manager_durability (C : Codec) (m : Manager) (req : Request) (w : World) :
    (((Manager.Register C m req w).1.Success = true →
        ((m.state.Register req.Path
          (w.now + if req.TTL ≤ 0 then m.cfg.DefaultTTL else req.TTL)).Save C
          m.cfg.StatePath w).1 = none ∧
        (Manager.Register C m req w).2.1.state = m.state.Register req.Path
          (w.now + if req.TTL ≤ 0 then m.cfg.DefaultTTL else req.TTL) ∧
        (Manager.Register C m req w).2.1.state.savedAt C m.cfg.StatePath
          (Manager.Register C m req w).2.2) ∧
      (req.Path ≠ "" → ∀ err,
        ((m.state.Register req.Path
          (w.now + if req.TTL ≤ 0 then m.cfg.DefaultTTL else req.TTL)).Save C
          m.cfg.StatePath w).1 = some err →
        (Manager.Register C m req w).1.Success = false ∧
        (Manager.Register C m req w).1.Error ≠ "" ∧
        (Manager.Register C m req w).2.1.state = m.state.Register req.Path
          (w.now + if req.TTL ≤ 0 then m.cfg.DefaultTTL else req.TTL) ∧
        (Manager.Register C m req w).2.2 = ((m.state.Register req.Path
          (w.now + if req.TTL ≤ 0 then m.cfg.DefaultTTL else req.TTL)).Save C
          m.cfg.StatePath w).2)) ∧
    (((Manager.Extend C m req w).1.Success = true →
        ((m.state.Extend req.Path
          (if req.TTL ≤ 0 then m.cfg.DefaultTTL else req.TTL)).2.Save C
          m.cfg.StatePath w).1 = none ∧
        (Manager.Extend C m req w).2.1.state =
          (m.state.Extend req.Path (if req.TTL ≤ 0 then m.cfg.DefaultTTL else req.TTL)).2 ∧
        (Manager.Extend C m req w).2.1.state.savedAt C m.cfg.StatePath
          (Manager.Extend C m req w).2.2) ∧
      (req.Path ≠ "" →
        (m.state.Extend req.Path (if req.TTL ≤ 0 then m.cfg.DefaultTTL else req.TTL)).1
          = true →
        ∀ err,
        ((m.state.Extend req.Path
          (if req.TTL ≤ 0 then m.cfg.DefaultTTL else req.TTL)).2.Save C
          m.cfg.StatePath w).1 = some err →
        (Manager.Extend C m req w).1.Success = false ∧
        (Manager.Extend C m req w).1.Error ≠ "" ∧
        (Manager.Extend C m req w).2.1.state =
          (m.state.Extend req.Path (if req.TTL ≤ 0 then m.cfg.DefaultTTL else req.TTL)).2 ∧
        (Manager.Extend C m req w).2.2 = ((m.state.Extend req.Path
          (if req.TTL ≤ 0 then m.cfg.DefaultTTL else req.TTL)).2.Save C
          m.cfg.StatePath w).2)) ∧
    (((Manager.StopWatching C m req w).1.Success = true →
        ((m.state.StopWatching req.Path).Save C m.cfg.StatePath w).1 = none ∧
        (Manager.StopWatching C m req w).2.1.state = m.state.StopWatching req.Path ∧
        (Manager.StopWatching C m req w).2.1.state.savedAt C m.cfg.StatePath
          (Manager.StopWatching C m req w).2.2) ∧
      (req.Path ≠ "" → ∀ err,
        ((m.state.StopWatching req.Path).Save C m.cfg.StatePath w).1 = some err →
        (Manager.StopWatching C m req w).1.Success = false ∧
        (Manager.StopWatching C m req w).1.Error ≠ "" ∧
        (Manager.StopWatching C m req w).2.1.state = m.state.StopWatching req.Path ∧
        (Manager.StopWatching C m req w).2.2 =
          ((m.state.StopWatching req.Path).Save C m.cfg.StatePath w).2)) := by
  refine ⟨⟨?_, ?_⟩, ⟨?_, ?_⟩, ⟨?_, ?_⟩⟩
  · unfold Manager.Register
    by_cases hp : req.Path = ""
    · simp [hp]
    · simp only [hp, if_false]
      have hsave := Save_savedAt C (m.state.Register req.Path
          (w.now + if req.TTL ≤ 0 then m.cfg.DefaultTTL else req.TTL)) m.cfg.StatePath w
      cases hs : ((m.state.Register req.Path
          (w.now + if req.TTL ≤ 0 then m.cfg.DefaultTTL else req.TTL)).Save C
          m.cfg.StatePath w) with
      | mk r w1 =>
        rw [hs] at hsave
        cases r with
        | none =>
          intro _
          refine ⟨rfl, rfl, ?_⟩
          have h2 := hsave rfl
          cases m.notifier
          · simpa using h2
          · simpa [State.savedAt, World.emit] using h2
        | some err => simp
  · intro hp err herr
    unfold Manager.Register
    simp only [hp, if_false]
    cases hs : ((m.state.Register req.Path
        (w.now + if req.TTL ≤ 0 then m.cfg.DefaultTTL else req.TTL)).Save C
        m.cfg.StatePath w) with
    | mk r w1 =>
      rw [hs] at herr
      simp only at herr
      subst herr
      exact ⟨rfl, save_error_text_ne_empty err, rfl, rfl⟩
  · unfold Manager.Extend
    by_cases hp : req.Path = ""
    · simp [hp]
    · simp only [hp, if_false]
      cases he : m.state.Extend req.Path (if req.TTL ≤ 0 then m.cfg.DefaultTTL else req.TTL) with
      | mk ok s1 =>
        cases ok with
        | false => simp
        | true =>
          simp only
          have hsave := Save_savedAt C s1 m.cfg.StatePath w
          cases hs : s1.Save C m.cfg.StatePath w with
          | mk r w1 =>
            rw [hs] at hsave
            cases r with
            | none =>
              intro _
              exact ⟨rfl, rfl, hsave rfl⟩
            | some err => simp
  · intro hp hok err herr
    unfold Manager.Extend
    simp only [hp, if_false]
    cases he : m.state.Extend req.Path (if req.TTL ≤ 0 then m.cfg.DefaultTTL else req.TTL) with
    | mk ok s1 =>
      rw [he] at hok herr
      simp only at hok herr
      subst hok
      simp only
      cases hs : s1.Save C m.cfg.StatePath w with
      | mk r w1 =>
        rw [hs] at herr
        simp only at herr
        subst herr
        exact ⟨rfl, save_error_text_ne_empty err, rfl, rfl⟩
  · unfold Manager.StopWatching
    by_cases hp : req.Path = ""
    · simp [hp]
    · simp only [hp, if_false]
      have hsave := Save_savedAt C (m.state.StopWatching req.Path) m.cfg.StatePath w
      cases hs : ((m.state.StopWatching req.Path).Save C m.cfg.StatePath w) with
      | mk r w1 =>
        rw [hs] at hsave
        cases r with
        | none =>
          intro _
          exact ⟨rfl, rfl, hsave rfl⟩
        | some err => simp
  · intro hp err herr
    unfold Manager.StopWatching
    simp only [hp, if_false]
    cases hs : ((m.state.StopWatching req.Path).Save C m.cfg.StatePath w) with
    | mk r w1 =>
      rw [hs] at herr
      simp only at herr
      subst herr
      exact ⟨rfl, save_error_text_ne_empty err, rfl, rfl⟩

/-- An instance of C19 on both sides: a `Manager.Register` that succeeds, after which the state
file holds the registry, and one that fails because the temporary state file cannot be
opened. -/
theorem Manager_durability_witness :
    State.savedAt tableCodec
      (Manager.Register tableCodec { state := NewState, cfg := demoConfig, notifier := true }
        { Path := "/tmp/secret.env", TTL := 3600 } Crypto.demoWorld).2.1.state
      "/app/state.json"
      (Manager.Register tableCodec { state := NewState, cfg := demoConfig, notifier := true }
        { Path := "/tmp/secret.env", TTL := 3600 } Crypto.demoWorld).2.2 ∧
    (Manager.Register tableCodec { state := NewState, cfg := demoConfig, notifier := true }
      { Path := "/tmp/secret.env", TTL := 3600 }
      { Crypto.demoWorld with
        denied := fun e => e == .openFile "/app/state.json.tmp" }).1.Success = false ∧
    (Manager.Register tableCodec { state := NewState, cfg := demoConfig, notifier := true }
      { Path := "/tmp/secret.env", TTL := 3600 }
      { Crypto.demoWorld with
        denied := fun e => e == .openFile "/app/state.json.tmp" }).2.1.state.files.lookup
        "/tmp/secret.env"
      = some { Path := "/tmp/secret.env", ExpiresAt := 3600, Warned := false } :=
  have hok := ((Manager_durability tableCodec
    { state := NewState, cfg := demoConfig, notifier := true }
    { Path := "/tmp/secret.env", TTL := 3600 } Crypto.demoWorld).1.1 (by decide)).2.2
  have h := (Manager_durability tableCodec
    { state := NewState, cfg := demoConfig, notifier := true }
    { Path := "/tmp/secret.env", TTL := 3600 }
    { Crypto.demoWorld with denied := fun e => e == .openFile "/app/state.json.tmp" }).1.2
    (by decide) .openTemp (by decide)
  ⟨hok, h.1, by rw [h.2.2.1]; decide⟩

/-! ### The scheduler (main_darwin.go) -/

/-- The body of the loop of `checkFiles`, branch by branch. -/
theorem checkFile_eq (now : Time) (p : String) (wf : WatchedFile) (s : State) (c : Bool)
    (w : World) :
    checkFile now p wf (s, c, w) =
      match w.content p with
      | none => (s.StopWatching p, true, w.emit (.stat p))
      | some _ =>
        if w.denied (.stat p) then (s, c, w.emit (.stat p))
        else if wf.ExpiresAt < now then
          if (SecureDelete p (w.emit (.stat p))).1 then
            (s, c, (SecureDelete p (w.emit (.stat p))).2)
          else
            (s.StopWatching p, true,
              (SecureDelete p (w.emit (.stat p))).2.emit (.fileDeleted p))
        else if !wf.Warned && decide (wf.ExpiresAt + -WarningWindow < now) then
          if w.denied (.warn p wf.ExpiresAt) then
            (s, c, (w.emit (.stat p)).emit (.warn p wf.ExpiresAt))
          else if (s.MarkWarned p).1 then
            ((s.MarkWarned p).2, true, (w.emit (.stat p)).emit (.warn p wf.ExpiresAt))
          else (s, c, (w.emit (.stat p)).emit (.warn p wf.ExpiresAt))
        else (s, c, w.emit (.stat p)) := by
  unfold checkFile Stat
  cases hc : w.content p with
  | none => rfl
  | some d =>
    cases hd : w.denied (.stat p) with
    | true => simp
    | false =>
      simp only [Bool.false_eq_true, if_false, Crypto.emit_denied]
      by_cases hexp : wf.ExpiresAt < now
      · simp only [hexp, if_true]
        cases hsd : SecureDelete p (w.emit (.stat p)) with
        | mk r w2 => cases r <;> simp
      · simp only [hexp, if_false]
        by_cases hw : (!wf.Warned && decide (wf.ExpiresAt + -WarningWindow < now)) = true
        · simp only [hw, if_true]
          cases hdw : w.denied (.warn p wf.ExpiresAt) with
          | true => simp
          | false =>
            simp only [Bool.false_eq_true, if_false]
            cases hm : s.MarkWarned p with
            | mk r s1 => cases r <;> simp
        · rw [if_neg hw, if_neg hw]

/-- The body of the loop for another path leaves the entry and the file of `p` alone. -/
theorem checkFile_other (p q : String) (h : p ≠ q) (now : Time) (wf : WatchedFile)
    (acc : State × Bool × World) :
    (checkFile now q wf acc).1.files.lookup p = acc.1.files.lookup p ∧
    World.awayFrom p acc.2.2 (checkFile now q wf acc).2.2 := by
  obtain ⟨s, c, w⟩ := acc
  have hne : (q == p) = false := by simpa using fun h2 => h h2.symm
  have hstat : World.awayFrom p w (w.emit (.stat q)) :=
    awayFrom_emit p w _ (by simpa [Event.touches] using hne)
  have hstop : (s.StopWatching q).files.lookup p = s.files.lookup p := by
    simp [State.StopWatching, AList.lookup_erase_ne h]
  have hmark : (s.MarkWarned q).2.files.lookup p = s.files.lookup p := by
    unfold State.MarkWarned
    cases s.files.lookup q with
    | none => rfl
    | some v => simp [AList.lookup_insert_ne h]
  rw [checkFile_eq]
  cases w.content q with
  | none => exact ⟨hstop, hstat⟩
  | some d =>
    simp only
    cases w.denied (.stat q) with
    | true => exact ⟨rfl, hstat⟩
    | false =>
      simp only [Bool.false_eq_true, if_false]
      by_cases hexp : wf.ExpiresAt < now
      · rw [if_pos hexp]
        have hsd := SecureDelete_awayFrom p q (w.emit (.stat q)) h
        cases (SecureDelete q (w.emit (.stat q))).1 with
        | true => exact ⟨rfl, awayFrom_trans p hstat hsd⟩
        | false =>
          exact ⟨hstop, awayFrom_trans p hstat (awayFrom_trans p hsd
            (awayFrom_emit p _ _ (by simpa [Event.touches] using hne)))⟩
      · rw [if_neg hexp]
        have hwarn : World.awayFrom p w ((w.emit (.stat q)).emit (.warn q wf.ExpiresAt)) :=
          awayFrom_trans p hstat (awayFrom_emit p _ _ (by simpa [Event.touches] using hne))
        by_cases hw : (!wf.Warned && decide (wf.ExpiresAt + -WarningWindow < now)) = true
        · rw [if_pos hw]
          cases w.denied (.warn q wf.ExpiresAt) with
          | true => exact ⟨rfl, hwarn⟩
          | false =>
            simp only [Bool.false_eq_true, if_false]
            cases (s.MarkWarned q).1 with
            | true => exact ⟨hmark, hwarn⟩
            | false => exact ⟨rfl, hwarn⟩
        · rw [if_neg hw]
          exact ⟨rfl, hstat⟩

/-- A run of the loop over entries none of which is filed under `p` leaves the entry and the
file of `p` alone. -/
theorem checkLoop_other (p : String) (now : Time) :
    ∀ (l : List (Sigma fun _ : String => WatchedFile)) (acc : State × Bool × World),
      p ∉ l.keys →
      (checkLoop now l acc).1.files.lookup p = acc.1.files.lookup p ∧
      World.awayFrom p acc.2.2 (checkLoop now l acc).2.2 := by
  intro l
  induction l with
  | nil => intro acc _; exact ⟨rfl, awayFrom_refl p _⟩
  | cons e t ih =>
    intro acc hp
    have hpe : p ≠ e.1 := fun h => hp (by simp [List.keys, h])
    have hpt : p ∉ t.keys := fun h => hp (by simp [List.keys] at h ⊢; exact Or.inr h)
    obtain ⟨s1, a1⟩ := checkFile_other p e.1 hpe now e.2 acc
    obtain ⟨s2, a2⟩ := ih (checkFile now e.1 e.2 acc) hpt
    exact ⟨by simpa [checkLoop] using s2.trans s1,
      by simpa [checkLoop] using awayFrom_trans p a1 a2⟩

theorem checkLoop_append (now : Time) (l1 l2 : List (Sigma fun _ : String => WatchedFile))
    (acc : State × Bool × World) :
    checkLoop now (l1 ++ l2) acc = checkLoop now l2 (checkLoop now l1 acc) := by
  simp [checkLoop, List.foldl_append]

/-- The entries of a map around the entry of a registered path. -/
theorem entries_split (s : State) (p : String) (wf : WatchedFile)
    (hreg : s.files.lookup p = some wf) :
    ∃ l1 l2, s.files.entries = l1 ++ ⟨p, wf⟩ :: l2 ∧ p ∉ l1.keys ∧ p ∉ l2.keys := by
  have hmem : (⟨p, wf⟩ : Sigma fun _ : String => WatchedFile) ∈ s.files.entries :=
    AList.mem_lookup_iff.1 (by simp [hreg])
  obtain ⟨l1, l2, h⟩ := List.append_of_mem hmem
  refine ⟨l1, l2, h, ?_, ?_⟩
  · have hnd : (l1 ++ ⟨p, wf⟩ :: l2).keys.Nodup := h ▸ s.files.nodupKeys
    simp only [List.keys, List.map_append, List.map_cons] at hnd
    have := (List.nodup_middle.1 hnd)
    rw [List.nodup_cons] at this
    intro hp
    exact this.1 (List.mem_append_left _ hp)
  · have hnd : (l1 ++ ⟨p, wf⟩ :: l2).keys.Nodup := h ▸ s.files.nodupKeys
    simp only [List.keys, List.map_append, List.map_cons] at hnd
    have := (List.nodup_middle.1 hnd)
    rw [List.nodup_cons] at this
    intro hp
    exact this.1 (List.mem_append_right _ hp)

theorem touches_of_isWarn (p : String) (e : Event) (h : Event.touches p e = false) :
    Event.isWarn p e = false := by
  cases e <;> simp_all [Event.touches, Event.isWarn]

theorem touches_of_deletesOrNotifies (p : String) (e : Event)
    (h : Event.touches p e = false) : Event.deletesOrNotifies p e = false := by
  cases e <;> simp_all [Event.touches, Event.deletesOrNotifies]

/-- One pass, seen from a registered path `p`: the loop reaches the entry of `p` in a world
that earlier rounds have left alone as far as `p` goes, and what follows the round of `p`
(later rounds, the final `Save`) neither changes the entry of `p` nor warns, deletes or
notifies for `p`; it leaves the file of `p` alone unless `p` is the state file or its
temporary file. -/
theorem checkFiles_decompose (C : Codec) (a : app) (now : Time) (w : World) (p : String)
    (wf : WatchedFile) (hreg : a.state.files.lookup p = some wf) :
    ∃ (acc1 : State × Bool × World) (evs : List Event),
      acc1.1.files.lookup p = some wf ∧ World.awayFrom p w acc1.2.2 ∧
      (a.checkFiles C now w).1.state.files.lookup p =
        (checkFile now p wf acc1).1.files.lookup p ∧
      (a.checkFiles C now w).2.trace = (checkFile now p wf acc1).2.2.trace ++ evs ∧
      (∀ e ∈ evs, Event.isWarn p e = false ∧ Event.deletesOrNotifies p e = false) ∧
      (p ≠ a.cfg.StatePath → p ≠ a.cfg.StatePath ++ ".tmp" →
        (a.checkFiles C now w).2.content p = (checkFile now p wf acc1).2.2.content p) := by
  obtain ⟨l1, l2, hsplit, hp1, hp2⟩ := entries_split a.state p wf hreg
  obtain ⟨s1, a1⟩ := checkLoop_other p now l1 (a.state, false, w) hp1
  obtain ⟨s2, a2⟩ := checkLoop_other p now l2
    (checkFile now p wf (checkLoop now l1 (a.state, false, w))) hp2
  have hloop : checkLoop now a.state.Snapshot.entries (a.state, false, w) =
      checkLoop now l2 (checkFile now p wf (checkLoop now l1 (a.state, false, w))) := by
    show checkLoop now a.state.files.entries (a.state, false, w) = _
    rw [hsplit, checkLoop_append]
    rfl
  obtain ⟨d2, c2, evs2, t2, n2⟩ := a2
  refine ⟨checkLoop now l1 (a.state, false, w), ?_⟩
  unfold app.checkFiles
  simp only [hloop]
  cases hch : (checkLoop now l2
      (checkFile now p wf (checkLoop now l1 (a.state, false, w)))).2.1 with
  | false =>
    refine ⟨evs2, s1.trans hreg, a1, ?_, ?_, ?_, ?_⟩
    · simpa using s2
    · simpa using t2
    · intro e he
      exact ⟨touches_of_isWarn p e (n2 e he), touches_of_deletesOrNotifies p e (n2 e he)⟩
    · intro _ _
      simpa using c2
  | true =>
    obtain ⟨-, f2, evs3, f3, f4⟩ := Save_facts C
      (checkLoop now l2 (checkFile now p wf (checkLoop now l1 (a.state, false, w)))).1
      a.cfg.StatePath
      (checkLoop now l2 (checkFile now p wf (checkLoop now l1 (a.state, false, w)))).2.2
    refine ⟨evs2 ++ evs3, s1.trans hreg, a1, ?_, ?_, ?_, ?_⟩
    · simpa using s2
    · simp only [if_true]
      rw [f3, t2, List.append_assoc]
    · intro e he
      rcases List.mem_append.1 he with h | h
      · exact ⟨touches_of_isWarn p e (n2 e h), touches_of_deletesOrNotifies p e (n2 e h)⟩
      · rcases f4 e h with h | ⟨b, h⟩ | h | h | h | h <;> subst h <;>
          exact ⟨rfl, rfl⟩
    · intro h1 h2
      simp only [if_true]
      rw [f2 p h1 h2, c2]

/-- The round of an expired file that exists, when neither the stat nor the removal is
refused: the file and the entry are gone. -/
theorem checkFile_expired (now : Time) (p : String) (wf : WatchedFile)
    (acc : State × Bool × World) (data : Bytes) (hexp : wf.ExpiresAt < now)
    (hfile : acc.2.2.content p = some data) (hstat : acc.2.2.denied (.stat p) = false)
    (hrm : acc.2.2.denied (.remove p) = false) :
    (checkFile now p wf acc).1.files.lookup p = none ∧
    (checkFile now p wf acc).2.2.content p = none := by
  obtain ⟨s, c, w⟩ := acc
  obtain ⟨r1, r2, -⟩ := SecureDelete_removes p (w.emit (.stat p)) hrm
  rw [checkFile_eq]
  simp only at hfile hstat
  simp only [hfile, hstat, Bool.false_eq_true, if_false, if_pos hexp, r1]
  exact ⟨by simp [State.StopWatching], by simpa [World.emit] using r2⟩

/-- The round of a path whose file is missing: the entry is dropped and the stat is the only
call. -/
theorem checkFile_ghost (now : Time) (p : String) (wf : WatchedFile)
    (acc : State × Bool × World) (hfile : acc.2.2.content p = none) :
    (checkFile now p wf acc).1.files.lookup p = none ∧
    (checkFile now p wf acc).2.2.trace = acc.2.2.trace ++ [Event.stat p] := by
  obtain ⟨s, c, w⟩ := acc
  rw [checkFile_eq]
  simp only at hfile
  simp only [hfile]
  exact ⟨by simp [State.StopWatching], rfl⟩

/-- C14. Scheduler expiry. For a registered path whose deadline has passed (in particular a
deadline of `now` minus one second) and whose file exists, one pass of `checkFiles` at `now`
leaves no file at the path and no entry for it in the registry, provided the stat and the
removal of the file are not refused and the path is neither the state file nor its temporary
file, which the final `Save` writes. -/
theorem checkFiles_expired (C : Codec) (a : app) (now : Time) (w : World) (p : String)
    (wf : WatchedFile) (data : Bytes)
    (hreg : a.state.files.lookup p = some wf) (hexp : wf.ExpiresAt < now)
    (hfile : w.content p = some data)
    (hstat : w.denied (.stat p) = false) (hrm : w.denied (.remove p) = false)
    (hp1 : p ≠ a.cfg.StatePath) (hp2 : p ≠ a.cfg.StatePath ++ ".tmp") :
    (a.checkFiles C now w).2.content p = none ∧
    (a.checkFiles C now w).1.state.files.lookup p = none := by
  obtain ⟨acc1, evs, -, ⟨hd, hc, -⟩, hl, -, -, hcont⟩ :=
    checkFiles_decompose C a now w p wf hreg
  obtain ⟨r1, r2⟩ := checkFile_expired now p wf acc1 data hexp (hc.trans hfile)
    (by rw [hd]; exact hstat) (by rw [hd]; exact hrm)
  exact ⟨(hcont hp1 hp2).trans r2, hl.trans r1⟩

/-- An instance of C14: the file `secret.env`, registered with a deadline one second before
the pass. -/
theorem checkFiles_expired_witness :
    (app.checkFiles tableCodec
      { cfg := demoConfig, state := NewState.Register "secret.env" (5000000000 - 1000000000) }
      5000000000 Crypto.demoWorld).2.content "secret.env" = none ∧
    (app.checkFiles tableCodec
      { cfg := demoConfig, state := NewState.Register "secret.env" (5000000000 - 1000000000) }
      5000000000 Crypto.demoWorld).1.state.files.lookup "secret.env" = none :=
  checkFiles_expired tableCodec
    { cfg := demoConfig, state := NewState.Register "secret.env" (5000000000 - 1000000000) }
    5000000000 Crypto.demoWorld "secret.env"
    { Path := "secret.env", ExpiresAt := 5000000000 - 1000000000, Warned := false } [1, 2, 3]
    (by decide) (by decide) (by decide) (by decide) (by decide) (by decide) (by decide)

/-- C17. Ghost entries. For a registered path whose file is missing (the stat fails with
not-exists), whatever the deadline and the warning flag of the entry, one pass of
`checkFiles` leaves no entry for the path, and among the calls of the pass there is none of
`SecureDelete` on the path (no open for writing, no removal) and no notification about it. -/
theorem checkFiles_ghost (C : Codec) (a : app) (now : Time) (w : World) (p : String)
    (wf : WatchedFile)
    (hreg : a.state.files.lookup p = some wf) (hfile : w.content p = none) :
    (a.checkFiles C now w).1.state.files.lookup p = none ∧
    ∃ evs, (a.checkFiles C now w).2.trace = w.trace ++ evs ∧
      ∀ e ∈ evs, Event.deletesOrNotifies p e = false := by
  obtain ⟨acc1, evs, -, ⟨-, hc, evs1, ht1, hn1⟩, hl, ht, hn, -⟩ :=
    checkFiles_decompose C a now w p wf hreg
  obtain ⟨r1, r2⟩ := checkFile_ghost now p wf acc1 (hc.trans hfile)
  refine ⟨hl.trans r1, evs1 ++ [Event.stat p] ++ evs, ?_, ?_⟩
  · rw [ht, r2, ht1]
    simp [List.append_assoc]
  · intro e he
    rcases List.mem_append.1 he with h | h
    · rcases List.mem_append.1 h with h | h
      · exact touches_of_deletesOrNotifies p e (hn1 e h)
      · rw [List.mem_singleton] at h
        subst h
        rfl
    · exact (hn e h).2

/-- An instance of C17: an entry for a file that is not there. -/
theorem checkFiles_ghost_witness :
    (app.checkFiles tableCodec
      { cfg := demoConfig, state := NewState.Register "/tmp/gone.env" 3600 }
      0 Crypto.demoWorld).1.state.files.lookup "/tmp/gone.env" = none :=
  (checkFiles_ghost tableCodec
    { cfg := demoConfig, state := NewState.Register "/tmp/gone.env" 3600 }
    0 Crypto.demoWorld "/tmp/gone.env"
    { Path := "/tmp/gone.env", ExpiresAt := 3600, Warned := false }
    (by decide) (by decide)).1

/-- The round of a file that exists, is not expired, has not been warned about and is inside
the warning window, when neither the stat nor the warning is refused: the entry is marked and
the round makes two calls, the stat and one warning. -/
theorem checkFile_warns (now : Time) (p : String) (wf : WatchedFile)
    (acc : State × Bool × World) (data : Bytes)
    (hreg : acc.1.files.lookup p = some wf) (hW : wf.Warned = false)
    (hlo : wf.ExpiresAt + -WarningWindow < now) (hhi : ¬ wf.ExpiresAt < now)
    (hfile : acc.2.2.content p = some data) (hstat : acc.2.2.denied (.stat p) = false)
    (hwarn : acc.2.2.denied (.warn p wf.ExpiresAt) = false) :
    (checkFile now p wf acc).1.files.lookup p = some { wf with Warned := true } ∧
    (checkFile now p wf acc).2.2.trace =
      acc.2.2.trace ++ [Event.stat p, Event.warn p wf.ExpiresAt] := by
  obtain ⟨s, c, w⟩ := acc
  simp only at hreg hfile hstat hwarn
  have hm : s.MarkWarned p = (true, { files := s.files.insert p { wf with Warned := true } }) := by
    simp [State.MarkWarned, hreg]
  have hcond : (!wf.Warned && decide (wf.ExpiresAt + -WarningWindow < now)) = true := by
    simp [hW, hlo]
  rw [checkFile_eq]
  simp only [hfile, hstat, hwarn, Bool.false_eq_true, if_false, if_neg hhi, if_pos hcond, hm,
    if_true]
  exact ⟨by simp, by simp [World.emit]⟩

/-- The round of an entry that is marked as warned makes no warning call. -/
theorem checkFile_no_warn (now : Time) (p : String) (wf : WatchedFile)
    (acc : State × Bool × World) (hW : wf.Warned = true) :
    ∃ evs, (checkFile now p wf acc).2.2.trace = acc.2.2.trace ++ evs ∧
      ∀ e ∈ evs, Event.isWarn p e = false := by
  obtain ⟨s, c, w⟩ := acc
  have hcond : ¬ (!wf.Warned && decide (wf.ExpiresAt + -WarningWindow < now)) = true := by
    simp [hW]
  have hone : ∀ e ∈ [Event.stat p], Event.isWarn p e = false := by
    intro e he
    rw [List.mem_singleton] at he
    subst he
    rfl
  rw [checkFile_eq]
  cases w.content p with
  | none => exact ⟨[.stat p], rfl, hone⟩
  | some d =>
    simp only
    cases w.denied (.stat p) with
    | true => exact ⟨[.stat p], rfl, hone⟩
    | false =>
      simp only [Bool.false_eq_true, if_false]
      by_cases hexp : wf.ExpiresAt < now
      · rw [if_pos hexp]
        obtain ⟨evs, ht, hk⟩ := SecureDelete_trace p (w.emit (.stat p))
        have hsd : ∀ e ∈ evs, Event.isWarn p e = false := by
          intro e he
          rcases hk e he with h | h | ⟨d, h⟩ | h | h | h <;> subst h <;> rfl
        cases (SecureDelete p (w.emit (.stat p))).1 with
        | true =>
          refine ⟨[.stat p] ++ evs, ?_, ?_⟩
          · simp only [ht, Crypto.emit_trace, List.append_assoc, if_true, Bool.false_eq_true,
              if_false]
          · intro e he
            rcases List.mem_append.1 he with h | h
            · exact hone e h
            · exact hsd e h
        | false =>
          refine ⟨[.stat p] ++ evs ++ [.fileDeleted p], ?_, ?_⟩
          · simp only [ht, Crypto.emit_trace, List.append_assoc, if_true, Bool.false_eq_true,
              if_false]
          · intro e he
            rcases List.mem_append.1 he with h | h
            · rcases List.mem_append.1 h with h | h
              · exact hone e h
              · exact hsd e h
            · rw [List.mem_singleton] at h
              subst h
              rfl
      · rw [if_neg hexp, if_neg hcond]
        exact ⟨[.stat p], rfl, hone⟩

theorem countP_isWarn_zero (p : String) (evs : List Event)
    (h : ∀ e ∈ evs, Event.isWarn p e = false) : evs.countP (Event.isWarn p) = 0 := by
  rw [List.countP_eq_zero]
  intro e he
  simp [h e he]

/-- One pass over a registry in which `p` is marked as warned makes no warning call for
`p`, whatever the time and the world. -/
theorem checkFiles_no_warn (C : Codec) (a : app) (now : Time) (w : World) (p : String)
    (wf : WatchedFile) (hreg : a.state.files.lookup p = some wf) (hW : wf.Warned = true) :
    ∃ evs, (a.checkFiles C now w).2.trace = w.trace ++ evs ∧
      evs.countP (Event.isWarn p) = 0 := by
  obtain ⟨acc1, evs, -, ⟨-, -, evs1, ht1, hn1⟩, -, ht, hn, -⟩ :=
    checkFiles_decompose C a now w p wf hreg
  obtain ⟨evsr, htr, hnr⟩ := checkFile_no_warn now p wf acc1 hW
  refine ⟨evs1 ++ evsr ++ evs, ?_, ?_⟩
  · rw [ht, htr, ht1]
    simp [List.append_assoc]
  · rw [List.countP_append, List.countP_append,
      countP_isWarn_zero p evs1 (fun e he => touches_of_isWarn p e (hn1 e he)),
      countP_isWarn_zero p evsr hnr, countP_isWarn_zero p evs (fun e he => (hn e he).1)]

/-- One pass strictly inside the warning window of an entry that has not been warned about,
whose file exists, when neither the stat nor the warning is refused: the entry is marked and
the pass makes exactly one warning call for the path. -/
theorem checkFiles_warns (C : Codec) (a : app) (now : Time) (w : World) (p : String)
    (wf : WatchedFile) (data : Bytes)
    (hreg : a.state.files.lookup p = some wf) (hW : wf.Warned = false)
    (hlo : wf.ExpiresAt + -WarningWindow < now) (hhi : ¬ wf.ExpiresAt < now)
    (hfile : w.content p = some data) (hstat : w.denied (.stat p) = false)
    (hwarn : w.denied (.warn p wf.ExpiresAt) = false) :
    (a.checkFiles C now w).1.state.files.lookup p = some { wf with Warned := true } ∧
    ∃ evs, (a.checkFiles C now w).2.trace = w.trace ++ evs ∧
      evs.countP (Event.isWarn p) = 1 := by
  obtain ⟨acc1, evs, hreg1, ⟨hd, hc, evs1, ht1, hn1⟩, hl, ht, hn, -⟩ :=
    checkFiles_decompose C a now w p wf hreg
  obtain ⟨r1, r2⟩ := checkFile_warns now p wf acc1 data hreg1 hW hlo hhi (hc.trans hfile)
    (by rw [hd]; exact hstat) (by rw [hd]; exact hwarn)
  refine ⟨hl.trans r1, evs1 ++ [Event.stat p, Event.warn p wf.ExpiresAt] ++ evs, ?_, ?_⟩
  · rw [ht, r2, ht1]
    simp [List.append_assoc]
  · rw [List.countP_append, List.countP_append,
      countP_isWarn_zero p evs1 (fun e he => touches_of_isWarn p e (hn1 e he)),
      countP_isWarn_zero p evs (fun e he => (hn e he).1)]
    simp [List.countP_cons, Event.isWarn]

/-- A deadline of `now` plus the warning window minus one second lies strictly inside the
warning window at `now`. -/
theorem window_arith (now : Int) :
    now + (WarningWindow - Second) + -WarningWindow < now ∧
    ¬ now + (WarningWindow - Second) < now := by
  have h1 : WarningWindow = 300000000000 := by decide
  have h2 : Second = 1000000000 := rfl
  rw [h1, h2]
  omega

/-- The scenario of one hour plus 30 minutes: the warning window opens after 1h25m. -/
theorem scenario_arith (T0 now : Int) (hlo : T0 + Hour + 25 * Minute < now)
    (hhi : now ≤ T0 + Hour + 30 * Minute) :
    T0 + Hour + 30 * Minute + -WarningWindow < now ∧ ¬ T0 + Hour + 30 * Minute < now := by
  have h1 : WarningWindow = 300000000000 := by decide
  have h2 : Hour = 3600000000000 := by decide
  have h3 : Minute = 60000000000 := by decide
  rw [h2, h3] at hlo hhi
  rw [h1, h2, h3]
  omega

/-- C15. Scheduler warning fires once. For a registered path whose file exists, with
`Warned = false` and a deadline of `now` plus the warning window minus one second, one pass
of `checkFiles` at `now` marks the entry as warned and makes exactly one `Warn` call for the
path, provided the stat and the `Warn` call are not refused. A further pass over a registry
that holds the entry as the first pass left it makes no `Warn` call for the path, at any time
(before expiry in particular) and in any world. -/
theorem checkFiles_warns_once (C : Codec) (a : app) (now : Time) (w : World) (p : String)
    (wf : WatchedFile) (data : Bytes)
    (hreg : a.state.files.lookup p = some wf) (hW : wf.Warned = false)
    (hE : wf.ExpiresAt = now + (WarningWindow - Second))
    (hfile : w.content p = some data) (hstat : w.denied (.stat p) = false)
    (hwarn : w.denied (.warn p wf.ExpiresAt) = false) :
    (a.checkFiles C now w).1.state.files.lookup p = some { wf with Warned := true } ∧
    (∃ evs, (a.checkFiles C now w).2.trace = w.trace ++ evs ∧
      evs.countP (Event.isWarn p) = 1) ∧
    ∀ (a2 : app) (now2 : Time) (w2 : World),
      a2.state.files.lookup p = (a.checkFiles C now w).1.state.files.lookup p →
      ∃ evs, (a2.checkFiles C now2 w2).2.trace = w2.trace ++ evs ∧
        evs.countP (Event.isWarn p) = 0 := by
  have hlo : wf.ExpiresAt + -WarningWindow < now := by
    rw [hE]
    exact (window_arith now).1
  have hhi : ¬ wf.ExpiresAt < now := by
    rw [hE]
    exact (window_arith now).2
  obtain ⟨h1, h2⟩ := checkFiles_warns C a now w p wf data hreg hW hlo hhi hfile hstat hwarn
  refine ⟨h1, h2, ?_⟩
  intro a2 now2 w2 h
  exact checkFiles_no_warn C a2 now2 w2 p { wf with Warned := true } (h.trans h1) rfl

/-- An instance of C15: `secret.env` at time 0 with a deadline of 299 seconds; the first pass
marks the entry, a second pass on the result a minute later makes no warning call. -/
theorem checkFiles_warns_once_witness :
    (app.checkFiles tableCodec
      { cfg := demoConfig, state := NewState.Register "secret.env" (0 + (WarningWindow - Second)) }
      0 Crypto.demoWorld).1.state.files.lookup "secret.env" =
      some { Path := "secret.env", ExpiresAt := 0 + (WarningWindow - Second), Warned := true } ∧
    ∃ evs, (app.checkFiles tableCodec
      (app.checkFiles tableCodec
        { cfg := demoConfig,
          state := NewState.Register "secret.env" (0 + (WarningWindow - Second)) }
        0 Crypto.demoWorld).1 Minute Crypto.demoWorld).2.trace = Crypto.demoWorld.trace ++ evs ∧
      evs.countP (Event.isWarn "secret.env") = 0 :=
  have h := checkFiles_warns_once tableCodec
    { cfg := demoConfig, state := NewState.Register "secret.env" (0 + (WarningWindow - Second)) }
    0 Crypto.demoWorld "secret.env"
    { Path := "secret.env", ExpiresAt := 0 + (WarningWindow - Second), Warned := false }
    [1, 2, 3] (by decide) rfl rfl (by decide) (by decide) (by decide)
  ⟨h.1, h.2.2 _ Minute Crypto.demoWorld rfl⟩

/-- The counterexample to C16: the scenario with `T0 = 0`. At exactly `T0 + 1h25m`, the
start of the warning window, the pass makes its stat call and nothing else, and `warned` is
still false: `now.After` is a strict comparison. -/
theorem scenario_no_warning_at_window_start :
    (app.checkFiles tableCodec
      { cfg := demoConfig
        state := ((NewState.Register "secret.env" (0 + Hour)).Extend "secret.env"
          (30 * Minute)).2 }
      (0 + Hour + 25 * Minute) Crypto.demoWorld).1.state.files.lookup "secret.env" =
      some { Path := "secret.env", ExpiresAt := 0 + Hour + 30 * Minute, Warned := false } ∧
    (app.checkFiles tableCodec
      { cfg := demoConfig
        state := ((NewState.Register "secret.env" (0 + Hour)).Extend "secret.env"
          (30 * Minute)).2 }
      (0 + Hour + 25 * Minute) Crypto.demoWorld).2.trace = [Event.stat "secret.env"] := by
  decide

/-- C16, amended. Concrete scenario, warning step. A file that exists is registered at `T0`
with a TTL of one hour and then extended by 30 minutes. A pass of `checkFiles` at any `now`
after `T0 + 1h25m` and not after `T0 + 1h30m` leaves the entry with the deadline
`T0 + 1h30m` and `warned = true`, provided the stat and the `Warn` call are not refused. -/
theorem scenario_warning (C : Codec) (cfg : Config) (s0 : State) (T0 now : Time) (w : World)
    (p : String) (data : Bytes)
    (hlo : T0 + Hour + 25 * Minute < now) (hhi : now ≤ T0 + Hour + 30 * Minute)
    (hfile : w.content p = some data) (hstat : w.denied (.stat p) = false)
    (hwarn : w.denied (.warn p (T0 + Hour + 30 * Minute)) = false) :
    (app.checkFiles C
      { cfg := cfg, state := ((s0.Register p (T0 + Hour)).Extend p (30 * Minute)).2 }
      now w).1.state.files.lookup p =
      some { Path := p, ExpiresAt := T0 + Hour + 30 * Minute, Warned := true } := by
  have hreg : (((s0.Register p (T0 + Hour)).Extend p (30 * Minute)).2).files.lookup p =
      some { Path := p, ExpiresAt := T0 + Hour + 30 * Minute, Warned := false } := by
    simp [State.Register, State.Extend]
  have h := checkFiles_warns C
    { cfg := cfg, state := ((s0.Register p (T0 + Hour)).Extend p (30 * Minute)).2 } now w p
    { Path := p, ExpiresAt := T0 + Hour + 30 * Minute, Warned := false } data hreg rfl
    (scenario_arith T0 now hlo hhi).1 (scenario_arith T0 now hlo hhi).2
    hfile hstat hwarn
  exact h.1

/-- An instance of the amended C16: `T0 = 0` and a pass one nanosecond after `T0 + 1h25m`. -/
theorem scenario_warning_witness :
    (app.checkFiles tableCodec
      { cfg := demoConfig
        state := ((NewState.Register "secret.env" (0 + Hour)).Extend "secret.env"
          (30 * Minute)).2 }
      (0 + Hour + 25 * Minute + 1) Crypto.demoWorld).1.state.files.lookup "secret.env" =
      some { Path := "secret.env", ExpiresAt := 0 + Hour + 30 * Minute, Warned := true } :=
  scenario_warning tableCodec demoConfig NewState 0 (0 + Hour + 25 * Minute + 1)
    Crypto.demoWorld "secret.env" [1, 2, 3] (by decide) (by decide) (by decide) (by decide)
    (by decide)

/-- One round of the shutdown loop when the removal of the path is not refused: the file and
the entry of the path are gone, other files and entries are as before. -/
theorem lockFile_facts (p : String) (acc : State × Bool × World)
    (hrm : acc.2.2.denied (.remove p) = false) :
    (lockFile p acc).2.2.denied = acc.2.2.denied ∧
    (lockFile p acc).2.2.content p = none ∧ (lockFile p acc).1.files.lookup p = none ∧
    (lockFile p acc).2.1 = true ∧
    ∀ q, q ≠ p → (lockFile p acc).2.2.content q = acc.2.2.content q ∧
      (lockFile p acc).1.files.lookup q = acc.1.files.lookup q := by
  obtain ⟨s, c, w⟩ := acc
  obtain ⟨r1, r2, r3⟩ := SecureDelete_removes p w hrm
  have hlf : lockFile p (s, c, w) = (s.StopWatching p, true, (SecureDelete p w).2) := by
    unfold lockFile
    cases hsd : SecureDelete p w with
    | mk r w1 =>
      rw [hsd] at r1
      simp only at r1
      subst r1
      rfl
  rw [hlf]
  refine ⟨r3, r2, by simp [State.StopWatching], rfl, ?_⟩
  intro q hq
  exact ⟨(SecureDelete_awayFrom q p w hq).2.1, by simp [State.StopWatching, AList.lookup_erase_ne hq]⟩

/-- The shutdown loop over paths none of whose removals is refused: the files and the
entries of these paths are gone, all others are as before. -/
theorem lockLoop_facts :
    ∀ (l : List (Sigma fun _ : String => WatchedFile)) (acc : State × Bool × World),
      (∀ q ∈ l.keys, acc.2.2.denied (.remove q) = false) →
      (lockLoop l acc).2.2.denied = acc.2.2.denied ∧
      (∀ q ∈ l.keys, (lockLoop l acc).2.2.content q = none ∧
        (lockLoop l acc).1.files.lookup q = none) ∧
      (∀ q, q ∉ l.keys → (lockLoop l acc).2.2.content q = acc.2.2.content q ∧
        (lockLoop l acc).1.files.lookup q = acc.1.files.lookup q) ∧
      (l ≠ [] → (lockLoop l acc).2.1 = true) ∧
      (acc.2.1 = true → (lockLoop l acc).2.1 = true) := by
  intro l
  induction l with
  | nil =>
    intro acc _
    exact ⟨rfl, by simp [List.keys], fun _ _ => ⟨rfl, rfl⟩, by simp, fun h => h⟩
  | cons e t ih =>
    intro acc h
    have he : acc.2.2.denied (.remove e.1) = false := h e.1 (by simp [List.keys])
    obtain ⟨f1, f2, f3, f4, f5⟩ := lockFile_facts e.1 acc he
    have ht : ∀ q ∈ t.keys, (lockFile e.1 acc).2.2.denied (.remove q) = false := by
      intro q hq
      rw [f1]
      exact h q (by simp [List.keys] at hq ⊢; exact Or.inr hq)
    obtain ⟨g1, g2, g3, -, g5⟩ := ih (lockFile e.1 acc) ht
    have hstep : lockLoop (e :: t) acc = lockLoop t (lockFile e.1 acc) := rfl
    rw [hstep]
    refine ⟨g1.trans f1, ?_, ?_, fun _ => g5 f4, fun _ => g5 f4⟩
    · intro q hq
      by_cases hqt : q ∈ t.keys
      · exact g2 q hqt
      · have hqe : q = e.1 := by
          simp only [List.keys, List.map_cons, List.mem_cons] at hq
          rcases hq with hq | hq
          · exact hq
          · exact absurd hq hqt
        subst hqe
        obtain ⟨k1, k2⟩ := g3 e.1 hqt
        exact ⟨k1.trans f2, k2.trans f3⟩
    · intro q hq
      have hqe : q ≠ e.1 := fun h2 => hq (by simp [List.keys, h2])
      have hqt : q ∉ t.keys := fun h2 => hq (by simp [List.keys] at h2 ⊢; exact Or.inr h2)
      obtain ⟨k1, k2⟩ := g3 q hqt
      obtain ⟨m1, m2⟩ := f5 q hqe
      exact ⟨k1.trans m1, k2.trans m2⟩

/-- A map in which no key has a value has no entries. -/
theorem entries_eq_nil_of_lookup (s : State) (h : ∀ q, s.files.lookup q = none) :
    s.files.entries = [] := by
  cases hl : s.files.entries with
  | nil => rfl
  | cons e t =>
    have hmem : e ∈ s.files.entries := by rw [hl]; exact List.mem_cons_self _ _
    have hsome : s.files.lookup e.1 = some e.2 := by
      have := (AList.mem_lookup_iff (s := s.files) (a := e.1) (b := e.2)).2 hmem
      simpa using this
    rw [h e.1] at hsome
    cases hsome

/-- C20. Fail-safe shutdown. For every registry, after `lockAllWatchedFilesOnExit` the
registry is empty and no watched path has a file any more, provided no removal of a watched
file is refused and no watched path is the state file or its temporary file, which the final
`Save` writes. Files that were already missing count as deleted. -/
theorem lockAllWatchedFilesOnExit_clears (C : Codec) (a : app) (w : World)
    (hrm : ∀ q, a.state.files.lookup q ≠ none → w.denied (.remove q) = false)
    (hst : ∀ q, a.state.files.lookup q ≠ none →
      q ≠ a.cfg.StatePath ∧ q ≠ a.cfg.StatePath ++ ".tmp") :
    (a.lockAllWatchedFilesOnExit C w).1.state.Count = 0 ∧
    (∀ q, (a.lockAllWatchedFilesOnExit C w).1.state.files.lookup q = none) ∧
    ∀ q, a.state.files.lookup q ≠ none →
      (a.lockAllWatchedFilesOnExit C w).2.content q = none := by
  have hkeys : ∀ q, q ∈ a.state.files.entries.keys ↔ a.state.files.lookup q ≠ none := by
    intro q
    have h1 : q ∈ a.state.files.entries.keys ↔ q ∈ a.state.files := Iff.rfl
    rw [h1, ← AList.lookup_isSome]
    cases a.state.files.lookup q <;> simp
  by_cases hlen : a.state.files.entries.length = 0
  · have hnil : a.state.files.entries = [] := List.length_eq_zero.1 hlen
    have hres : a.lockAllWatchedFilesOnExit C w = (a, w) := by
      simp [app.lockAllWatchedFilesOnExit, State.Snapshot, hlen]
    rw [hres]
    have hnone : ∀ q, a.state.files.lookup q = none := by
      intro q
      by_contra hq
      have := (hkeys q).2 hq
      rw [hnil] at this
      simp [List.keys] at this
    exact ⟨hlen, hnone, fun q hq => absurd (hnone q) hq⟩
  · obtain ⟨-, g2, g3, g4, -⟩ := lockLoop_facts a.state.files.entries (a.state, false, w)
      (fun q hq => hrm q ((hkeys q).1 hq))
    have hne : a.state.files.entries ≠ [] := fun h => hlen (by rw [h]; rfl)
    have hch := g4 hne
    have hres : a.lockAllWatchedFilesOnExit C w =
        ({ a with state := (lockLoop a.state.files.entries (a.state, false, w)).1 },
          ((lockLoop a.state.files.entries (a.state, false, w)).1.Save C a.cfg.StatePath
            (lockLoop a.state.files.entries (a.state, false, w)).2.2).2) := by
      simp [app.lockAllWatchedFilesOnExit, State.Snapshot, hlen, hch]
    rw [hres]
    have hnone : ∀ q, (lockLoop a.state.files.entries (a.state, false, w)).1.files.lookup q
        = none := by
      intro q
      by_cases hq : q ∈ a.state.files.entries.keys
      · exact (g2 q hq).2
      · rw [(g3 q hq).2]
        by_contra h2
        exact hq ((hkeys q).2 h2)
    refine ⟨?_, hnone, ?_⟩
    · show (lockLoop a.state.files.entries (a.state, false, w)).1.files.entries.length = 0
      rw [entries_eq_nil_of_lookup _ hnone]
      rfl
    · intro q hq
      obtain ⟨-, f2, -⟩ := Save_facts C (lockLoop a.state.files.entries (a.state, false, w)).1
        a.cfg.StatePath (lockLoop a.state.files.entries (a.state, false, w)).2.2
      show ((lockLoop a.state.files.entries (a.state, false, w)).1.Save C a.cfg.StatePath
        (lockLoop a.state.files.entries (a.state, false, w)).2.2).2.content q = none
      rw [f2 q (hst q hq).1 (hst q hq).2]
      exact (g2 q ((hkeys q).2 hq)).1

/-- An instance of C20: a registry with `secret.env`, which exists, and a path whose file is
already gone. -/
theorem lockAllWatchedFilesOnExit_clears_witness :
    (app.lockAllWatchedFilesOnExit tableCodec
      { cfg := demoConfig
        state := (NewState.Register "secret.env" Hour).Register "/tmp/gone.env" Hour }
      Crypto.demoWorld).1.state.Count = 0 ∧
    (app.lockAllWatchedFilesOnExit tableCodec
      { cfg := demoConfig
        state := (NewState.Register "secret.env" Hour).Register "/tmp/gone.env" Hour }
      Crypto.demoWorld).2.content "secret.env" = none :=
  have h := lockAllWatchedFilesOnExit_clears tableCodec
    { cfg := demoConfig
      state := (NewState.Register "secret.env" Hour).Register "/tmp/gone.env" Hour }
    Crypto.demoWorld (fun _ _ => rfl)
    (fun q hq => by
      have hq2 : q = "/tmp/gone.env" ∨ q = "secret.env" := by
        by_contra hne
        rw [not_or] at hne
        apply hq
        show AList.lookup q (((∅ : FileMap).insert "secret.env" _).insert "/tmp/gone.env" _)
          = none
        rw [AList.lookup_insert_ne hne.1, AList.lookup_insert_ne hne.2]
        rfl
      rcases hq2 with h | h <;> subst h <;> exact ⟨by decide, by decide⟩)
  ⟨h.1, h.2.2 "secret.env" (by decide)⟩

/-- The result of `SecureDelete` in terms of the world it starts in. -/
theorem SecureDelete_result (p : String) (w : World) :
    ((SecureDelete p w).1 = true ↔ w.content p ≠ none ∧ w.denied (.remove p) = true) ∧
    ((SecureDelete p w).1 = false → (SecureDelete p w).2.content p = none) := by
  obtain ⟨f1, f2, -, -⟩ := overwriteFile_facts p w
  rw [SecureDelete_eq]
  cases hc : (overwriteFile p w).content p with
  | none =>
    have hw : w.content p = none := f2.1 hc
    exact ⟨by simp [hw], fun _ => by simpa [World.emit] using hc⟩
  | some d =>
    have hw : w.content p ≠ none := fun h => by rw [f2.2 h] at hc; cases hc
    rw [f1]
    cases hd : w.denied (.remove p) with
    | true => exact ⟨by simp [hw], by simp⟩
    | false => exact ⟨by simp, fun _ => by simp [World.put]⟩

/-- A round that drops the entry of its path: the stat reported not-exists, or the stat
succeeded, the deadline had passed and `SecureDelete` returned without an error; either way
there is no file at the path afterwards. -/
theorem checkFile_removed (now : Time) (p : String) (wf : WatchedFile)
    (acc : State × Bool × World) (hreg : acc.1.files.lookup p = some wf)
    (hnone : (checkFile now p wf acc).1.files.lookup p = none) :
    ((Stat p acc.2.2).1 = some .notExist ∨
      ((Stat p acc.2.2).1 = none ∧ wf.ExpiresAt < now ∧
        (SecureDelete p (Stat p acc.2.2).2).1 = false)) ∧
    (checkFile now p wf acc).2.2.content p = none := by
  obtain ⟨s, c, w⟩ := acc
  simp only at hreg
  have hsome : s.files.lookup p ≠ none := by rw [hreg]; simp
  have hmark : (s.MarkWarned p).2.files.lookup p ≠ none := by
    simp [State.MarkWarned, hreg]
  rw [checkFile_eq] at hnone ⊢
  rw [Stat_result, Stat_world]
  cases hc : w.content p with
  | none => exact ⟨Or.inl rfl, by simpa [World.emit] using hc⟩
  | some d =>
    rw [hc] at hnone
    simp only at hnone ⊢
    cases hd : w.denied (.stat p) with
    | true =>
      rw [hd] at hnone
      exact absurd hnone hsome
    | false =>
      rw [hd] at hnone
      simp only [Bool.false_eq_true, if_false] at hnone ⊢
      by_cases hexp : wf.ExpiresAt < now
      · rw [if_pos hexp] at hnone ⊢
        cases hsd : (SecureDelete p (w.emit (.stat p))).1 with
        | true =>
          rw [hsd] at hnone
          exact absurd hnone hsome
        | false =>
          refine ⟨Or.inr ⟨by simp, hexp, by simp⟩, ?_⟩
          simp only [Bool.false_eq_true, if_false]
          exact (SecureDelete_result p (w.emit (.stat p))).2 hsd
      · rw [if_neg hexp] at hnone
        exfalso
        by_cases hw : (!wf.Warned && decide (wf.ExpiresAt + -WarningWindow < now)) = true
        · rw [if_pos hw] at hnone
          cases hdw : w.denied (.warn p wf.ExpiresAt) with
          | true =>
            rw [hdw] at hnone
            exact hsome hnone
          | false =>
            rw [hdw] at hnone
            simp only [Bool.false_eq_true, if_false] at hnone
            cases hm : (s.MarkWarned p).1 with
            | true =>
              rw [hm] at hnone
              exact hmark hnone
            | false =>
              rw [hm] at hnone
              exact hsome hnone
        · rw [if_neg hw] at hnone
          exact hsome hnone

/-- A round whose stat fails though the file exists, or whose `SecureDelete` fails on an
expired file: the registry is left as it was and no deletion is notified. -/
theorem checkFile_kept (now : Time) (p : String) (wf : WatchedFile)
    (acc : State × Bool × World) (data : Bytes) (hfile : acc.2.2.content p = some data)
    (h : acc.2.2.denied (.stat p) = true ∨
      (wf.ExpiresAt < now ∧ acc.2.2.denied (.remove p) = true)) :
    (checkFile now p wf acc).1 = acc.1 ∧
    ∃ evs, (checkFile now p wf acc).2.2.trace = acc.2.2.trace ++ evs ∧
      Event.fileDeleted p ∉ evs := by
  obtain ⟨s, c, w⟩ := acc
  simp only at hfile h
  rw [checkFile_eq]
  simp only [hfile]
  cases hd : w.denied (.stat p) with
  | true => exact ⟨rfl, [.stat p], rfl, by simp⟩
  | false =>
    rw [hd] at h
    rcases h with h | ⟨hexp, hrm⟩
    · cases h
    · have hsd : (SecureDelete p (w.emit (.stat p))).1 = true :=
        (SecureDelete_result p (w.emit (.stat p))).1.2
          ⟨by simp [World.emit, hfile], by simpa [World.emit] using hrm⟩
      obtain ⟨evs, ht, hk⟩ := SecureDelete_trace p (w.emit (.stat p))
      simp only [Bool.false_eq_true, if_false, if_pos hexp, hsd, if_true]
      refine ⟨by simp, [.stat p] ++ evs, ?_, ?_⟩
      · simp only [ht, Crypto.emit_trace, List.append_assoc]
      · intro hmem
        rcases List.mem_append.1 hmem with h2 | h2
        · simp at h2
        · rcases hk _ h2 with h3 | h3 | ⟨d, h3⟩ | h3 | h3 | h3 <;> cases h3

/-- C24. No tracked plaintext is dropped while it is still on disk. For a registered path
`p` and one pass of `checkFiles`: if the pass removes the entry of `p`, then in the world of
the round of `p` (which earlier rounds have left alone as far as `p` goes) the stat reported
not-exists, or the stat succeeded, the deadline had passed and `SecureDelete` returned
without an error; and after the pass there is no file at `p`, unless `p` is the state file or
its temporary file. If the file exists and its stat fails, or the entry is expired and the
removal of the file is refused, so that `SecureDelete` fails, then the entry is in the
registry afterwards as it was before and the pass sends no deletion notification for `p`. -/
theorem checkFiles_keeps_tracked (C : Codec) (a : app) (now : Time) (w : World) (p : String)
    (wf : WatchedFile) (hreg : a.state.files.lookup p = some wf) :
    ((a.checkFiles C now w).1.state.files.lookup p = none →
      (∃ w1, World.awayFrom p w w1 ∧
        ((Stat p w1).1 = some .notExist ∨
          ((Stat p w1).1 = none ∧ wf.ExpiresAt < now ∧
            (SecureDelete p (Stat p w1).2).1 = false))) ∧
      (p ≠ a.cfg.StatePath → p ≠ a.cfg.StatePath ++ ".tmp" →
        (a.checkFiles C now w).2.content p = none)) ∧
    (∀ data, w.content p = some data →
      (w.denied (.stat p) = true ∨ (wf.ExpiresAt < now ∧ w.denied (.remove p) = true)) →
      (a.checkFiles C now w).1.state.files.lookup p = some wf ∧
      ∃ evs, (a.checkFiles C now w).2.trace = w.trace ++ evs ∧
        Event.fileDeleted p ∉ evs) := by
  obtain ⟨acc1, evs, hreg1, haway, hl, ht, hn, hcont⟩ :=
    checkFiles_decompose C a now w p wf hreg
  refine ⟨?_, ?_⟩
  · intro hnone
    obtain ⟨r1, r2⟩ := checkFile_removed now p wf acc1 hreg1 (hl.symm.trans hnone)
    exact ⟨⟨acc1.2.2, haway, r1⟩, fun h1 h2 => (hcont h1 h2).trans r2⟩
  · intro data hfile h
    obtain ⟨hd, hc, evs1, ht1, hn1⟩ := haway
    obtain ⟨k1, evsr, k2, k3⟩ := checkFile_kept now p wf acc1 data (hc.trans hfile)
      (by rw [hd]; exact h)
    refine ⟨?_, evs1 ++ evsr ++ evs, ?_, ?_⟩
    · rw [hl, k1]
      exact hreg1
    · rw [ht, k2, ht1]
      simp [List.append_assoc]
    · intro hmem
      rcases List.mem_append.1 hmem with h2 | h2
      · rcases List.mem_append.1 h2 with h3 | h3
        · have := hn1 _ h3
          simp [Event.touches] at this
        · exact k3 h3
      · have := (hn _ h2).2
        simp [Event.deletesOrNotifies] at this

/-- An instance of C24: the removal of the expired `secret.env` is refused; the entry stays
as it was. -/
theorem checkFiles_keeps_tracked_witness :
    (app.checkFiles tableCodec
      { cfg := demoConfig, state := NewState.Register "secret.env" Hour }
      (Hour + Second)
      { Crypto.demoWorld with
        denied := fun e => e == .remove "secret.env" }).1.state.files.lookup "secret.env" =
      some { Path := "secret.env", ExpiresAt := Hour, Warned := false } :=
  ((checkFiles_keeps_tracked tableCodec
    { cfg := demoConfig, state := NewState.Register "secret.env" Hour } (Hour + Second)
    { Crypto.demoWorld with denied := fun e => e == .remove "secret.env" } "secret.env"
    { Path := "secret.env", ExpiresAt := Hour, Warned := false } (by decide)).2
    [1, 2, 3] (by decide) (Or.inr ⟨by decide, by decide⟩)).1

/-! ### The extend signal (app.loop) -/

/-- The counterexample to C22: an extend signal for a path that is not in the registry. The
loop makes no call at all, whereas a `Save` of the same registry would begin by opening the
temporary state file. -/
theorem loop_extendCh_unregistered_no_save :
    (app.loop_extendCh tableCodec { cfg := demoConfig, state := NewState } "/tmp/secret.env"
      Crypto.demoWorld).2.trace = [] ∧
    ((NewState.Save tableCodec demoConfig.StatePath Crypto.demoWorld).2.trace).head? =
      some (Event.openFile "/app/state.json.tmp") := by
  decide

/-- C22, amended. Extend signal persistence. When the scheduler loop processes an extend
signal for a path, it saves the registry exactly when the path is registered. For a path
that is not in the registry the extend is a no-op and nothing follows: the registry and the
world, its trace of calls included, are what they were. For a registered path the deadline
moves by the default TTL, `warned` is cleared, and the world is the one that `Save` of the
new registry to the state file leaves. -/
theorem loop_extendCh_saves_iff_registered (C : Codec) (a : app) (path : String) (w : World) :
    (a.state.files.lookup path = none → a.loop_extendCh C path w = (a, w)) ∧
    (∀ wf, a.state.files.lookup path = some wf →
      (a.loop_extendCh C path w).1.state.files.lookup path =
        some { wf with ExpiresAt := wf.ExpiresAt + a.cfg.DefaultTTL, Warned := false } ∧
      (a.loop_extendCh C path w).2 =
        ((a.loop_extendCh C path w).1.state.Save C a.cfg.StatePath w).2) := by
  refine ⟨?_, ?_⟩
  · intro h
    simp [app.loop_extendCh, State.Extend, h]
  · intro wf h
    simp [app.loop_extendCh, State.Extend, h]

/-- An instance of the amended C22, on both sides: an unregistered path, and `secret.env`
registered with a deadline of one hour. -/
theorem loop_extendCh_saves_iff_registered_witness :
    app.loop_extendCh tableCodec { cfg := demoConfig, state := NewState } "/tmp/secret.env"
      Crypto.demoWorld = ({ cfg := demoConfig, state := NewState }, Crypto.demoWorld) ∧
    (app.loop_extendCh tableCodec
      { cfg := demoConfig, state := NewState.Register "secret.env" Hour } "secret.env"
      Crypto.demoWorld).1.state.files.lookup "secret.env" =
      some { Path := "secret.env", ExpiresAt := Hour + demoConfig.DefaultTTL, Warned := false } :=
  ⟨(loop_extendCh_saves_iff_registered tableCodec { cfg := demoConfig, state := NewState }
      "/tmp/secret.env" Crypto.demoWorld).1 (by decide),
   ((loop_extendCh_saves_iff_registered tableCodec
      { cfg := demoConfig, state := NewState.Register "secret.env" Hour } "secret.env"
      Crypto.demoWorld).2
      { Path := "secret.env", ExpiresAt := Hour, Warned := false } (by decide)).1⟩

/-! ### Order of effects in a pass -/

/-- The calls of `SecureDelete`: calls on the open file, then the removal as the last one. -/
theorem SecureDelete_trace_last (p : String) (w : World) :
    ∃ pre, (SecureDelete p w).2.trace = w.trace ++ pre ++ [Event.remove p] ∧
      ∀ e ∈ pre, e = Event.openWrite p ∨ e = Event.fstat p ∨
        (∃ d, e = Event.write p d) ∨ e = Event.sync p ∨ e = Event.close p := by
  obtain ⟨-, -, -, evs, f4, f5⟩ := overwriteFile_facts p w
  refine ⟨evs, ?_, f5⟩
  rw [SecureDelete_eq]
  cases (overwriteFile p w).content p with
  | none => simp [World.emit, f4]
  | some d =>
    cases (overwriteFile p w).denied (.remove p) <;> simp [World.emit, World.put, f4]

/-- No round of the loop of `checkFiles` makes a call of `Save`. -/
theorem checkFile_calls (now : Time) (p : String) (wf : WatchedFile)
    (acc : State × Bool × World) :
    ∃ evs, (checkFile now p wf acc).2.2.trace = acc.2.2.trace ++ evs ∧
      ∀ e ∈ evs, Event.savesState e = false := by
  obtain ⟨s, c, w⟩ := acc
  have hone : ∀ e ∈ [Event.stat p], Event.savesState e = false := by
    intro e he
    rw [List.mem_singleton] at he
    subst he
    rfl
  have htwo : ∀ e ∈ [Event.stat p, Event.warn p wf.ExpiresAt], Event.savesState e = false := by
    intro e he
    simp only [List.mem_cons, List.mem_singleton, List.not_mem_nil, or_false] at he
    rcases he with h | h <;> subst h <;> rfl
  rw [checkFile_eq]
  cases w.content p with
  | none => exact ⟨[.stat p], rfl, hone⟩
  | some d =>
    simp only
    cases w.denied (.stat p) with
    | true => exact ⟨[.stat p], rfl, hone⟩
    | false =>
      simp only [Bool.false_eq_true, if_false]
      by_cases hexp : wf.ExpiresAt < now
      · rw [if_pos hexp]
        obtain ⟨evs, ht, hk⟩ := SecureDelete_trace p (w.emit (.stat p))
        have hsd : ∀ e ∈ evs, Event.savesState e = false := by
          intro e he
          rcases hk e he with h | h | ⟨d, h⟩ | h | h | h <;> subst h <;> rfl
        cases (SecureDelete p (w.emit (.stat p))).1 with
        | true =>
          refine ⟨[.stat p] ++ evs, ?_, ?_⟩
          · simp only [ht, Crypto.emit_trace, List.append_assoc, if_true]
          · intro e he
            rcases List.mem_append.1 he with h | h
            · exact hone e h
            · exact hsd e h
        | false =>
          refine ⟨[.stat p] ++ evs ++ [.fileDeleted p], ?_, ?_⟩
          · simp only [ht, Crypto.emit_trace, List.append_assoc, Bool.false_eq_true, if_false]
          · intro e he
            rcases List.mem_append.1 he with h | h
            · rcases List.mem_append.1 h with h | h
              · exact hone e h
              · exact hsd e h
            · rw [List.mem_singleton] at h
              subst h
              rfl
      · rw [if_neg hexp]
        by_cases hw : (!wf.Warned && decide (wf.ExpiresAt + -WarningWindow < now)) = true
        · rw [if_pos hw]
          cases w.denied (.warn p wf.ExpiresAt) with
          | true => exact ⟨[.stat p, .warn p wf.ExpiresAt], by simp [World.emit], htwo⟩
          | false =>
            simp only [Bool.false_eq_true, if_false]
            cases (s.MarkWarned p).1 with
            | true => exact ⟨[.stat p, .warn p wf.ExpiresAt], by simp [World.emit], htwo⟩
            | false => exact ⟨[.stat p, .warn p wf.ExpiresAt], by simp [World.emit], htwo⟩
        · rw [if_neg hw]
          exact ⟨[.stat p], rfl, hone⟩

/-- A round of the loop never resets the variable `changed`. -/
theorem checkFile_changed (now : Time) (p : String) (wf : WatchedFile)
    (acc : State × Bool × World) (h : acc.2.1 = true) : (checkFile now p wf acc).2.1 = true := by
  obtain ⟨s, c, w⟩ := acc
  simp only at h
  subst h
  rw [checkFile_eq]
  cases w.content p with
  | none => rfl
  | some d =>
    simp only
    cases w.denied (.stat p) with
    | true => rfl
    | false =>
      simp only [Bool.false_eq_true, if_false]
      by_cases hexp : wf.ExpiresAt < now
      · rw [if_pos hexp]
        cases (SecureDelete p (w.emit (.stat p))).1 <;> rfl
      · rw [if_neg hexp]
        by_cases hw : (!wf.Warned && decide (wf.ExpiresAt + -WarningWindow < now)) = true
        · rw [if_pos hw]
          cases w.denied (.warn p wf.ExpiresAt) with
          | true => rfl
          | false =>
            simp only [Bool.false_eq_true, if_false]
            cases (s.MarkWarned p).1 <;> rfl
        · rw [if_neg hw]

/-- The loop of `checkFiles` makes no call of `Save` and never resets `changed`. -/
theorem checkLoop_calls (now : Time) :
    ∀ (l : List (Sigma fun _ : String => WatchedFile)) (acc : State × Bool × World),
      (acc.2.1 = true → (checkLoop now l acc).2.1 = true) ∧
      ∃ evs, (checkLoop now l acc).2.2.trace = acc.2.2.trace ++ evs ∧
        ∀ e ∈ evs, Event.savesState e = false := by
  intro l
  induction l with
  | nil => intro acc; exact ⟨fun h => h, [], by simp [checkLoop], by simp⟩
  | cons e t ih =>
    intro acc
    obtain ⟨evs1, t1, k1⟩ := checkFile_calls now e.1 e.2 acc
    obtain ⟨c2, evs2, t2, k2⟩ := ih (checkFile now e.1 e.2 acc)
    have hstep : checkLoop now (e :: t) acc = checkLoop now t (checkFile now e.1 e.2 acc) := rfl
    rw [hstep]
    refine ⟨fun h => c2 (checkFile_changed now e.1 e.2 acc h), evs1 ++ evs2, ?_, ?_⟩
    · rw [t2, t1, List.append_assoc]
    · intro x hx
      rcases List.mem_append.1 hx with h | h
      · exact k1 x h
      · exact k2 x h

/-- The round of an expired file that exists, when neither the stat nor the removal is
refused: the entry is dropped, `changed` is set, and the calls are the stat, the calls of
`SecureDelete` with the removal as the last one, and then the deletion notification. -/
theorem checkFile_expired_trace (now : Time) (p : String) (wf : WatchedFile)
    (acc : State × Bool × World) (data : Bytes) (hexp : wf.ExpiresAt < now)
    (hfile : acc.2.2.content p = some data) (hstat : acc.2.2.denied (.stat p) = false)
    (hrm : acc.2.2.denied (.remove p) = false) :
    (checkFile now p wf acc).1 = acc.1.StopWatching p ∧ (checkFile now p wf acc).2.1 = true ∧
    ∃ pre, (checkFile now p wf acc).2.2.trace =
        acc.2.2.trace ++ pre ++ [Event.remove p, Event.fileDeleted p] ∧
      Event.remove p ∉ pre ∧ Event.fileDeleted p ∉ pre ∧
      ∀ e ∈ pre, Event.savesState e = false := by
  obtain ⟨s, c, w⟩ := acc
  obtain ⟨r1, -, -⟩ := SecureDelete_removes p (w.emit (.stat p)) hrm
  obtain ⟨pre, ht, hk⟩ := SecureDelete_trace_last p (w.emit (.stat p))
  rw [checkFile_eq]
  simp only at hfile hstat
  simp only [hfile, hstat, Bool.false_eq_true, if_false, if_pos hexp, r1]
  refine ⟨trivial, trivial, [.stat p] ++ pre, ?_, ?_, ?_, ?_⟩
  · simp only [ht, Crypto.emit_trace, List.append_assoc, List.singleton_append,
      List.cons_append, List.nil_append]
  · intro hmem
    rcases List.mem_append.1 hmem with h | h
    · simp at h
    · rcases hk _ h with h3 | h3 | ⟨d, h3⟩ | h3 | h3 <;> cases h3
  · intro hmem
    rcases List.mem_append.1 hmem with h | h
    · simp at h
    · rcases hk _ h with h3 | h3 | ⟨d, h3⟩ | h3 | h3 <;> cases h3
  · intro e hmem
    rcases List.mem_append.1 hmem with h | h
    · rw [List.mem_singleton] at h
      subst h
      rfl
    · rcases hk _ h with h3 | h3 | ⟨d, h3⟩ | h3 | h3 <;> subst h3 <;> rfl

/-- C21. Order of effects on expiry, the failing input: the pass that finds `secret.env`
expired. The deletion notification follows the removal of the file at once; the calls of
`Save` (open, write, sync and close of the temporary file, rename, chmod) come after it, so
the notification is sent before the registry is persisted. -/
theorem checkFiles_notifies_before_save :
    (app.checkFiles tableCodec
      { cfg := demoConfig, state := NewState.Register "secret.env" Hour }
      (Hour + Second) Crypto.demoWorld).2.trace =
      [Event.stat "secret.env", Event.openWrite "secret.env", Event.fstat "secret.env",
        Event.write "secret.env" [0, 0, 0], Event.sync "secret.env", Event.close "secret.env",
        Event.remove "secret.env", Event.fileDeleted "secret.env",
        Event.openFile "/app/state.json.tmp", Event.write "/app/state.json.tmp" [91, 93],
        Event.sync "/app/state.json.tmp", Event.close "/app/state.json.tmp",
        Event.rename "/app/state.json.tmp" "/app/state.json", Event.chmod "/app/state.json"] := by
  decide

/-- The order of effects that `checkFiles` has on expiry. When a pass finds a registered
file whose deadline has passed (the file exists, its stat and its removal are not refused),
the effects come in this order: the secure deletion, whose last call is the removal of the
file; the deletion notification, right after the removal; and, after the loop over the
registry has ended, the persistence: the pass ends with the `Save` of the registry, which by
then has no entry for the path. No call of `Save` is made before that. -/
theorem checkFiles_expiry_order (C : Codec) (a : app) (now : Time) (w : World) (p : String)
    (wf : WatchedFile) (data : Bytes)
    (hreg : a.state.files.lookup p = some wf) (hexp : wf.ExpiresAt < now)
    (hfile : w.content p = some data)
    (hstat : w.denied (.stat p) = false) (hrm : w.denied (.remove p) = false) :
    ∃ (wl : World) (pre mid : List Event),
      wl.trace = w.trace ++ pre ++ [Event.remove p, Event.fileDeleted p] ++ mid ∧
      Event.remove p ∉ pre ∧ Event.fileDeleted p ∉ pre ∧
      (∀ e ∈ pre ++ mid, Event.savesState e = false) ∧
      (a.checkFiles C now w).1.state.files.lookup p = none ∧
      (a.checkFiles C now w).2 =
        ((a.checkFiles C now w).1.state.Save C a.cfg.StatePath wl).2 := by
  obtain ⟨l1, l2, hsplit, hp1, hp2⟩ := entries_split a.state p wf hreg
  obtain ⟨-, hd, hc, evs1, ht1, hn1⟩ := checkLoop_other p now l1 (a.state, false, w) hp1
  obtain ⟨-, evs1b, ht1b, hk1⟩ := checkLoop_calls now l1 (a.state, false, w)
  have hev : evs1b = evs1 := List.append_cancel_left (ht1b.symm.trans ht1)
  subst hev
  obtain ⟨r1, r2, rpre, r3, r4, r5, r6⟩ := checkFile_expired_trace now p wf
    (checkLoop now l1 (a.state, false, w)) data hexp (hc.trans hfile)
    (by rw [hd]; exact hstat) (by rw [hd]; exact hrm)
  obtain ⟨s2, -⟩ := checkLoop_other p now l2
    (checkFile now p wf (checkLoop now l1 (a.state, false, w))) hp2
  obtain ⟨c2, evs2, ht2, hk2⟩ := checkLoop_calls now l2
    (checkFile now p wf (checkLoop now l1 (a.state, false, w)))
  have hloop : checkLoop now a.state.Snapshot.entries (a.state, false, w) =
      checkLoop now l2 (checkFile now p wf (checkLoop now l1 (a.state, false, w))) := by
    show checkLoop now a.state.files.entries (a.state, false, w) = _
    rw [hsplit, checkLoop_append]
    rfl
  have hres : a.checkFiles C now w =
      ({ a with state := (checkLoop now l2
          (checkFile now p wf (checkLoop now l1 (a.state, false, w)))).1 },
        ((checkLoop now l2 (checkFile now p wf (checkLoop now l1 (a.state, false, w)))).1.Save
          C a.cfg.StatePath
          (checkLoop now l2 (checkFile now p wf (checkLoop now l1 (a.state, false, w)))).2.2).2)
      := by
    unfold app.checkFiles
    simp only [hloop, c2 r2, if_true]
  refine ⟨(checkLoop now l2 (checkFile now p wf (checkLoop now l1 (a.state, false, w)))).2.2,
    evs1b ++ rpre, evs2, ?_, ?_, ?_, ?_, ?_, ?_⟩
  · rw [ht2, r3, ht1]
    simp only [List.append_assoc]
  · intro hmem
    rcases List.mem_append.1 hmem with h | h
    · have := hn1 _ h
      simp [Event.touches] at this
    · exact r4 h
  · intro hmem
    rcases List.mem_append.1 hmem with h | h
    · have := hn1 _ h
      simp [Event.touches] at this
    · exact r5 h
  · intro e hmem
    rcases List.mem_append.1 hmem with h | h
    · rcases List.mem_append.1 h with h | h
      · exact hk1 e h
      · exact r6 e h
    · exact hk2 e h
  · rw [hres]
    show (checkLoop now l2 (checkFile now p wf
      (checkLoop now l1 (a.state, false, w)))).1.files.lookup p = none
    rw [s2, r1]
    simp [State.StopWatching]
  · rw [hres]

/-- An instance: the pass that finds `secret.env` expired ends with the
`Save` of a registry without an entry for it, in a world whose trace already holds the
removal and the notification. -/
theorem checkFiles_expiry_order_witness :
    ∃ (wl : World) (pre mid : List Event),
      wl.trace = Crypto.demoWorld.trace ++ pre ++
        [Event.remove "secret.env", Event.fileDeleted "secret.env"] ++ mid ∧
      Event.remove "secret.env" ∉ pre ∧ Event.fileDeleted "secret.env" ∉ pre ∧
      (∀ e ∈ pre ++ mid, Event.savesState e = false) ∧
      (app.checkFiles tableCodec
        { cfg := demoConfig, state := NewState.Register "secret.env" Hour }
        (Hour + Second) Crypto.demoWorld).1.state.files.lookup "secret.env" = none ∧
      (app.checkFiles tableCodec
        { cfg := demoConfig, state := NewState.Register "secret.env" Hour }
        (Hour + Second) Crypto.demoWorld).2 =
        ((app.checkFiles tableCodec
          { cfg := demoConfig, state := NewState.Register "secret.env" Hour }
          (Hour + Second) Crypto.demoWorld).1.state.Save tableCodec demoConfig.StatePath wl).2 :=
  checkFiles_expiry_order tableCodec
    { cfg := demoConfig, state := NewState.Register "secret.env" Hour } (Hour + Second)
    Crypto.demoWorld "secret.env" { Path := "secret.env", ExpiresAt := Hour, Warned := false }
    [1, 2, 3] (by decide) (by decide) (by decide) (by decide) (by decide)

end App

end Dotward
